import Mathlib

/-!
Verification development for a small Kolmogorov-Arnold Network (KAN) engine
whose edges are learnable univariate B-spline functions.

The TypeScript source (`nn_kan.ts`) is shallowly embedded here:
JavaScript numbers are modelled as exact rationals (`ℚ`), mutable objects as
explicit state passing, the node/edge object graph as an arena (stores
`ℕ → NodeSt` / `ℕ → EdgeSt` indexed by arena ids, layers as lists of node ids),
and `for` loops as folds over index lists or structural recursion on counters.
The binary search of `findKnotSpan` carries explicit fuel (the JS `while` loop
is not structurally decreasing); fuel exhaustion returns the current `mid`,
which agrees with the JS loop on every terminating execution.
-/

/-- `[s, s+1, ..., s+n-1]`: an ascending `for` loop counter. -/
def ascList : ℕ → ℕ → List ℕ
  | _, 0 => []
  | s, n + 1 => s :: ascList (s + 1) n

/-- `[r+k-1, r+k-2, ..., r]`: a descending `for` loop counter. -/
def descList : ℕ → ℕ → List ℕ
  | _, 0 => []
  | r, k + 1 => (r + k) :: descList r k

/-- Pointwise update of a store `ℕ → α` (one heap cell assignment). -/
def updFn {α : Type} (f : ℕ → α) (i : ℕ) (v : α) : ℕ → α :=
  fun j => if j = i then v else f j

theorem updFn_same {α : Type} (f : ℕ → α) (i : ℕ) (v : α) : updFn f i v i = v := by
  simp [updFn]

theorem updFn_other {α : Type} (f : ℕ → α) (i j : ℕ) (v : α) (h : j ≠ i) :
    updFn f i v j = f j := by
  simp [updFn, h]

theorem mem_ascList {a s n : ℕ} : a ∈ ascList s n ↔ s ≤ a ∧ a < s + n := by
  induction n generalizing s with
  | zero => simp [ascList]
  | succ n ih =>
    simp [ascList, ih]
    omega

theorem mem_descList {a r k : ℕ} : a ∈ descList r k ↔ r ≤ a ∧ a < r + k := by
  induction k with
  | zero => simp [descList]
  | succ k ih =>
    simp [descList, ih]
    omega

/-- Generic `foldl` invariant preservation. -/
theorem foldl_inv {α σ : Type} (P : σ → Prop) (f : σ → α → σ) :
    ∀ (l : List α) (s : σ), (∀ s a, a ∈ l → P s → P (f s a)) → P s → P (List.foldl f s l) := by
  intro l
  induction l with
  | nil => intro s _ hs; simpa using hs
  | cons x xs ih =>
    intro s hstep hs
    simp only [List.foldl_cons]
    exact ih (f s x) (fun s' a ha => hstep s' a (List.mem_cons_of_mem _ ha)) (hstep s x (List.mem_cons_self _ _) hs)

/-!
## The learnable B-spline function

Faithful embedding of class `LearnableFunction` (ids, which are semantically
inert strings used only for display, are elided).
-/

structure LearnableFunction where
  gridSize : ℕ
  degree : ℕ
  inputRange : ℚ × ℚ
  knotVector : List ℚ
  controlPoints : List ℚ
deriving DecidableEq

/-- `initializeKnotVector`: clamped knot vector, `degree+1` copies of `min`,
uniformly spaced internal knots, `degree+1` copies of `max`. -/
def initializeKnotVector (degree gridSize : ℕ) (mn mx : ℚ) : List ℚ :=
  List.replicate (degree + 1) mn
    ++ (List.range (gridSize - degree)).map
        (fun i : ℕ => mn + (mx - mn) * ((i : ℚ) + 1) / (((gridSize - degree : ℕ) : ℚ) + 1))
    ++ List.replicate (degree + 1) mx

/-- The `LearnableFunction` constructor: caps the degree at `gridSize - 1` and
builds the clamped knot vector.  The control points (`Math.random()` in the
source) are passed in explicitly. -/
def mkLearnableFunction (gridSize : ℕ) (range : ℚ × ℚ) (degree : ℕ) (cps : List ℚ) :
    LearnableFunction :=
  let p := min degree (gridSize - 1)
  { gridSize := gridSize
    degree := p
    inputRange := range
    knotVector := initializeKnotVector p gridSize range.1 range.2
    controlPoints := cps }

namespace LearnableFunction

/-- Input clamping used at the head of `evaluate` and `getControlPointGradients`. -/
def clampInput (f : LearnableFunction) (x : ℚ) : ℚ :=
  max f.inputRange.1 (min f.inputRange.2 x)

/-- The binary-search `while` loop of `findKnotSpan`, with fuel.  `mid` is
recomputed from `(low, high)` at each iteration, exactly as in the source. -/
def findSpanLoop (kv : List ℚ) (x : ℚ) : ℕ → ℕ → ℕ → ℕ
  | 0, low, high => (low + high) / 2
  | fuel + 1, low, high =>
    let mid := (low + high) / 2
    if x < kv.getD mid 0 then findSpanLoop kv x fuel low mid
    else if kv.getD (mid + 1) 0 ≤ x then findSpanLoop kv x fuel mid high
    else mid

/-- `findKnotSpan`: boundary rules, then binary search. -/
def findKnotSpan (f : LearnableFunction) (x : ℚ) : ℕ :=
  let n := f.controlPoints.length - 1
  let p := f.degree
  if f.knotVector.getD (n + 1) 0 ≤ x then n
  else if x ≤ f.knotVector.getD p 0 then p
  else findSpanLoop f.knotVector x (f.knotVector.length + 1) p (n + 1)

/-- The initial `d` array of `deBoor`: `d[j] = controlPoints[span - p + j]`. -/
def deBoorInit (f : LearnableFunction) (span : ℕ) : ℕ → ℚ :=
  fun j => f.controlPoints.getD (span - f.degree + j) 0

/-- One assignment `d[j] = (1-alpha)*d[j-1] + alpha*d[j]` of the inner
`deBoor` loop at round `r`. -/
def deBoorStep (f : LearnableFunction) (span r : ℕ) (x : ℚ) (d : ℕ → ℚ) (j : ℕ) : ℕ → ℚ :=
  let knotLeft := f.knotVector.getD (span - f.degree + j) 0
  let knotRight := f.knotVector.getD (span + j - r + 1) 0
  let alpha := (x - knotLeft) / (knotRight - knotLeft)
  updFn d j ((1 - alpha) * d (j - 1) + alpha * d j)

/-- `deBoor`: outer loop over `r = 1..p`, inner loop over `j = p` down to `r`,
then return `d[p]`. -/
def deBoor (f : LearnableFunction) (span : ℕ) (x : ℚ) : ℚ :=
  let p := f.degree
  let dFinal :=
    (ascList 1 p).foldl
      (fun d r => (descList r (p + 1 - r)).foldl (deBoorStep f span r x) d)
      (deBoorInit f span)
  dFinal p

/-- `evaluate`: clamp into range, locate the knot span, run de Boor. -/
def evaluate (f : LearnableFunction) (x : ℚ) : ℚ :=
  let xc := f.clampInput x
  deBoor f (findKnotSpan f xc) xc

/-- `derivative`: symmetric finite difference with step `1e-6`, clamped, with
a degenerate-interval guard at `1e-10`. -/
def derivative (f : LearnableFunction) (x : ℚ) : ℚ :=
  let h : ℚ := 1 / 1000000
  let x1 := max f.inputRange.1 (x - h)
  let x2 := min f.inputRange.2 (x + h)
  if x2 - x1 < 1 / 10000000000 then 0
  else (f.evaluate x2 - f.evaluate x1) / (x2 - x1)

/-- The parameter-update loop `controlPoints[i] -= lr * gradients[i]`,
running over `i < min(controlPoints.length, gradients.length)`. -/
def updList (lr : ℚ) : List ℚ → List ℚ → List ℚ
  | cp, [] => cp
  | [], _ => []
  | c :: cp, g :: gs => (c - lr * g) :: updList lr cp gs

/-- `updateParameters`: subtract `lr * gradients[i]` from each control point. -/
def updateParameters (f : LearnableFunction) (gradients : List ℚ) (lr : ℚ) :
    LearnableFunction :=
  { f with controlPoints := updList lr f.controlPoints gradients }

/-- The `left[i]` value of `computeBasisFunctions` (`x - knot[span+1-i]`);
`left[i]` is written in round `i` and only read in rounds `≥ i`, so it is a
pure function of its index. -/
def basisLeft (f : LearnableFunction) (span : ℕ) (x : ℚ) (i : ℕ) : ℚ :=
  x - f.knotVector.getD (span + 1 - i) 0

/-- The `right[i]` value of `computeBasisFunctions` (`knot[span+i] - x`). -/
def basisRight (f : LearnableFunction) (span : ℕ) (x : ℚ) (i : ℕ) : ℚ :=
  f.knotVector.getD (span + i) 0 - x

/-- One iteration of the inner `r` loop of `computeBasisFunctions`:
state is `(basisFunctions, saved)`. -/
def basisStep (f : LearnableFunction) (span : ℕ) (x : ℚ) (j : ℕ)
    (st : (ℕ → ℚ) × ℚ) (r : ℕ) : (ℕ → ℚ) × ℚ :=
  let temp := st.1 r / (basisRight f span x (r + 1) + basisLeft f span x (j - r))
  (updFn st.1 r (st.2 + basisRight f span x (r + 1) * temp),
   basisLeft f span x (j - r) * temp)

/-- One round `j` of `computeBasisFunctions`: run the inner loop with
`saved = 0`, then `basisFunctions[j] = saved`. -/
def basisRound (f : LearnableFunction) (span : ℕ) (x : ℚ) (bf : ℕ → ℚ) (j : ℕ) : ℕ → ℚ :=
  let st := (ascList 0 j).foldl (basisStep f span x j) (bf, 0)
  updFn st.1 j st.2

/-- `computeBasisFunctions`: the standard triangular basis-function recurrence;
`basisFunctions[0] = 1`, rounds `j = 1..p`. -/
def computeBasisFunctions (f : LearnableFunction) (span : ℕ) (x : ℚ) : ℕ → ℚ :=
  (ascList 1 f.degree).foldl (basisRound f span x) (fun i => if i = 0 then 1 else 0)

/-- `getControlPointGradients`: zero vector of length `controlPoints.length`
with the `p+1` active basis values written at `span - p + j` (the source guards
`controlPointIndex >= 0 && controlPointIndex < gradients.length`; the lower
guard is `p ≤ span + j`, the upper is subsumed by `List.set` being inert out of
range). -/
def getControlPointGradients (f : LearnableFunction) (x : ℚ) : List ℚ :=
  let xc := f.clampInput x
  let span := findKnotSpan f xc
  let p := f.degree
  let bf := computeBasisFunctions f span xc
  (ascList 0 (p + 1)).foldl
    (fun gs j => if p ≤ span + j then gs.set (span - p + j) (bf j) else gs)
    (List.replicate f.controlPoints.length 0)

end LearnableFunction

/-!
## Claim C1: `evaluate` clamps, then matches the reference de Boor recurrence
-/

namespace LearnableFunction

/-- Reference de Boor evaluation following the spec's words: repeated linear
blending (`d_j^r = (1 - alpha) d_{j-1}^{r-1} + alpha d_j^{r-1}`) over the
`p+1` control points adjacent to the located knot span, written as a pure
structural recursion rather than the source's in-place array loop. -/
def deBoorRefAux (f : LearnableFunction) (span : ℕ) (x : ℚ) : ℕ → ℕ → ℚ
  | 0, j => f.controlPoints.getD (span - f.degree + j) 0
  | r + 1, j =>
    let knotLeft := f.knotVector.getD (span - f.degree + j) 0
    let knotRight := f.knotVector.getD (span + j - (r + 1) + 1) 0
    let alpha := (x - knotLeft) / (knotRight - knotLeft)
    (1 - alpha) * deBoorRefAux f span x r (j - 1) + alpha * deBoorRefAux f span x r j

/-- Reference de Boor value at a span: the top of the blending triangle. -/
def deBoorReference (f : LearnableFunction) (span : ℕ) (x : ℚ) : ℚ :=
  deBoorRefAux f span x f.degree f.degree

theorem deBoor_inner_char (f : LearnableFunction) (span : ℕ) (x : ℚ) :
    ∀ (k r : ℕ), 1 ≤ r → r + k ≤ f.degree + 1 → ∀ (d : ℕ → ℚ),
      (∀ j, j ≤ f.degree → j < r + k → d j = deBoorRefAux f span x (min (r - 1) j) j) →
      ∀ j, j ≤ f.degree →
        ((descList r k).foldl (deBoorStep f span r x) d) j
          = if r ≤ j ∧ j < r + k then deBoorRefAux f span x r j else d j := by
  intro k
  induction k with
  | zero =>
    intro r hr hk d hd j hj
    simp only [descList, List.foldl_nil]
    have hno : ¬(r ≤ j ∧ j < r) := by omega
    simp [hno]
  | succ k ih =>
    intro r hr hk d hd j hj
    obtain ⟨r', rfl⟩ : ∃ r', r = r' + 1 := ⟨r - 1, by omega⟩
    have e1 : r' + 1 + k - 1 = r' + k := by omega
    have hdj1 : d (r' + k) = deBoorRefAux f span x r' (r' + k) := by
      have h1 := hd (r' + k) (by omega) (by omega)
      rwa [Nat.add_sub_cancel, min_eq_left (by omega)] at h1
    have hdj0 : d (r' + 1 + k) = deBoorRefAux f span x r' (r' + 1 + k) := by
      have h1 := hd (r' + 1 + k) (by omega) (by omega)
      rwa [Nat.add_sub_cancel, min_eq_left (by omega)] at h1
    have hA : deBoorStep f span (r' + 1) x d (r' + 1 + k) (r' + 1 + k)
        = deBoorRefAux f span x (r' + 1) (r' + 1 + k) := by
      simp only [deBoorStep, updFn_same, e1, hdj1, hdj0]
      simp only [deBoorRefAux, e1]
    have hB : ∀ j', j' ≠ r' + 1 + k →
        deBoorStep f span (r' + 1) x d (r' + 1 + k) j' = d j' := by
      intro j' hne
      simp only [deBoorStep]
      exact updFn_other _ _ _ _ hne
    have hpre : ∀ j', j' ≤ f.degree → j' < r' + 1 + k →
        deBoorStep f span (r' + 1) x d (r' + 1 + k) j'
          = deBoorRefAux f span x (min (r' + 1 - 1) j') j' := by
      intro j' hj' hlt
      rw [hB j' (by omega)]
      exact hd j' hj' (by omega)
    have hrec := ih (r' + 1) hr (by omega)
      (deBoorStep f span (r' + 1) x d (r' + 1 + k)) hpre j hj
    have hfold : (descList (r' + 1) (k + 1)).foldl (deBoorStep f span (r' + 1) x) d
        = (descList (r' + 1) k).foldl (deBoorStep f span (r' + 1) x)
            (deBoorStep f span (r' + 1) x d (r' + 1 + k)) := by
      simp [descList]
    rw [hfold, hrec]
    by_cases h1 : r' + 1 ≤ j ∧ j < r' + 1 + k
    · have h2 : r' + 1 ≤ j ∧ j < r' + 1 + (k + 1) := by omega
      simp [h1, h2]
    · by_cases h3 : j = r' + 1 + k
      · subst h3
        have h2 : r' + 1 ≤ r' + 1 + k ∧ r' + 1 + k < r' + 1 + (k + 1) := by omega
        simp [h1, h2, hA]
      · have h2 : ¬(r' + 1 ≤ j ∧ j < r' + 1 + (k + 1)) := by omega
        simp [h1, h2, hB j h3]

theorem deBoor_outer_char (f : LearnableFunction) (span : ℕ) (x : ℚ) :
    ∀ (m r0 : ℕ) (d : ℕ → ℚ), r0 + m ≤ f.degree →
      (∀ j, j ≤ f.degree → d j = deBoorRefAux f span x (min r0 j) j) →
      ∀ j, j ≤ f.degree →
        ((ascList (r0 + 1) m).foldl
            (fun d r => (descList r (f.degree + 1 - r)).foldl (deBoorStep f span r x) d) d) j
          = deBoorRefAux f span x (min (r0 + m) j) j := by
  intro m
  induction m with
  | zero =>
    intro r0 d _ hd j hj
    simpa [ascList] using hd j hj
  | succ m ih =>
    intro r0 d hm hd j hj
    have hstep := deBoor_inner_char f span x (f.degree + 1 - (r0 + 1)) (r0 + 1)
      (by omega) (by omega) d
      (by
        intro j' hj' _
        have h2 := hd j' hj'
        simpa using h2)
    have hd1 : ∀ j', j' ≤ f.degree →
        ((descList (r0 + 1) (f.degree + 1 - (r0 + 1))).foldl (deBoorStep f span (r0 + 1) x) d) j'
          = deBoorRefAux f span x (min (r0 + 1) j') j' := by
      intro j' hj'
      rw [hstep j' hj']
      by_cases hc : r0 + 1 ≤ j' ∧ j' < r0 + 1 + (f.degree + 1 - (r0 + 1))
      · rw [if_pos hc, min_eq_left hc.1]
      · have hlt : j' < r0 + 1 := by omega
        rw [if_neg hc, hd j' hj']
        rw [min_eq_right (by omega), min_eq_right (by omega)]
    have hfold : (ascList (r0 + 1) (m + 1)).foldl
        (fun d r => (descList r (f.degree + 1 - r)).foldl (deBoorStep f span r x) d) d
        = (ascList (r0 + 1 + 1) m).foldl
            (fun d r => (descList r (f.degree + 1 - r)).foldl (deBoorStep f span r x) d)
            ((descList (r0 + 1) (f.degree + 1 - (r0 + 1))).foldl (deBoorStep f span (r0 + 1) x) d) := by
      simp [ascList]
    rw [hfold]
    have := ih (r0 + 1)
      ((descList (r0 + 1) (f.degree + 1 - (r0 + 1))).foldl (deBoorStep f span (r0 + 1) x) d)
      (by omega) hd1 j hj
    rw [this]
    have : r0 + 1 + m = r0 + (m + 1) := by omega
    rw [this]

/-- The in-place de Boor loop computes exactly the reference blending
recurrence, for every function, span and input. -/
theorem deBoor_eq_reference (f : LearnableFunction) (span : ℕ) (x : ℚ) :
    deBoor f span x = deBoorReference f span x := by
  unfold deBoor deBoorReference
  have h0 : ∀ j, j ≤ f.degree →
      deBoorInit f span j = deBoorRefAux f span x (min 0 j) j := by
    intro j _
    simp [deBoorInit, deBoorRefAux, Nat.zero_min]
  have := deBoor_outer_char f span x f.degree 0 (deBoorInit f span) (by omega) h0
    f.degree (le_refl _)
  simpa [min_self] using this

theorem clampInput_of_gt (f : LearnableFunction) (x : ℚ)
    (h : f.inputRange.1 ≤ f.inputRange.2) (hx : f.inputRange.2 < x) :
    f.clampInput x = f.clampInput f.inputRange.2 := by
  unfold clampInput
  rw [min_eq_left (le_of_lt hx), min_self]

theorem clampInput_of_lt (f : LearnableFunction) (x : ℚ)
    (h : f.inputRange.1 ≤ f.inputRange.2) (hx : x < f.inputRange.1) :
    f.clampInput x = f.clampInput f.inputRange.1 := by
  unfold clampInput
  rw [min_eq_right (le_of_lt (lt_of_lt_of_le hx h)),
      min_eq_right h, max_eq_left (le_of_lt hx), max_self]

end LearnableFunction

/-- Claim C1: for every input `x`, `evaluate` first clamps `x` into
`inputRange` and then equals the reference de Boor evaluation (repeated linear
blending over the `p+1` control points adjacent to the located knot span) at
the clamped point; in particular evaluation at any `x` above the range maximum
equals evaluation at the maximum, and symmetrically below the minimum. -/
theorem C1_evaluate_clamps_and_matches_reference (f : LearnableFunction) (x : ℚ)
    (h : f.inputRange.1 ≤ f.inputRange.2) :
    f.evaluate x
        = LearnableFunction.deBoorReference f
            (f.findKnotSpan (f.clampInput x)) (f.clampInput x)
      ∧ (f.inputRange.2 < x → f.evaluate x = f.evaluate f.inputRange.2)
      ∧ (x < f.inputRange.1 → f.evaluate x = f.evaluate f.inputRange.1) := by
  refine ⟨?_, ?_, ?_⟩
  · unfold LearnableFunction.evaluate
    exact LearnableFunction.deBoor_eq_reference f _ _
  · intro hx
    unfold LearnableFunction.evaluate
    rw [LearnableFunction.clampInput_of_gt f x h hx]
  · intro hx
    unfold LearnableFunction.evaluate
    rw [LearnableFunction.clampInput_of_lt f x h hx]

/-- Witness for C1 at a concrete spline and input. -/
theorem C1_witness :
    ((mkLearnableFunction 2 (-1, 1) 1 [0, 1/2, 1]).inputRange.1
        ≤ (mkLearnableFunction 2 (-1, 1) 1 [0, 1/2, 1]).inputRange.2)
      ∧ ((mkLearnableFunction 2 (-1, 1) 1 [0, 1/2, 1]).evaluate 3
            = LearnableFunction.deBoorReference (mkLearnableFunction 2 (-1, 1) 1 [0, 1/2, 1])
                ((mkLearnableFunction 2 (-1, 1) 1 [0, 1/2, 1]).findKnotSpan
                  ((mkLearnableFunction 2 (-1, 1) 1 [0, 1/2, 1]).clampInput 3))
                ((mkLearnableFunction 2 (-1, 1) 1 [0, 1/2, 1]).clampInput 3)
          ∧ ((mkLearnableFunction 2 (-1, 1) 1 [0, 1/2, 1]).inputRange.2 < 3 →
              (mkLearnableFunction 2 (-1, 1) 1 [0, 1/2, 1]).evaluate 3
                = (mkLearnableFunction 2 (-1, 1) 1 [0, 1/2, 1]).evaluate
                    (mkLearnableFunction 2 (-1, 1) 1 [0, 1/2, 1]).inputRange.2)
          ∧ (3 < (mkLearnableFunction 2 (-1, 1) 1 [0, 1/2, 1]).inputRange.1 →
              (mkLearnableFunction 2 (-1, 1) 1 [0, 1/2, 1]).evaluate 3
                = (mkLearnableFunction 2 (-1, 1) 1 [0, 1/2, 1]).evaluate
                    (mkLearnableFunction 2 (-1, 1) 1 [0, 1/2, 1]).inputRange.1)) :=
  ⟨by decide, C1_evaluate_clamps_and_matches_reference (mkLearnableFunction 2 (-1, 1) 1 [0, 1/2, 1]) 3 (by decide)⟩

/-!
## Claim C4: control-point gradients are the basis values and sum to one
-/

theorem ascList_append (s a b : ℕ) : ascList s (a + b) = ascList s a ++ ascList (s + a) b := by
  induction a generalizing s with
  | zero => simp [ascList]
  | succ a ih =>
    rw [show a + 1 + b = (a + b) + 1 from by omega]
    show ascList s (a + b + 1) = (s :: ascList (s + 1) a) ++ ascList (s + (a + 1)) b
    rw [show ascList s (a + b + 1) = s :: ascList (s + 1) (a + b) from rfl]
    rw [ih (s + 1), show s + 1 + a = s + (a + 1) from by omega]
    simp

theorem ascList_cons (s n : ℕ) : ascList s (n + 1) = s :: ascList (s + 1) n := rfl

theorem list_sum_zero {l : List ℚ} (h : ∀ a ∈ l, a = 0) : l.sum = 0 :=
  List.sum_eq_zero h

theorem getD_replicate_zero (n i : ℕ) : (List.replicate n (0 : ℚ)).getD i 0 = 0 := by
  simp [List.getD_eq_getElem?_getD]

/-- The internal uniformly spaced knots of `initializeKnotVector`. -/
def internalKnots (p g : ℕ) (mn mx : ℚ) : List ℚ :=
  (List.range (g - p)).map
    (fun i : ℕ => mn + (mx - mn) * ((i : ℚ) + 1) / (((g - p : ℕ) : ℚ) + 1))

theorem initializeKnotVector_eq (p g : ℕ) (mn mx : ℚ) :
    initializeKnotVector p g mn mx
      = List.replicate (p + 1) mn ++ internalKnots p g mn mx ++ List.replicate (p + 1) mx := rfl

theorem internalKnots_length (p g : ℕ) (mn mx : ℚ) :
    (internalKnots p g mn mx).length = g - p := by
  rw [internalKnots, List.length_map, List.length_range]

/-- Closed form of the clamped uniform knot vector built by
`initializeKnotVector`. -/
def kvClosed (p g : ℕ) (mn mx : ℚ) (i : ℕ) : ℚ :=
  mn + (mx - mn) * ((min (i - p) (g - p + 1) : ℕ) : ℚ) / (((g - p : ℕ) : ℚ) + 1)

theorem initializeKnotVector_length (p g : ℕ) (mn mx : ℚ) :
    (initializeKnotVector p g mn mx).length = (p + 1) + (g - p) + (p + 1) := by
  rw [initializeKnotVector_eq, List.length_append, List.length_append,
      List.length_replicate, List.length_replicate, internalKnots_length]

theorem initializeKnotVector_getD (p g : ℕ) (mn mx : ℚ) (hpg : p ≤ g) (i : ℕ)
    (hi : i < g + p + 2) :
    (initializeKnotVector p g mn mx).getD i 0 = kvClosed p g mn mx i := by
  have hK : (0 : ℚ) < ((g - p : ℕ) : ℚ) + 1 := by positivity
  have hlen1 : (List.replicate (p + 1) mn ++ internalKnots p g mn mx).length = g + 1 := by
    rw [List.length_append, List.length_replicate, internalKnots_length]
    omega
  rw [initializeKnotVector_eq]
  rcases Nat.lt_or_ge i (p + 1) with hcase | hcase
  · -- the leading replicate of mn
    rw [List.getD_append _ _ _ _ (by rw [hlen1]; omega),
        List.getD_append _ _ _ _ (by rw [List.length_replicate]; omega)]
    have h2 : (List.replicate (p + 1) mn).getD i 0 = mn := by
      rw [List.getD_eq_getElem _ _ (by rw [List.length_replicate]; omega)]
      simp
    rw [h2]
    unfold kvClosed
    rw [show min (i - p) (g - p + 1) = 0 from by omega]
    simp
  · rcases Nat.lt_or_ge i (g + 1) with hcase2 | hcase2
    · -- the internal uniformly spaced knots
      rw [List.getD_append _ _ _ _ (by rw [hlen1]; omega),
          List.getD_append_right _ _ _ _ (by rw [List.length_replicate]; omega)]
      have hb : i - (List.replicate (p + 1) mn).length < (internalKnots p g mn mx).length := by
        rw [List.length_replicate, internalKnots_length]
        omega
      rw [List.getD_eq_getElem _ _ hb]
      simp only [internalKnots, List.getElem_map, List.getElem_range, List.length_replicate]
      unfold kvClosed
      rw [show min (i - p) (g - p + 1) = i - p from by omega]
      have h4 : ((i - (p + 1) : ℕ) : ℚ) + 1 = ((i - p : ℕ) : ℚ) := by
        rw [Nat.cast_sub (by omega), Nat.cast_sub (by omega)]
        push_cast
        ring
      rw [← h4]
    · -- the trailing replicate of mx
      rw [List.getD_append_right _ _ _ _ (by rw [hlen1]; omega)]
      have h3 : i - (List.replicate (p + 1) mn ++ internalKnots p g mn mx).length < p + 1 := by
        rw [hlen1]
        omega
      rw [List.getD_eq_getElem _ _ (by rw [List.length_replicate]; omega)]
      simp only [List.getElem_replicate]
      unfold kvClosed
      rw [show min (i - p) (g - p + 1) = g - p + 1 from by omega]
      rw [show ((g - p + 1 : ℕ) : ℚ) = ((g - p : ℕ) : ℚ) + 1 from by push_cast; ring]
      rw [mul_div_assoc, div_self (ne_of_gt hK)]
      ring

theorem kv_lt (p g : ℕ) (mn mx : ℚ) (hmn : mn < mx) (hpg : p ≤ g) (a b : ℕ)
    (hab : a < b) (hb1 : p + 1 ≤ b) (ha : a ≤ g) (hb2 : b < g + p + 2) :
    (initializeKnotVector p g mn mx).getD a 0 < (initializeKnotVector p g mn mx).getD b 0 := by
  rw [initializeKnotVector_getD p g mn mx hpg a (by omega),
      initializeKnotVector_getD p g mn mx hpg b hb2]
  unfold kvClosed
  have hK : (0 : ℚ) < ((g - p : ℕ) : ℚ) + 1 := by positivity
  have hcl : min (a - p) (g - p + 1) < min (b - p) (g - p + 1) := by omega
  have hmx : (0 : ℚ) < mx - mn := sub_pos.mpr hmn
  have h6 : ((min (a - p) (g - p + 1) : ℕ) : ℚ) < ((min (b - p) (g - p + 1) : ℕ) : ℚ) := by
    exact_mod_cast hcl
  apply add_lt_add_left
  apply div_lt_div_of_pos_right ?_ hK
  exact mul_lt_mul_of_pos_left h6 hmx

namespace LearnableFunction

theorem findSpanLoop_range (kv : List ℚ) (x : ℚ) :
    ∀ (fuel low high : ℕ), low < high → ¬(x < kv.getD low 0) →
      low ≤ findSpanLoop kv x fuel low high ∧ findSpanLoop kv x fuel low high < high := by
  intro fuel
  induction fuel with
  | zero =>
    intro low high hlh _
    simp only [findSpanLoop]
    omega
  | succ fuel ih =>
    intro low high hlh hxl
    simp only [findSpanLoop]
    by_cases h1 : x < kv.getD ((low + high) / 2) 0
    · rw [if_pos h1]
      have hne : (low + high) / 2 ≠ low := by
        intro he
        rw [he] at h1
        exact hxl h1
      have hmid : low < (low + high) / 2 := by omega
      have := ih low ((low + high) / 2) hmid hxl
      omega
    · rw [if_neg h1]
      by_cases h2 : kv.getD ((low + high) / 2 + 1) 0 ≤ x
      · rw [if_pos h2]
        have hmid : (low + high) / 2 < high := by omega
        have := ih ((low + high) / 2) high hmid h1
        omega
      · rw [if_neg h2]
        omega

theorem findKnotSpan_range (f : LearnableFunction) (x : ℚ)
    (hpn : f.degree ≤ f.controlPoints.length - 1) :
    f.degree ≤ f.findKnotSpan x ∧ f.findKnotSpan x ≤ f.controlPoints.length - 1 := by
  unfold findKnotSpan
  by_cases h1 : f.knotVector.getD (f.controlPoints.length - 1 + 1) 0 ≤ x
  · simp only [if_pos h1]
    omega
  · simp only [if_neg h1]
    by_cases h2 : x ≤ f.knotVector.getD f.degree 0
    · simp only [if_pos h2]
      omega
    · simp only [if_neg h2]
      have hloop := findSpanLoop_range f.knotVector x (f.knotVector.length + 1)
        f.degree (f.controlPoints.length - 1 + 1) (by omega)
        (by
          intro hc
          exact h2 (le_of_lt hc))
      omega

/-- The denominator `right[r+1] + left[j-r]` of the basis recurrence. -/
def basisDenom (f : LearnableFunction) (span : ℕ) (x : ℚ) (j r : ℕ) : ℚ :=
  basisRight f span x (r + 1) + basisLeft f span x (j - r)

theorem basisInner_char (f : LearnableFunction) (span : ℕ) (x : ℚ) (j : ℕ) :
    ∀ (k c : ℕ) (st : (ℕ → ℚ) × ℚ),
      (∀ r, c ≤ r → r < c + k → basisDenom f span x j r ≠ 0) →
      (∀ r, (r < c ∨ c + k ≤ r) →
          ((ascList c k).foldl (basisStep f span x j) st).1 r = st.1 r)
      ∧ (((ascList c k).map ((ascList c k).foldl (basisStep f span x j) st).1).sum
            + ((ascList c k).foldl (basisStep f span x j) st).2
          = ((ascList c k).map st.1).sum + st.2) := by
  intro k
  induction k with
  | zero =>
    intro c st _
    simp [ascList]
  | succ k ih =>
    intro c st hden
    have hstep : (ascList c (k + 1)).foldl (basisStep f span x j) st
        = (ascList (c + 1) k).foldl (basisStep f span x j) (basisStep f span x j st c) := by
      rw [ascList_cons]
      simp
    have hd : basisDenom f span x j c ≠ 0 := hden c (le_refl _) (by omega)
    obtain ⟨iha, ihb⟩ := ih (c + 1) (basisStep f span x j st c)
      (fun r h1 h2 => hden r (by omega) (by omega))
    constructor
    · intro r hr
      rw [hstep, iha r (by omega)]
      show updFn st.1 c _ r = st.1 r
      exact updFn_other _ _ _ _ (by omega)
    · have hd2 : basisRight f span x (c + 1) + basisLeft f span x (j - c) ≠ 0 := hd
      have hc1 : ((ascList (c + 1) k).foldl (basisStep f span x j) (basisStep f span x j st c)).1 c
          = (basisStep f span x j st c).1 c := iha c (by omega)
      have hcongr2 : ((ascList (c + 1) k).map (basisStep f span x j st c).1).sum
          = ((ascList (c + 1) k).map st.1).sum := by
        apply congrArg List.sum
        apply List.map_congr_left
        intro a ha
        rw [mem_ascList] at ha
        show updFn st.1 c _ a = st.1 a
        exact updFn_other _ _ _ _ (by omega)
      have hfin : (basisStep f span x j st c).1 c + (basisStep f span x j st c).2
          = st.1 c + st.2 := by
        simp only [basisStep, updFn_same]
        have hmul : basisRight f span x (c + 1)
              * (st.1 c / (basisRight f span x (c + 1) + basisLeft f span x (j - c)))
            + basisLeft f span x (j - c)
              * (st.1 c / (basisRight f span x (c + 1) + basisLeft f span x (j - c)))
            = st.1 c := by
          rw [← add_mul, mul_comm, div_mul_cancel₀ _ hd2]
        linarith [hmul]
      rw [hstep, ascList_cons, List.map_cons, List.sum_cons, List.map_cons, List.sum_cons]
      linarith [ihb, hc1, hcongr2, hfin]

theorem basisRound_char (f : LearnableFunction) (span : ℕ) (x : ℚ) (j : ℕ) (hj : 1 ≤ j)
    (hjp : j ≤ f.degree) (bf : ℕ → ℚ)
    (hden : ∀ r, r < j → basisDenom f span x j r ≠ 0)
    (hzero : ∀ r, j ≤ r → bf r = 0)
    (hsum : ((ascList 0 (f.degree + 1)).map bf).sum = 1) :
    (∀ r, j + 1 ≤ r → basisRound f span x bf j r = 0)
    ∧ ((ascList 0 (f.degree + 1)).map (basisRound f span x bf j)).sum = 1 := by
  obtain ⟨ia, ib⟩ := basisInner_char f span x j j 0 (bf, 0)
    (fun r _ h2 => hden r (by omega))
  have hb : basisRound f span x bf j
      = updFn ((ascList 0 j).foldl (basisStep f span x j) (bf, 0)).1 j
          ((ascList 0 j).foldl (basisStep f span x j) (bf, 0)).2 := rfl
  have hsplit : ascList 0 (f.degree + 1)
      = ascList 0 j ++ (j :: ascList (j + 1) (f.degree - j)) := by
    have h1 : f.degree + 1 = j + (f.degree + 1 - j) := by omega
    rw [h1, ascList_append, Nat.zero_add]
    have h2 : f.degree + 1 - j = (f.degree - j) + 1 := by omega
    rw [h2, ascList_cons]
  have hpartA : ∀ r, j + 1 ≤ r → basisRound f span x bf j r = 0 := by
    intro r hr
    rw [hb, updFn_other _ _ _ _ (by omega)]
    rw [ia r (Or.inr (by omega))]
    exact hzero r (by omega)
  refine ⟨hpartA, ?_⟩
  rw [hsplit, List.map_append, List.sum_append, List.map_cons, List.sum_cons]
  have e1 : (ascList 0 j).map (basisRound f span x bf j) = (ascList 0 j).map
      ((ascList 0 j).foldl (basisStep f span x j) (bf, 0)).1 := by
    apply List.map_congr_left
    intro a ha
    rw [mem_ascList] at ha
    rw [hb]
    exact updFn_other _ _ _ _ (by omega)
  have e2 : basisRound f span x bf j j
      = ((ascList 0 j).foldl (basisStep f span x j) (bf, 0)).2 := by
    rw [hb]
    exact updFn_same _ _ _
  have e3 : ((ascList (j + 1) (f.degree - j)).map (basisRound f span x bf j)).sum = 0 := by
    apply list_sum_zero
    intro a ha
    rw [List.mem_map] at ha
    obtain ⟨b, hb2, rfl⟩ := ha
    rw [mem_ascList] at hb2
    exact hpartA b (by omega)
  rw [e1, e2, e3]
  -- from the inner invariant, prefix sum plus saved equals the old prefix sum
  have hib : ((ascList 0 j).map ((ascList 0 j).foldl (basisStep f span x j) (bf, 0)).1).sum
      + ((ascList 0 j).foldl (basisStep f span x j) (bf, 0)).2
      = ((ascList 0 j).map bf).sum := by
    have := ib
    simpa using this
  -- and the old full sum splits with zero tail
  have hold : ((ascList 0 j).map bf).sum = 1 := by
    have h1 := hsum
    rw [hsplit, List.map_append, List.sum_append, List.map_cons, List.sum_cons] at h1
    have hz1 : bf j = 0 := hzero j (le_refl _)
    have hz2 : ((ascList (j + 1) (f.degree - j)).map bf).sum = 0 := by
      apply list_sum_zero
      intro a ha
      rw [List.mem_map] at ha
      obtain ⟨b, hb2, rfl⟩ := ha
      rw [mem_ascList] at hb2
      exact hzero b (by omega)
    rw [hz1, hz2] at h1
    linarith [h1]
  linarith [hib, hold]

theorem basisOuter_char (f : LearnableFunction) (span : ℕ) (x : ℚ) :
    ∀ (m j0 : ℕ) (bf : ℕ → ℚ), j0 + m ≤ f.degree →
      (∀ j r, j0 < j → j ≤ j0 + m → r < j → basisDenom f span x j r ≠ 0) →
      (∀ r, j0 + 1 ≤ r → bf r = 0) →
      ((ascList 0 (f.degree + 1)).map bf).sum = 1 →
      (∀ r, j0 + m + 1 ≤ r → ((ascList (j0 + 1) m).foldl (basisRound f span x) bf) r = 0)
      ∧ ((ascList 0 (f.degree + 1)).map
          ((ascList (j0 + 1) m).foldl (basisRound f span x) bf)).sum = 1 := by
  intro m
  induction m with
  | zero =>
    intro j0 bf _ _ hz hs
    constructor
    · intro r hr
      simpa [ascList] using hz r (by omega)
    · simpa [ascList] using hs
  | succ m ih =>
    intro j0 bf hm hden hz hs
    have hround := basisRound_char f span x (j0 + 1) (by omega) (by omega) bf
      (fun r hr => hden (j0 + 1) r (by omega) (by omega) hr) hz hs
    have hstep : (ascList (j0 + 1) (m + 1)).foldl (basisRound f span x) bf
        = (ascList (j0 + 1 + 1) m).foldl (basisRound f span x)
            (basisRound f span x bf (j0 + 1)) := by
      rw [ascList_cons]
      simp
    have hrec := ih (j0 + 1) (basisRound f span x bf (j0 + 1)) (by omega)
      (fun j r h1 h2 hr => hden j r (by omega) (by omega) hr)
      hround.1 hround.2
    constructor
    · intro r hr
      rw [hstep]
      exact hrec.1 r (by omega)
    · rw [hstep]
      exact hrec.2

theorem computeBasisFunctions_sum (f : LearnableFunction) (span : ℕ) (x : ℚ)
    (hden : ∀ j r, 1 ≤ j → j ≤ f.degree → r < j → basisDenom f span x j r ≠ 0) :
    ((ascList 0 (f.degree + 1)).map (computeBasisFunctions f span x)).sum = 1 := by
  have hz : ∀ r, 0 + 1 ≤ r → (fun i => if i = 0 then (1 : ℚ) else 0) r = 0 := by
    intro r hr
    simp only []
    rw [if_neg (by omega)]
  have hs : ((ascList 0 (f.degree + 1)).map (fun i => if i = 0 then (1 : ℚ) else 0)).sum = 1 := by
    rw [ascList_cons, List.map_cons, List.sum_cons]
    have hz2 : ((ascList 1 f.degree).map (fun i => if i = 0 then (1 : ℚ) else 0)).sum = 0 := by
      apply list_sum_zero
      intro a ha
      rw [List.mem_map] at ha
      obtain ⟨b, hb2, rfl⟩ := ha
      rw [mem_ascList] at hb2
      rw [if_neg (by omega)]
    rw [hz2, if_pos rfl]
    ring
  have := basisOuter_char f span x f.degree 0 (fun i => if i = 0 then (1 : ℚ) else 0)
    (by omega) (fun j r h1 h2 hr => hden j r (by omega) (by simpa using h2) hr) hz hs
  exact this.2

end LearnableFunction

theorem getD_set_self (l : List ℚ) (i : ℕ) (v : ℚ) (h : i < l.length) :
    (l.set i v).getD i 0 = v := by
  simp [List.getD_eq_getElem?_getD, List.getElem?_set_self, h]

theorem getD_set_ne (l : List ℚ) (i j : ℕ) (v : ℚ) (h : i ≠ j) :
    (l.set i v).getD j 0 = l.getD j 0 := by
  simp [List.getD_eq_getElem?_getD, List.getElem?_set_ne h]

theorem ascList_shift (b c k : ℕ) : ascList (b + c) k = (ascList c k).map (fun j => b + j) := by
  induction k generalizing c with
  | zero => simp [ascList]
  | succ k ih =>
    rw [ascList_cons, ascList_cons, List.map_cons]
    rw [show b + c + 1 = b + (c + 1) from by omega, ih (c + 1)]

theorem list_sum_getD (l : List ℚ) :
    l.sum = ((ascList 0 l.length).map (fun i => l.getD i 0)).sum := by
  induction l with
  | nil => simp [ascList]
  | cons a l ih =>
    rw [List.length_cons, ascList_cons, List.map_cons, List.sum_cons]
    have h1 : (ascList 1 l.length).map (fun i => (a :: l).getD i 0)
        = (ascList 0 l.length).map (fun i => l.getD i 0) := by
      rw [show ascList 1 l.length = (ascList 0 l.length).map (fun j => 1 + j) from by
        simpa using ascList_shift 1 0 l.length]
      rw [List.map_map]
      apply List.map_congr_left
      intro i _
      show (a :: l).getD (1 + i) 0 = l.getD i 0
      rw [show 1 + i = i + 1 from by omega]
      rfl
    rw [h1, ih]
    rfl

theorem setfold_char (bf : ℕ → ℚ) (b : ℕ) :
    ∀ (k c : ℕ) (l : List ℚ), b + c + k ≤ l.length →
      (((ascList c k).foldl (fun gs j => gs.set (b + j) (bf j)) l).length = l.length)
      ∧ ∀ i, ((ascList c k).foldl (fun gs j => gs.set (b + j) (bf j)) l).getD i 0
          = if b + c ≤ i ∧ i < b + c + k then bf (i - b) else l.getD i 0 := by
  intro k
  induction k with
  | zero =>
    intro c l _
    constructor
    · simp [ascList]
    · intro i
      rw [if_neg (by omega)]
      simp [ascList]
  | succ k ih =>
    intro c l hlen
    have hstep : (ascList c (k + 1)).foldl (fun gs j => gs.set (b + j) (bf j)) l
        = (ascList (c + 1) k).foldl (fun gs j => gs.set (b + j) (bf j))
            (l.set (b + c) (bf c)) := by
      rw [ascList_cons]
      simp
    obtain ⟨ihl, ihg⟩ := ih (c + 1) (l.set (b + c) (bf c))
      (by rw [List.length_set]; omega)
    constructor
    · rw [hstep, ihl, List.length_set]
    · intro i
      rw [hstep, ihg i]
      by_cases h1 : b + (c + 1) ≤ i ∧ i < b + (c + 1) + k
      · rw [if_pos h1, if_pos (by omega)]
      · rw [if_neg h1]
        by_cases h2 : i = b + c
        · subst h2
          rw [getD_set_self _ _ _ (by omega), if_pos (by omega)]
          congr 1
          omega
        · rw [getD_set_ne _ _ _ _ (by omega), if_neg (by omega)]

namespace LearnableFunction

theorem getControlPointGradients_length (f : LearnableFunction) (x : ℚ) :
    (f.getControlPointGradients x).length = f.controlPoints.length := by
  unfold getControlPointGradients
  apply foldl_inv (fun gs : List ℚ => gs.length = f.controlPoints.length)
  · intro s a _ hs
    by_cases h : f.degree ≤ f.findKnotSpan (f.clampInput x) + a
    · rw [if_pos h, List.length_set]
      exact hs
    · rw [if_neg h]
      exact hs
  · simp

end LearnableFunction

theorem sum_if_window (bf : ℕ → ℚ) (b w L : ℕ) (hbw : b + w ≤ L) :
    ((ascList 0 L).map (fun i => if b ≤ i ∧ i < b + w then bf (i - b) else 0)).sum
      = ((ascList 0 w).map bf).sum := by
  have hsplit : ascList 0 L
      = ascList 0 b ++ (ascList b w ++ ascList (b + w) (L - (b + w))) := by
    rw [show L = b + (w + (L - (b + w))) from by omega, ascList_append, Nat.zero_add,
        ascList_append, show b + (w + (L - (b + w))) - (b + w) = L - (b + w) from by omega]
  rw [hsplit, List.map_append, List.sum_append, List.map_append, List.sum_append]
  have h1 : ((ascList 0 b).map (fun i => if b ≤ i ∧ i < b + w then bf (i - b) else 0)).sum
      = 0 := by
    apply list_sum_zero
    intro a ha
    rw [List.mem_map] at ha
    obtain ⟨i, hi, rfl⟩ := ha
    rw [mem_ascList] at hi
    rw [if_neg (by omega)]
  have h3 : ((ascList (b + w) (L - (b + w))).map
      (fun i => if b ≤ i ∧ i < b + w then bf (i - b) else 0)).sum = 0 := by
    apply list_sum_zero
    intro a ha
    rw [List.mem_map] at ha
    obtain ⟨i, hi, rfl⟩ := ha
    rw [mem_ascList] at hi
    rw [if_neg (by omega)]
  have h2 : ((ascList b w).map (fun i => if b ≤ i ∧ i < b + w then bf (i - b) else 0)).sum
      = ((ascList 0 w).map bf).sum := by
    rw [show ascList b w = (ascList 0 w).map (fun j => b + j) from by
      simpa using ascList_shift b 0 w]
    rw [List.map_map]
    apply congrArg List.sum
    apply List.map_congr_left
    intro i hi
    rw [mem_ascList] at hi
    show (if b ≤ b + i ∧ b + i < b + w then bf (b + i - b) else 0) = bf i
    rw [if_pos (by omega)]
    congr 1
    omega
  rw [h1, h2, h3]
  ring

theorem mk_basisDenom_ne (g deg : ℕ) (mn mx : ℚ) (cps : List ℚ) (hmn : mn < mx)
    (span : ℕ) (x : ℚ) (hsp : min deg (g - 1) ≤ span) (hsg : span ≤ g) :
    ∀ j r, 1 ≤ j → j ≤ (mkLearnableFunction g (mn, mx) deg cps).degree → r < j →
      LearnableFunction.basisDenom (mkLearnableFunction g (mn, mx) deg cps) span x j r ≠ 0 := by
  intro j r h1 h2 hr
  have hjp : j ≤ min deg (g - 1) := h2
  have hpg : min deg (g - 1) ≤ g := by omega
  unfold LearnableFunction.basisDenom LearnableFunction.basisRight LearnableFunction.basisLeft
  have hkv : (mkLearnableFunction g (mn, mx) deg cps).knotVector
      = initializeKnotVector (min deg (g - 1)) g mn mx := rfl
  rw [hkv]
  have heq : (initializeKnotVector (min deg (g - 1)) g mn mx).getD (span + (r + 1)) 0 - x
      + (x - (initializeKnotVector (min deg (g - 1)) g mn mx).getD (span + 1 - (j - r)) 0)
      = (initializeKnotVector (min deg (g - 1)) g mn mx).getD (span + (r + 1)) 0
        - (initializeKnotVector (min deg (g - 1)) g mn mx).getD (span + 1 - (j - r)) 0 := by
    ring
  rw [heq]
  apply sub_ne_zero_of_ne
  apply ne_of_gt
  apply kv_lt (min deg (g - 1)) g mn mx hmn hpg (span + 1 - (j - r)) (span + (r + 1))
    (by omega) (by omega) (by omega) (by omega)

/-- Claim C4: for every input `x`, `getControlPointGradients x` has length
`gridSize + 1`, is zero outside the `p+1` entries of the active knot span,
carries the triangular-recurrence basis values on the active entries, and its
entries sum to `1` (partition of unity). -/
theorem C4_gradients_partition_of_unity (g deg : ℕ) (mn mx : ℚ) (cps : List ℚ) (x : ℚ)
    (f : LearnableFunction) (hf : f = mkLearnableFunction g (mn, mx) deg cps)
    (hmn : mn < mx) (hlen : cps.length = g + 1) :
    (f.getControlPointGradients x).length = g + 1
    ∧ (∀ i, i < g + 1 →
        (i < f.findKnotSpan (f.clampInput x) - f.degree
          ∨ f.findKnotSpan (f.clampInput x) < i) →
        (f.getControlPointGradients x).getD i 0 = 0)
    ∧ (∀ j, j ≤ f.degree →
        (f.getControlPointGradients x).getD (f.findKnotSpan (f.clampInput x) - f.degree + j) 0
          = f.computeBasisFunctions (f.findKnotSpan (f.clampInput x)) (f.clampInput x) j)
    ∧ (f.getControlPointGradients x).sum = 1 := by
  subst hf
  have hdeg : (mkLearnableFunction g (mn, mx) deg cps).degree = min deg (g - 1) := rfl
  have hcp : (mkLearnableFunction g (mn, mx) deg cps).controlPoints = cps := rfl
  have hpn : (mkLearnableFunction g (mn, mx) deg cps).degree
      ≤ (mkLearnableFunction g (mn, mx) deg cps).controlPoints.length - 1 := by
    rw [hdeg, hcp, hlen]
    omega
  have hspan := LearnableFunction.findKnotSpan_range (mkLearnableFunction g (mn, mx) deg cps)
    ((mkLearnableFunction g (mn, mx) deg cps).clampInput x) hpn
  rw [hcp, hlen] at hspan
  rw [hdeg] at hspan
  -- abbreviations
  have hsp : min deg (g - 1)
      ≤ (mkLearnableFunction g (mn, mx) deg cps).findKnotSpan
          ((mkLearnableFunction g (mn, mx) deg cps).clampInput x) := hspan.1
  have hsg : (mkLearnableFunction g (mn, mx) deg cps).findKnotSpan
      ((mkLearnableFunction g (mn, mx) deg cps).clampInput x) ≤ g := by omega
  have hfold_eq : (mkLearnableFunction g (mn, mx) deg cps).getControlPointGradients x
      = (ascList 0 ((mkLearnableFunction g (mn, mx) deg cps).degree + 1)).foldl
          (fun gs j => gs.set
            (((mkLearnableFunction g (mn, mx) deg cps).findKnotSpan
                ((mkLearnableFunction g (mn, mx) deg cps).clampInput x)
              - (mkLearnableFunction g (mn, mx) deg cps).degree) + j)
            ((mkLearnableFunction g (mn, mx) deg cps).computeBasisFunctions
              ((mkLearnableFunction g (mn, mx) deg cps).findKnotSpan
                ((mkLearnableFunction g (mn, mx) deg cps).clampInput x))
              ((mkLearnableFunction g (mn, mx) deg cps).clampInput x) j))
          (List.replicate (mkLearnableFunction g (mn, mx) deg cps).controlPoints.length 0) := by
    unfold LearnableFunction.getControlPointGradients
    apply List.foldl_ext
    intro a j _
    rw [if_pos]
    rw [hdeg]
    omega
  obtain ⟨hflen, hfget⟩ := setfold_char
    ((mkLearnableFunction g (mn, mx) deg cps).computeBasisFunctions
      ((mkLearnableFunction g (mn, mx) deg cps).findKnotSpan
        ((mkLearnableFunction g (mn, mx) deg cps).clampInput x))
      ((mkLearnableFunction g (mn, mx) deg cps).clampInput x))
    ((mkLearnableFunction g (mn, mx) deg cps).findKnotSpan
        ((mkLearnableFunction g (mn, mx) deg cps).clampInput x)
      - (mkLearnableFunction g (mn, mx) deg cps).degree)
    ((mkLearnableFunction g (mn, mx) deg cps).degree + 1) 0
    (List.replicate (mkLearnableFunction g (mn, mx) deg cps).controlPoints.length 0)
    (by
      rw [List.length_replicate, hcp, hlen, hdeg]
      omega)
  have hden := mk_basisDenom_ne g deg mn mx cps hmn
    ((mkLearnableFunction g (mn, mx) deg cps).findKnotSpan
      ((mkLearnableFunction g (mn, mx) deg cps).clampInput x)) 
    ((mkLearnableFunction g (mn, mx) deg cps).clampInput x) hsp hsg
  refine ⟨?_, ?_, ?_, ?_⟩
  · rw [hfold_eq, hflen, List.length_replicate, hcp, hlen]
  · intro i hi hout
    rw [hfold_eq, hfget i, if_neg (by rw [hdeg]; omega)]
    exact getD_replicate_zero _ _
  · intro j hj
    rw [hfold_eq, hfget _, if_pos (by rw [hdeg] at hj ⊢; omega)]
    congr 1
    omega
  · rw [hfold_eq, list_sum_getD, hflen, List.length_replicate]
    have hcongr : (ascList 0 (mkLearnableFunction g (mn, mx) deg cps).controlPoints.length).map
        (fun i => ((ascList 0 ((mkLearnableFunction g (mn, mx) deg cps).degree + 1)).foldl
          (fun gs j => gs.set
            (((mkLearnableFunction g (mn, mx) deg cps).findKnotSpan
                ((mkLearnableFunction g (mn, mx) deg cps).clampInput x)
              - (mkLearnableFunction g (mn, mx) deg cps).degree) + j)
            ((mkLearnableFunction g (mn, mx) deg cps).computeBasisFunctions
              ((mkLearnableFunction g (mn, mx) deg cps).findKnotSpan
                ((mkLearnableFunction g (mn, mx) deg cps).clampInput x))
              ((mkLearnableFunction g (mn, mx) deg cps).clampInput x) j))
          (List.replicate (mkLearnableFunction g (mn, mx) deg cps).controlPoints.length 0)).getD i 0)
        = (ascList 0 (mkLearnableFunction g (mn, mx) deg cps).controlPoints.length).map
          (fun i => if ((mkLearnableFunction g (mn, mx) deg cps).findKnotSpan
                ((mkLearnableFunction g (mn, mx) deg cps).clampInput x)
              - (mkLearnableFunction g (mn, mx) deg cps).degree) ≤ i
              ∧ i < ((mkLearnableFunction g (mn, mx) deg cps).findKnotSpan
                ((mkLearnableFunction g (mn, mx) deg cps).clampInput x)
              - (mkLearnableFunction g (mn, mx) deg cps).degree)
                + ((mkLearnableFunction g (mn, mx) deg cps).degree + 1)
            then (mkLearnableFunction g (mn, mx) deg cps).computeBasisFunctions
              ((mkLearnableFunction g (mn, mx) deg cps).findKnotSpan
                ((mkLearnableFunction g (mn, mx) deg cps).clampInput x))
              ((mkLearnableFunction g (mn, mx) deg cps).clampInput x)
              (i - ((mkLearnableFunction g (mn, mx) deg cps).findKnotSpan
                ((mkLearnableFunction g (mn, mx) deg cps).clampInput x)
              - (mkLearnableFunction g (mn, mx) deg cps).degree))
            else 0) := by
      apply List.map_congr_left
      intro i _
      rw [hfget i]
      by_cases hc : ((mkLearnableFunction g (mn, mx) deg cps).findKnotSpan
            ((mkLearnableFunction g (mn, mx) deg cps).clampInput x)
          - (mkLearnableFunction g (mn, mx) deg cps).degree) + 0 ≤ i
          ∧ i < ((mkLearnableFunction g (mn, mx) deg cps).findKnotSpan
            ((mkLearnableFunction g (mn, mx) deg cps).clampInput x)
          - (mkLearnableFunction g (mn, mx) deg cps).degree) + 0
            + ((mkLearnableFunction g (mn, mx) deg cps).degree + 1)
      · rw [if_pos hc, if_pos (by omega)]
      · rw [if_neg hc, if_neg (by omega)]
        exact getD_replicate_zero _ _
    rw [hcongr, sum_if_window _ _ _ _ (by rw [hcp, hlen, hdeg]; omega)]
    apply LearnableFunction.computeBasisFunctions_sum
    exact hden

/-- A concrete default-parameter spline (gridSize 5, degree 3) for witnesses. -/
def c4F : LearnableFunction := mkLearnableFunction 5 (-1, 1) 3 [0, 0, 0, 0, 0, 0]

/-- Witness for C4 at a concrete spline and input. -/
theorem C4_witness :
    ((-1 : ℚ) < 1) ∧ (([0, 0, 0, 0, 0, 0] : List ℚ).length = 5 + 1)
    ∧ ((c4F.getControlPointGradients (1/3)).length = 5 + 1
      ∧ (∀ i, i < 5 + 1 →
          (i < c4F.findKnotSpan (c4F.clampInput (1/3)) - c4F.degree
            ∨ c4F.findKnotSpan (c4F.clampInput (1/3)) < i) →
          (c4F.getControlPointGradients (1/3)).getD i 0 = 0)
      ∧ (∀ j, j ≤ c4F.degree →
          (c4F.getControlPointGradients (1/3)).getD
              (c4F.findKnotSpan (c4F.clampInput (1/3)) - c4F.degree + j) 0
            = c4F.computeBasisFunctions (c4F.findKnotSpan (c4F.clampInput (1/3)))
                (c4F.clampInput (1/3)) j)
      ∧ (c4F.getControlPointGradients (1/3)).sum = 1) :=
  ⟨by decide, by decide,
    C4_gradients_partition_of_unity 5 3 (-1) 1 [0, 0, 0, 0, 0, 0] (1/3) c4F rfl
      (by decide) (by decide)⟩

/-!
## The KAN node / edge / network state model

Nodes and edges are mutable, mutually referencing JS objects; they are
embedded as an arena: stores `ℕ → NodeSt` and `ℕ → EdgeSt` indexed by arena
ids, with the layer structure a list of lists of node ids.
-/

/-- State of one `KANNode`.  `id` is `Option String` because the source reads
`inputIds[i]`, which is `undefined` past the end of the array. -/
structure NodeSt where
  id : Option String
  inputEdges : List ℕ
  outputEdges : List ℕ
  output : ℚ
  outputDer : ℚ
  bias : ℚ
deriving DecidableEq

/-- State of one `KANEdge` (edge ids, inert strings, are elided). -/
structure EdgeSt where
  src : ℕ
  dst : ℕ
  lf : LearnableFunction
  lastInput : ℚ
  accGradients : List ℚ
  numAcc : ℕ
deriving DecidableEq

/-- The whole network: layers of node ids plus the node and edge stores. -/
structure Net where
  layers : List (List ℕ)
  node : ℕ → NodeSt
  edge : ℕ → EdgeSt

/-- `network[L]` (JS indexing; out of range gives the empty layer). -/
def layerOf (net : Net) (L : ℕ) : List ℕ := net.layers.getD L []

def setNode (net : Net) (i : ℕ) (v : NodeSt) : Net :=
  { net with node := updFn net.node i v }

def setEdge (net : Net) (i : ℕ) (v : EdgeSt) : Net :=
  { net with edge := updFn net.edge i v }

/-- `node.output = v`. -/
def setOutput (net : Net) (nid : ℕ) (v : ℚ) : Net :=
  setNode net nid { net.node nid with output := v }

/-- `node.outputDer = v`. -/
def setOutputDer (net : Net) (nid : ℕ) (v : ℚ) : Net :=
  setNode net nid { net.node nid with outputDer := v }

/-- `node.outputDer += v`. -/
def addOutputDer (net : Net) (nid : ℕ) (v : ℚ) : Net :=
  setNode net nid { net.node nid with outputDer := (net.node nid).outputDer + v }

/-- The accumulation loop of `KANEdge.accumulateGradients`:
`acc[i] += g * grads[i]` for `i < min(acc.length, grads.length)`. -/
def accumList (g : ℚ) : List ℚ → List ℚ → List ℚ
  | acc, [] => acc
  | [], _ => []
  | a :: acc, d :: ds => (a + g * d) :: accumList g acc ds

/-- `KANEdge.accumulateGradients` on the edge state alone. -/
def accumulateGradients (e : EdgeSt) (g : ℚ) : EdgeSt :=
  { e with
    accGradients := accumList g e.accGradients (e.lf.getControlPointGradients e.lastInput)
    numAcc := e.numAcc + 1 }

/-- `KANEdge.updateParameters` on the edge state alone: no-op when no
gradients are accumulated, otherwise average, update the spline, and reset. -/
def edgeUpdateLocal (e : EdgeSt) (lr : ℚ) : EdgeSt :=
  if 0 < e.numAcc then
    { e with
      lf := e.lf.updateParameters (e.accGradients.map (fun g => g / (e.numAcc : ℚ))) lr
      accGradients := List.replicate e.accGradients.length 0
      numAcc := 0 }
  else e

/-- One iteration of the loop in `KANNode.forward`: cache the source output as
`lastInput`, then `output += evaluate(input)`. -/
def edgeForwardStep (net : Net) (nid eid : ℕ) : Net :=
  let e := net.edge eid
  let input := (net.node e.src).output
  let net1 := setEdge net eid { e with lastInput := input }
  setOutput net1 nid ((net1.node nid).output + e.lf.evaluate input)

/-- `KANNode.forward`: `output = bias`, then add each input edge's value. -/
def nodeForward (net : Net) (nid : ℕ) : Net :=
  let net0 := setOutput net nid (net.node nid).bias
  (net.node nid).inputEdges.foldl (fun acc eid => edgeForwardStep acc nid eid) net0

/-- `KANEdge.accumulateGradients` acting inside the network. -/
def edgeAccumulate (net : Net) (eid : ℕ) (g : ℚ) : Net :=
  setEdge net eid (accumulateGradients (net.edge eid) g)

/-- One iteration of the loop in `KANNode.backward`. -/
def edgeBackwardStep (net : Net) (nid eid : ℕ) : Net :=
  let nd := net.node nid
  let e := net.edge eid
  let inputGrad := nd.outputDer * e.lf.derivative e.lastInput
  let net1 := edgeAccumulate net eid nd.outputDer
  addOutputDer net1 (net1.edge eid).src inputGrad

/-- `KANNode.backward`: push gradients into each input edge and its source. -/
def nodeBackward (net : Net) (nid : ℕ) : Net :=
  (net.node nid).inputEdges.foldl (fun acc eid => edgeBackwardStep acc nid eid) net

/-- `KANEdge.updateParameters` acting inside the network. -/
def edgeUpdateParams (net : Net) (eid : ℕ) (lr : ℚ) : Net :=
  setEdge net eid (edgeUpdateLocal (net.edge eid) lr)

/-- `kanForwardProp`: arity check, write inputs, forward layers `1..N-1` in
order, return the single output node's `output`.  The source throws before
any write when the arity check fails; the embedding returns `Except.error`
there, so no state is produced on that path. -/
def kanForwardProp (net : Net) (inputs : List ℚ) : Except String (Net × ℚ) :=
  if inputs.length ≠ (layerOf net 0).length then
    Except.error "Number of inputs must match input layer size"
  else
    let net1 := (ascList 0 (layerOf net 0).length).foldl
      (fun acc i => setOutput acc ((layerOf net 0).getD i 0) (inputs.getD i 0)) net
    let net2 := (ascList 1 (net.layers.length - 1)).foldl
      (fun acc L => (layerOf acc L).foldl (fun a nid => nodeForward a nid) acc) net1
    Except.ok (net2, (net2.node ((layerOf net2 (net2.layers.length - 1)).getD 0 0)).output)

/-- Reset `outputDer` to `0` on every node of a layer. -/
def resetLayer (net : Net) (ids : List ℕ) : Net :=
  ids.foldl (fun acc nid => setOutputDer acc nid 0) net

/-- One iteration of the backward layer loop: reset the previous layer's
`outputDer` (except when it is the input layer), then run `backward()` on
every node of layer `L`. -/
def backOneLayer (net : Net) (L : ℕ) : Net :=
  let net1 := if 1 < L then resetLayer net (layerOf net (L - 1)) else net
  (layerOf net L).foldl (fun acc nid => nodeBackward acc nid) net1

/-- The backward `for (layerIdx = N-1; layerIdx >= 1; layerIdx--)` loop. -/
def backLayers (net : Net) : ℕ → Net
  | 0 => net
  | L + 1 => backLayers (backOneLayer net (L + 1)) L

/-- `kanBackProp`: seed the output node's `outputDer` from the loss
derivative, then process layers top-down. -/
def kanBackProp (net : Net) (target : ℚ) (errorDer : ℚ → ℚ → ℚ) : Net :=
  let outId := (layerOf net (net.layers.length - 1)).getD 0 0
  backLayers (setOutputDer net outId (errorDer ((net.node outId).output) target))
    (net.layers.length - 1)

/-- Per-node part of `updateKANWeights`: step the bias (only when nonzero)
by the current `outputDer`, then update every input edge. -/
def updateNodeWeights (net : Net) (lr : ℚ) (nid : ℕ) : Net :=
  let nd := net.node nid
  let net1 := if nd.bias ≠ 0 then setNode net nid { nd with bias := nd.bias - lr * nd.outputDer }
    else net
  nd.inputEdges.foldl (fun acc eid => edgeUpdateParams acc eid lr) net1

/-- `updateKANWeights` over layers `1..N-1`. -/
def updateKANWeights (net : Net) (lr : ℚ) : Net :=
  (ascList 1 (net.layers.length - 1)).foldl
    (fun acc L => (layerOf acc L).foldl (fun a nid => updateNodeWeights a lr nid) acc) net

/-- All edge ids reachable as an input edge of some non-input-layer node, in
update order. -/
def allInputEdges (net : Net) : List ℕ :=
  ((ascList 1 (net.layers.length - 1)).flatMap (fun L => layerOf net L)).flatMap
    (fun nid => (net.node nid).inputEdges)

/-- A fold establishes a goal at a member and keeps it afterwards. -/
theorem foldl_achieve {α σ : Type} (P D : σ → Prop) (f : σ → α → σ) :
    ∀ (l : List α) (a0 : α), a0 ∈ l →
      (∀ s a, a ∈ l → P s → P (f s a)) →
      (∀ s a, a ∈ l → D s → D (f s a)) →
      (∀ s, P s → D (f s a0)) →
      ∀ s, P s → D (List.foldl f s l) ∧ P (List.foldl f s l) := by
  intro l
  induction l with
  | nil =>
    intro a0 ha0
    exact absurd ha0 (List.not_mem_nil a0)
  | cons x xs ih =>
    intro a0 ha0 hP hD hprog s hs
    rcases List.mem_cons.mp ha0 with rfl | hmem
    · have hD1 : D (f s a0) := hprog s hs
      have hP1 : P (f s a0) := hP s a0 (List.mem_cons_self _ _) hs
      have hfold := foldl_inv (fun t => P t ∧ D t) f xs (f s a0)
        (fun t a ha hpd =>
          ⟨hP t a (List.mem_cons_of_mem _ ha) hpd.1, hD t a (List.mem_cons_of_mem _ ha) hpd.2⟩)
        ⟨hP1, hD1⟩
      simp only [List.foldl_cons]
      exact ⟨hfold.2, hfold.1⟩
    · have hP1 : P (f s x) := hP s x (List.mem_cons_self _ _) hs
      simp only [List.foldl_cons]
      exact ih a0 hmem (fun t a ha => hP t a (List.mem_cons_of_mem _ ha))
        (fun t a ha => hD t a (List.mem_cons_of_mem _ ha)) hprog (f s x) hP1

theorem updList_zero : ∀ (cp gs : List ℚ), LearnableFunction.updList 0 cp gs = cp := by
  intro cp
  induction cp with
  | nil =>
    intro gs
    cases gs <;> rfl
  | cons c cp ih =>
    intro gs
    cases gs with
    | nil => rfl
    | cons g gs =>
      show (c - 0 * g) :: LearnableFunction.updList 0 cp gs = c :: cp
      rw [ih gs]
      ring_nf

theorem edgeUpdateLocal_numAcc (e : EdgeSt) (lr : ℚ) : (edgeUpdateLocal e lr).numAcc = 0 := by
  unfold edgeUpdateLocal
  by_cases h : 0 < e.numAcc
  · rw [if_pos h]
  · rw [if_neg h]
    omega

theorem edgeUpdateLocal_of_zero (e : EdgeSt) (lr : ℚ) (h : e.numAcc = 0) :
    edgeUpdateLocal e lr = e := by
  unfold edgeUpdateLocal
  rw [if_neg (by omega)]

theorem edgeUpdateLocal_idem (e : EdgeSt) (lr lr2 : ℚ) :
    edgeUpdateLocal (edgeUpdateLocal e lr) lr2 = edgeUpdateLocal e lr :=
  edgeUpdateLocal_of_zero _ _ (edgeUpdateLocal_numAcc e lr)

theorem edgeUpdateLocal_acc (e : EdgeSt) (lr : ℚ) (h : 0 < e.numAcc) :
    (edgeUpdateLocal e lr).accGradients = List.replicate e.accGradients.length 0 := by
  unfold edgeUpdateLocal
  rw [if_pos h]

theorem edgeUpdateLocal_cp_zero (e : EdgeSt) :
    (edgeUpdateLocal e 0).lf.controlPoints = e.lf.controlPoints := by
  unfold edgeUpdateLocal
  by_cases h : 0 < e.numAcc
  · rw [if_pos h]
    exact updList_zero _ _
  · rw [if_neg h]

/-- Invariant of `updateKANWeights` at learning rate `0`, relative to the
starting network. -/
def UpdZeroInv (net s : Net) : Prop :=
  s.layers = net.layers
  ∧ (∀ n, (s.node n).bias = (net.node n).bias
      ∧ (s.node n).inputEdges = (net.node n).inputEdges)
  ∧ (∀ i, s.edge i = net.edge i ∨ s.edge i = edgeUpdateLocal (net.edge i) 0)

theorem updZeroInv_refl (net : Net) : UpdZeroInv net net :=
  ⟨rfl, fun _ => ⟨rfl, rfl⟩, fun _ => Or.inl rfl⟩

theorem edgeUpdateParams_zero_preserves (net s : Net) (eid : ℕ)
    (h : UpdZeroInv net s) : UpdZeroInv net (edgeUpdateParams s eid 0) := by
  obtain ⟨hl, hn, he⟩ := h
  refine ⟨hl, hn, ?_⟩
  intro i
  by_cases hi : i = eid
  · subst hi
    right
    show updFn s.edge i (edgeUpdateLocal (s.edge i) 0) i = _
    rw [updFn_same]
    rcases he i with h1 | h1
    · rw [h1]
    · rw [h1, edgeUpdateLocal_idem]
  · have : (edgeUpdateParams s eid 0).edge i = s.edge i := by
      show updFn s.edge eid _ i = s.edge i
      exact updFn_other _ _ _ _ hi
    rw [this]
    exact he i

theorem updateNodeWeights_zero_preserves (net s : Net) (nid : ℕ)
    (h : UpdZeroInv net s) : UpdZeroInv net (updateNodeWeights s 0 nid) := by
  have h1 : UpdZeroInv net
      (if (s.node nid).bias ≠ 0 then
        setNode s nid { s.node nid with bias := (s.node nid).bias - 0 * (s.node nid).outputDer }
      else s) := by
    by_cases hb : (s.node nid).bias ≠ 0
    · rw [if_pos hb]
      obtain ⟨hl, hn, he⟩ := h
      refine ⟨hl, ?_, he⟩
      intro n
      by_cases hni : n = nid
      · subst hni
        constructor
        · show (updFn s.node n
              { s.node n with bias := (s.node n).bias - 0 * (s.node n).outputDer } n).bias
              = (net.node n).bias
          rw [updFn_same]
          show (s.node n).bias - 0 * (s.node n).outputDer = (net.node n).bias
          rw [zero_mul, sub_zero]
          exact (hn n).1
        · show (updFn s.node n
              { s.node n with bias := (s.node n).bias - 0 * (s.node n).outputDer } n).inputEdges
              = (net.node n).inputEdges
          rw [updFn_same]
          exact (hn n).2
      · constructor
        · show (updFn s.node nid _ n).bias = (net.node n).bias
          rw [updFn_other _ _ _ _ hni]
          exact (hn n).1
        · show (updFn s.node nid _ n).inputEdges = (net.node n).inputEdges
          rw [updFn_other _ _ _ _ hni]
          exact (hn n).2
    · rw [if_neg hb]
      exact h
  unfold updateNodeWeights
  apply foldl_inv (UpdZeroInv net) (fun acc eid => edgeUpdateParams acc eid 0)
  · intro s2 a _ hs2
    exact edgeUpdateParams_zero_preserves net s2 a hs2
  · exact h1

theorem updateKANWeights_zero_inv (net : Net) : UpdZeroInv net (updateKANWeights net 0) := by
  unfold updateKANWeights
  apply foldl_inv (UpdZeroInv net)
  · intro s L _ hs
    apply foldl_inv (UpdZeroInv net)
    · intro s2 nid _ hs2
      exact updateNodeWeights_zero_preserves net s2 nid hs2
    · exact hs
  · exact updZeroInv_refl net

/-- Claim C9: calling `updateKANWeights` with learning rate `0` leaves every
edge's control points and every node bias unchanged, whatever state the
network is in. -/
theorem C9_zero_learning_rate_is_noop (net : Net) :
    (∀ n, ((updateKANWeights net 0).node n).bias = (net.node n).bias)
    ∧ (∀ i, ((updateKANWeights net 0).edge i).lf.controlPoints
        = (net.edge i).lf.controlPoints) := by
  obtain ⟨hl, hn, he⟩ := updateKANWeights_zero_inv net
  constructor
  · intro n
    exact (hn n).1
  · intro i
    rcases he i with h | h
    · rw [h]
    · rw [h, edgeUpdateLocal_cp_zero]

theorem updateNodeWeights_keeps_done (net : Net) (nid eid : ℕ) :
    ∀ t : Net, t.edge eid = edgeUpdateLocal (net.edge eid) 0 →
      (updateNodeWeights t 0 nid).edge eid = edgeUpdateLocal (net.edge eid) 0 := by
  intro t ht
  unfold updateNodeWeights
  apply foldl_inv (fun u : Net => u.edge eid = edgeUpdateLocal (net.edge eid) 0)
    (fun acc e2 => edgeUpdateParams acc e2 0)
  · intro u a _ hu
    show (setEdge u a (edgeUpdateLocal (u.edge a) 0)).edge eid = _
    by_cases ha : eid = a
    · subst ha
      show updFn u.edge eid _ eid = _
      rw [updFn_same, hu, edgeUpdateLocal_idem]
    · show updFn u.edge a _ eid = _
      rw [updFn_other _ _ _ _ ha]
      exact hu
  · by_cases hb : (t.node nid).bias ≠ 0
    · rw [if_pos hb]
      exact ht
    · rw [if_neg hb]
      exact ht

theorem updateNodeWeights_achieves (net : Net) (nid eid : ℕ)
    (heid : eid ∈ (net.node nid).inputEdges) :
    ∀ t : Net, UpdZeroInv net t →
      (updateNodeWeights t 0 nid).edge eid = edgeUpdateLocal (net.edge eid) 0 := by
  intro t ht
  simp only [updateNodeWeights]
  have hlist : (t.node nid).inputEdges = (net.node nid).inputEdges := (ht.2.1 nid).2
  have heid2 : eid ∈ (t.node nid).inputEdges := by
    rw [hlist]
    exact heid
  have hinit : UpdZeroInv net
      (if (t.node nid).bias ≠ 0 then
        setNode t nid { t.node nid with bias := (t.node nid).bias - 0 * (t.node nid).outputDer }
      else t) := by
    have := updateNodeWeights_zero_preserves net t nid ht
    -- re-derive directly: the bias branch preserves the invariant
    by_cases hb : (t.node nid).bias ≠ 0
    · rw [if_pos hb]
      obtain ⟨hl, hn, he⟩ := ht
      refine ⟨hl, ?_, he⟩
      intro n
      by_cases hni : n = nid
      · subst hni
        refine ⟨?_, ?_⟩
        · show (updFn t.node n
              { t.node n with bias := (t.node n).bias - 0 * (t.node n).outputDer } n).bias
              = (net.node n).bias
          rw [updFn_same]
          show (t.node n).bias - 0 * (t.node n).outputDer = (net.node n).bias
          rw [zero_mul, sub_zero]
          exact (hn n).1
        · show (updFn t.node n
              { t.node n with bias := (t.node n).bias - 0 * (t.node n).outputDer } n).inputEdges
              = (net.node n).inputEdges
          rw [updFn_same]
          exact (hn n).2
      · refine ⟨?_, ?_⟩
        · show (updFn t.node nid _ n).bias = (net.node n).bias
          rw [updFn_other _ _ _ _ hni]
          exact (hn n).1
        · show (updFn t.node nid _ n).inputEdges = (net.node n).inputEdges
          rw [updFn_other _ _ _ _ hni]
          exact (hn n).2
    · rw [if_neg hb]
      exact ht
  have hach := foldl_achieve (UpdZeroInv net)
    (fun u : Net => u.edge eid = edgeUpdateLocal (net.edge eid) 0)
    (fun acc e2 => edgeUpdateParams acc e2 0) (t.node nid).inputEdges eid heid2
    (fun u a _ hu => edgeUpdateParams_zero_preserves net u a hu)
    (fun u a _ hd => by
      show (setEdge u a (edgeUpdateLocal (u.edge a) 0)).edge eid = _
      by_cases ha : eid = a
      · subst ha
        show updFn u.edge eid _ eid = _
        rw [updFn_same, hd, edgeUpdateLocal_idem]
      · show updFn u.edge a _ eid = _
        rw [updFn_other _ _ _ _ ha]
        exact hd)
    (fun u hu => by
      show (setEdge u eid (edgeUpdateLocal (u.edge eid) 0)).edge eid = _
      show updFn u.edge eid _ eid = _
      rw [updFn_same]
      rcases hu.2.2 eid with h | h
      · rw [h]
      · rw [h, edgeUpdateLocal_idem])
    _ hinit
  exact hach.1

theorem updateKANWeights_zero_processes (net : Net) (eid : ℕ) (h : eid ∈ allInputEdges net) :
    (updateKANWeights net 0).edge eid = edgeUpdateLocal (net.edge eid) 0 := by
  unfold allInputEdges at h
  rw [List.mem_flatMap] at h
  obtain ⟨nid, hnid, heid⟩ := h
  rw [List.mem_flatMap] at hnid
  obtain ⟨L, hL, hnid2⟩ := hnid
  unfold updateKANWeights
  have hres := foldl_achieve (UpdZeroInv net)
    (fun s : Net => s.edge eid = edgeUpdateLocal (net.edge eid) 0)
    (fun acc L2 => (layerOf acc L2).foldl (fun a nid2 => updateNodeWeights a 0 nid2) acc)
    (ascList 1 (net.layers.length - 1)) L hL
    (fun s a _ hs => by
      apply foldl_inv (UpdZeroInv net)
      · intro s2 nid2 _ hs2
        exact updateNodeWeights_zero_preserves net s2 nid2 hs2
      · exact hs)
    (fun s a _ hd => by
      apply foldl_inv (fun u : Net => u.edge eid = edgeUpdateLocal (net.edge eid) 0)
      · intro s2 nid2 _ hs2
        exact updateNodeWeights_keeps_done net nid2 eid s2 hs2
      · exact hd)
    (fun s hs => by
      have hlayer : layerOf s L = layerOf net L := by
        unfold layerOf
        rw [hs.1]
      show ((layerOf s L).foldl (fun a nid2 => updateNodeWeights a 0 nid2) s).edge eid
        = edgeUpdateLocal (net.edge eid) 0
      rw [hlayer]
      have hach := foldl_achieve (UpdZeroInv net)
        (fun u : Net => u.edge eid = edgeUpdateLocal (net.edge eid) 0)
        (fun a nid2 => updateNodeWeights a 0 nid2) (layerOf net L) nid hnid2
        (fun u a _ hu => updateNodeWeights_zero_preserves net u a hu)
        (fun u a _ hd => updateNodeWeights_keeps_done net a eid u hd)
        (fun u hu => updateNodeWeights_achieves net nid eid heid u hu)
        s hs
      exact hach.1)
    net (updZeroInv_refl net)
  exact hres.1

/-- Claim C10: `KANEdge.updateParameters`, for every learning rate, resets
`accGradients` to zeros and `numAccumulatedGrads` to `0` whenever gradients
are pending, and changes nothing when none are; consequently
`updateKANWeights` with learning rate `0` discards every pending edge
accumulation even though no control point or bias changes. -/
theorem C10_update_discards_accumulators (net : Net) (e : EdgeSt) (lr : ℚ) :
    (0 < e.numAcc →
      (edgeUpdateLocal e lr).accGradients = List.replicate e.accGradients.length 0
      ∧ (edgeUpdateLocal e lr).numAcc = 0)
    ∧ (e.numAcc = 0 → edgeUpdateLocal e lr = e)
    ∧ (∀ eid, eid ∈ allInputEdges net →
        ((updateKANWeights net 0).edge eid).numAcc = 0
        ∧ (0 < (net.edge eid).numAcc →
          ((updateKANWeights net 0).edge eid).accGradients
            = List.replicate (net.edge eid).accGradients.length 0))
    ∧ (∀ n, ((updateKANWeights net 0).node n).bias = (net.node n).bias)
    ∧ (∀ i, ((updateKANWeights net 0).edge i).lf.controlPoints
        = (net.edge i).lf.controlPoints) := by
  obtain ⟨hl, hn, he⟩ := updateKANWeights_zero_inv net
  refine ⟨?_, ?_, ?_, ?_, ?_⟩
  · intro hpos
    exact ⟨edgeUpdateLocal_acc e lr hpos, edgeUpdateLocal_numAcc e lr⟩
  · intro hz
    exact edgeUpdateLocal_of_zero e lr hz
  · intro eid heid
    have hproc := updateKANWeights_zero_processes net eid heid
    constructor
    · rw [hproc]
      exact edgeUpdateLocal_numAcc _ _
    · intro hpos
      rw [hproc]
      exact edgeUpdateLocal_acc _ _ hpos
  · intro n
    exact (hn n).1
  · intro i
    rcases he i with h | h
    · rw [h]
    · rw [h, edgeUpdateLocal_cp_zero]

/-!
## Concrete networks and edges used by witnesses
-/

def wLF : LearnableFunction := mkLearnableFunction 1 (-1, 1) 3 [0, 0]

def wEdge0 : EdgeSt :=
  { src := 0, dst := 1, lf := wLF, lastInput := 0, accGradients := [0, 0], numAcc := 0 }

def wEdgeAcc : EdgeSt :=
  { src := 0, dst := 1, lf := wLF, lastInput := 0, accGradients := [1, 2], numAcc := 3 }

def wNode0 : NodeSt :=
  { id := some "x", inputEdges := [], outputEdges := [0], output := 0, outputDer := 0, bias := 0 }

def wNode1 : NodeSt :=
  { id := some "1", inputEdges := [0], outputEdges := [], output := 0, outputDer := 0, bias := 0 }

/-- A two-layer network: one input node `0`, one output node `1`, one edge `0`. -/
def wNet : Net :=
  { layers := [[0], [1]]
    node := fun i => if i = 0 then wNode0 else wNode1
    edge := fun _ => wEdge0 }

/-- Witness for C10 at a concrete edge and network. -/
theorem C10_witness :
    (0 < wEdgeAcc.numAcc)
    ∧ ((edgeUpdateLocal wEdgeAcc 2).accGradients
          = List.replicate wEdgeAcc.accGradients.length 0
        ∧ (edgeUpdateLocal wEdgeAcc 2).numAcc = 0)
    ∧ (wEdge0.numAcc = 0) ∧ (edgeUpdateLocal wEdge0 2 = wEdge0)
    ∧ ((0 : ℕ) ∈ allInputEdges wNet)
    ∧ (((updateKANWeights wNet 0).edge 0).numAcc = 0)
    ∧ (∀ n, ((updateKANWeights wNet 0).node n).bias = (wNet.node n).bias) :=
  ⟨by decide,
    (C10_update_discards_accumulators wNet wEdgeAcc 2).1 (by decide),
    by decide,
    (C10_update_discards_accumulators wNet wEdge0 2).2.1 (by decide),
    by decide,
    ((C10_update_discards_accumulators wNet wEdge0 2).2.2.1 0 (by decide)).1,
    (C10_update_discards_accumulators wNet wEdge0 2).2.2.2.1⟩

/-!
## Claim C5: gradient accumulation averaging cancels the batch count
-/

theorem accumList_length (g : ℚ) : ∀ (acc ds : List ℚ), (accumList g acc ds).length = acc.length := by
  intro acc
  induction acc with
  | nil =>
    intro ds
    cases ds <;> rfl
  | cons a acc ih =>
    intro ds
    cases ds with
    | nil => rfl
    | cons d ds =>
      show ((a + g * d) :: accumList g acc ds).length = (a :: acc).length
      simp [ih ds]

theorem accumList_getD (g : ℚ) : ∀ (acc ds : List ℚ) (i : ℕ), i < acc.length → i < ds.length →
    (accumList g acc ds).getD i 0 = acc.getD i 0 + g * ds.getD i 0 := by
  intro acc
  induction acc with
  | nil =>
    intro ds i h1 _
    simp at h1
  | cons a acc ih =>
    intro ds i h1 h2
    cases ds with
    | nil => simp at h2
    | cons d ds =>
      cases i with
      | zero => rfl
      | succ i =>
        show (accumList g acc ds).getD i 0 = (a :: acc).getD (i + 1) 0 + g * (d :: ds).getD (i + 1) 0
        rw [List.getD_cons_succ, List.getD_cons_succ]
        exact ih ds i (by simpa using h1) (by simpa using h2)

theorem updList_length (lr : ℚ) :
    ∀ (cp gs : List ℚ), (LearnableFunction.updList lr cp gs).length = cp.length := by
  intro cp
  induction cp with
  | nil =>
    intro gs
    cases gs <;> rfl
  | cons c cp ih =>
    intro gs
    cases gs with
    | nil => rfl
    | cons d gs =>
      show ((c - lr * d) :: LearnableFunction.updList lr cp gs).length = (c :: cp).length
      simp [ih gs]

theorem updList_getD (lr : ℚ) : ∀ (cp gs : List ℚ) (i : ℕ), i < cp.length → i < gs.length →
    (LearnableFunction.updList lr cp gs).getD i 0 = cp.getD i 0 - lr * gs.getD i 0 := by
  intro cp
  induction cp with
  | nil =>
    intro gs i h1 _
    simp at h1
  | cons c cp ih =>
    intro gs i h1 h2
    cases gs with
    | nil => simp at h2
    | cons d gs =>
      cases i with
      | zero => rfl
      | succ i =>
        show (LearnableFunction.updList lr cp gs).getD i 0
            = (c :: cp).getD (i + 1) 0 - lr * (d :: gs).getD (i + 1) 0
        rw [List.getD_cons_succ, List.getD_cons_succ]
        exact ih gs i (by simpa using h1) (by simpa using h2)

theorem getD_map_div (l : List ℚ) (c : ℚ) (i : ℕ) :
    (l.map (fun y => y / c)).getD i 0 = l.getD i 0 / c := by
  rcases Nat.lt_or_ge i l.length with h | h
  · rw [List.getD_eq_getElem _ _ (by simpa using h), List.getD_eq_getElem _ _ h,
        List.getElem_map]
  · rw [List.getD_eq_default _ _ (by simpa using h), List.getD_eq_default _ _ h, zero_div]

/-- State of an edge after `m` accumulations of the same gradient `g` against
the same cached input. -/
theorem accumulate_iterate (e : EdgeSt) (g : ℚ)
    (hlen : e.accGradients.length = e.lf.controlPoints.length) :
    ∀ m : ℕ,
      ((fun e2 => accumulateGradients e2 g)^[m] e).lf = e.lf
      ∧ ((fun e2 => accumulateGradients e2 g)^[m] e).lastInput = e.lastInput
      ∧ ((fun e2 => accumulateGradients e2 g)^[m] e).numAcc = e.numAcc + m
      ∧ ((fun e2 => accumulateGradients e2 g)^[m] e).accGradients.length = e.accGradients.length
      ∧ ∀ i, i < e.accGradients.length →
          ((fun e2 => accumulateGradients e2 g)^[m] e).accGradients.getD i 0
            = e.accGradients.getD i 0
              + (m : ℚ) * (g * (e.lf.getControlPointGradients e.lastInput).getD i 0) := by
  intro m
  induction m with
  | zero =>
    refine ⟨by simp, by simp, by simp, by simp, ?_⟩
    intro i _
    simp only [Function.iterate_zero_apply]
    push_cast
    ring
  | succ m ih =>
    obtain ⟨hlf, hlast, hcnt, hal, hget⟩ := ih
    rw [Function.iterate_succ_apply']
    have hglen : (e.lf.getControlPointGradients e.lastInput).length
        = e.lf.controlPoints.length :=
      LearnableFunction.getControlPointGradients_length e.lf e.lastInput
    refine ⟨?_, ?_, ?_, ?_, ?_⟩
    · show ((fun e2 => accumulateGradients e2 g)^[m] e).lf = e.lf
      exact hlf
    · show ((fun e2 => accumulateGradients e2 g)^[m] e).lastInput = e.lastInput
      exact hlast
    · show ((fun e2 => accumulateGradients e2 g)^[m] e).numAcc + 1 = e.numAcc + (m + 1)
      omega
    · show (accumList g ((fun e2 => accumulateGradients e2 g)^[m] e).accGradients
          (((fun e2 => accumulateGradients e2 g)^[m] e).lf.getControlPointGradients
            ((fun e2 => accumulateGradients e2 g)^[m] e).lastInput)).length
          = e.accGradients.length
      rw [accumList_length, hal]
    · intro i hi
      show (accumList g ((fun e2 => accumulateGradients e2 g)^[m] e).accGradients
          (((fun e2 => accumulateGradients e2 g)^[m] e).lf.getControlPointGradients
            ((fun e2 => accumulateGradients e2 g)^[m] e).lastInput)).getD i 0 = _
      rw [hlf, hlast]
      rw [accumList_getD g _ _ i (by rw [hal]; exact hi) (by rw [hglen, ← hlen]; exact hi)]
      rw [hget i hi]
      push_cast
      ring

/-- Claim C5: `k` accumulations of the same gradient at the same cached input
followed by one `updateParameters` shift the control points exactly as one
accumulation would: by `lr * g` times the basis-gradient vector (averaging
cancels the count). -/
theorem C5_accumulation_averaging (e : EdgeSt) (g lr : ℚ) (k : ℕ) (hk : 1 ≤ k)
    (hacc : e.accGradients = List.replicate e.accGradients.length 0)
    (hcnt : e.numAcc = 0)
    (hlen : e.accGradients.length = e.lf.controlPoints.length) :
    ((edgeUpdateLocal ((fun e2 => accumulateGradients e2 g)^[k] e) lr).lf.controlPoints
        = (edgeUpdateLocal (accumulateGradients e g) lr).lf.controlPoints)
    ∧ ∀ i, i < e.lf.controlPoints.length →
        (edgeUpdateLocal ((fun e2 => accumulateGradients e2 g)^[k] e) lr).lf.controlPoints.getD i 0
          = e.lf.controlPoints.getD i 0
            - lr * (g * (e.lf.getControlPointGradients e.lastInput).getD i 0) := by
  have hglen : (e.lf.getControlPointGradients e.lastInput).length
      = e.lf.controlPoints.length :=
    LearnableFunction.getControlPointGradients_length e.lf e.lastInput
  have hform : ∀ m : ℕ, 1 ≤ m →
      ((edgeUpdateLocal ((fun e2 => accumulateGradients e2 g)^[m] e) lr).lf.controlPoints.length
        = e.lf.controlPoints.length)
      ∧ ∀ i, i < e.lf.controlPoints.length →
        (edgeUpdateLocal ((fun e2 => accumulateGradients e2 g)^[m] e) lr).lf.controlPoints.getD i 0
          = e.lf.controlPoints.getD i 0
            - lr * (g * (e.lf.getControlPointGradients e.lastInput).getD i 0) := by
    intro m hm
    obtain ⟨hlf, hlast, hcnt2, hal, hget⟩ := accumulate_iterate e g hlen m
    have hpos : 0 < ((fun e2 => accumulateGradients e2 g)^[m] e).numAcc := by omega
    have hupd : edgeUpdateLocal ((fun e2 => accumulateGradients e2 g)^[m] e) lr
        = { ((fun e2 => accumulateGradients e2 g)^[m] e) with
            lf := ((fun e2 => accumulateGradients e2 g)^[m] e).lf.updateParameters
              (((fun e2 => accumulateGradients e2 g)^[m] e).accGradients.map
                (fun g2 => g2 / (((fun e2 => accumulateGradients e2 g)^[m] e).numAcc : ℚ))) lr
            accGradients := List.replicate
              ((fun e2 => accumulateGradients e2 g)^[m] e).accGradients.length 0
            numAcc := 0 } := by
      unfold edgeUpdateLocal
      rw [if_pos hpos]
    have hmQ : (((fun e2 => accumulateGradients e2 g)^[m] e).numAcc : ℚ) = (m : ℚ) := by
      rw [hcnt2, hcnt]
      push_cast
      ring
    have hmne : ((m : ℕ) : ℚ) ≠ 0 := by
      exact_mod_cast (by omega : m ≠ 0)
    constructor
    · rw [hupd]
      show (((fun e2 => accumulateGradients e2 g)^[m] e).lf.updateParameters _ lr).controlPoints.length
        = e.lf.controlPoints.length
      rw [hlf]
      show (LearnableFunction.updList lr e.lf.controlPoints _).length = e.lf.controlPoints.length
      rw [updList_length]
    · intro i hi
      rw [hupd]
      show (((fun e2 => accumulateGradients e2 g)^[m] e).lf.updateParameters _ lr).controlPoints.getD i 0
        = _
      rw [hlf]
      show (LearnableFunction.updList lr e.lf.controlPoints _).getD i 0 = _
      rw [updList_getD lr _ _ i hi (by rw [List.length_map, hal, hlen]; exact hi)]
      rw [getD_map_div, hmQ]
      rw [hget i (by rw [hlen]; exact hi)]
      rw [hacc, getD_replicate_zero]
      rw [zero_add, mul_comm (m : ℚ), mul_div_assoc, div_self hmne, mul_one]
  obtain ⟨hlen1, hget1⟩ := hform 1 (le_refl _)
  obtain ⟨hlenk, hgetk⟩ := hform k hk
  constructor
  · apply List.ext_getElem
    · rw [hlenk]
      have : (fun e2 => accumulateGradients e2 g)^[1] e = accumulateGradients e g := by
        simp
      rw [← this, hlen1]
    · intro i h1 h2
      rw [← List.getD_eq_getElem _ 0 h1, ← List.getD_eq_getElem _ 0 h2]
      have hik : i < e.lf.controlPoints.length := by
        rw [hlenk] at h1
        exact h1
      rw [hgetk i hik]
      have : (fun e2 => accumulateGradients e2 g)^[1] e = accumulateGradients e g := by
        simp
      rw [← this, hget1 i hik]
  · exact hgetk

/-- Witness for C5 at a concrete edge, gradient, and count. -/
theorem C5_witness :
    (1 ≤ 3)
    ∧ (wEdge0.accGradients = List.replicate wEdge0.accGradients.length 0)
    ∧ (wEdge0.numAcc = 0)
    ∧ (wEdge0.accGradients.length = wEdge0.lf.controlPoints.length)
    ∧ (((edgeUpdateLocal ((fun e2 => accumulateGradients e2 (5 : ℚ))^[3] wEdge0) 2).lf.controlPoints
          = (edgeUpdateLocal (accumulateGradients wEdge0 5) 2).lf.controlPoints)
        ∧ ∀ i, i < wEdge0.lf.controlPoints.length →
            (edgeUpdateLocal ((fun e2 => accumulateGradients e2 (5 : ℚ))^[3] wEdge0) 2).lf.controlPoints.getD i 0
              = wEdge0.lf.controlPoints.getD i 0
                - 2 * (5 * (wEdge0.lf.getControlPointGradients wEdge0.lastInput).getD i 0)) :=
  ⟨by decide, by decide, by decide, by decide,
    C5_accumulation_averaging wEdge0 5 2 3 (by decide) (by decide) (by decide) (by decide)⟩

/-!
## Claim C7: forward propagation arity check
-/

/-- Claim C7: `kanForwardProp` with a wrong-arity input vector fails with the
invalid-argument error before any write (the embedding returns the error
without producing a successor state, mirroring the source where the `throw`
precedes every assignment), and succeeds whenever the arity matches. -/
theorem C7_forward_arity_check (net : Net) (inputs : List ℚ) :
    (inputs.length ≠ (layerOf net 0).length →
      kanForwardProp net inputs
        = Except.error "Number of inputs must match input layer size")
    ∧ (inputs.length = (layerOf net 0).length →
      ∃ p r, kanForwardProp net inputs = Except.ok (p, r)) := by
  constructor
  · intro h
    unfold kanForwardProp
    rw [if_pos h]
  · intro h
    unfold kanForwardProp
    rw [if_neg (by omega)]
    exact ⟨_, _, rfl⟩

/-- Witness for C7: a wrong arity errors, the right arity succeeds. -/
theorem C7_witness :
    (([1, 2] : List ℚ).length ≠ (layerOf wNet 0).length)
    ∧ (kanForwardProp wNet [1, 2]
        = Except.error "Number of inputs must match input layer size")
    ∧ (([1] : List ℚ).length = (layerOf wNet 0).length)
    ∧ (∃ p r, kanForwardProp wNet [1] = Except.ok (p, r)) :=
  ⟨by decide, (C7_forward_arity_check wNet [1, 2]).1 (by decide),
    by decide, (C7_forward_arity_check wNet [1]).2 (by decide)⟩

/-!
## Claim C6: `buildKANNetwork` and the missing `inputIds` arity check
-/

/-- Default (pre-construction) node contents. -/
def emptyNode : NodeSt :=
  { id := none, inputEdges := [], outputEdges := [], output := 0, outputDer := 0, bias := 0 }

/-- Default (pre-construction) edge contents. -/
def emptyEdge : EdgeSt :=
  { src := 0
    dst := 0
    lf := mkLearnableFunction 5 (-1, 1) 3 []
    lastInput := 0
    accGradients := []
    numAcc := 0 }

/-- Builder state: the arenas plus the fresh-node, fresh-edge, node-name and
random-stream counters (`Math.random()` is modelled as an explicit stream
`rand : ℕ → ℚ` consumed in call order). -/
structure BuildSt where
  node : ℕ → NodeSt
  edge : ℕ → EdgeSt
  nextNode : ℕ
  nextEdge : ℕ
  nameCtr : ℕ
  randCtr : ℕ

/-- The node-creation loop for one layer.  `ids` is the not-yet-consumed tail
of `inputIds`; reading past its end gives `none` (= JS `undefined`). -/
def mkLayerNodes (useBias isInput : Bool) (rand : ℕ → ℚ) :
    ℕ → List String → BuildSt → (List ℕ × BuildSt)
  | 0, _, st => ([], st)
  | k + 1, ids, st =>
    let nid := st.nextNode
    let theId : Option String := if isInput then ids.head? else some (toString st.nameCtr)
    let nameCtr2 := if isInput then st.nameCtr else st.nameCtr + 1
    let useB := useBias && !isInput
    let bias : ℚ := if useB then (rand st.randCtr - 1/2) * (1/10) else 0
    let randCtr2 := if useB then st.randCtr + 1 else st.randCtr
    let nd : NodeSt :=
      { id := theId
        inputEdges := []
        outputEdges := []
        output := 0
        outputDer := 0
        bias := bias }
    let st2 : BuildSt :=
      { st with
        node := updFn st.node nid nd
        nextNode := nid + 1
        nameCtr := nameCtr2
        randCtr := randCtr2 }
    let res := mkLayerNodes useBias isInput rand k ids.tail st2
    (nid :: res.1, res.2)

/-- The layer-creation loop (`isInput` is true exactly for the first layer). -/
def mkAllLayers (useBias : Bool) (rand : ℕ → ℚ) :
    List ℕ → Bool → List String → BuildSt → (List (List ℕ) × BuildSt)
  | [], _, _, st => ([], st)
  | numNodes :: shape, isInput, ids, st =>
    let res1 := mkLayerNodes useBias isInput rand numNodes ids st
    let res2 := mkAllLayers useBias rand shape false [] res1.2
    (res1.1 :: res2.1, res2.2)

/-- `new KANEdge(source, dest, gridSize, degree)` plus its registration as an
output edge of the source and an input edge of the destination. -/
def mkEdge (g deg : ℕ) (rand : ℕ → ℚ) (srcId dstId : ℕ) (st : BuildSt) : BuildSt :=
  let eid := st.nextEdge
  let cps := (List.range (g + 1)).map (fun i : ℕ => (rand (st.randCtr + i) - 1/2) * (3/10))
  let e : EdgeSt :=
    { src := srcId
      dst := dstId
      lf := mkLearnableFunction g (-1, 1) deg cps
      lastInput := 0
      accGradients := List.replicate (g + 1) 0
      numAcc := 0 }
  let st2 : BuildSt :=
    { st with edge := updFn st.edge eid e, nextEdge := eid + 1, randCtr := st.randCtr + (g + 1) }
  let srcN := st2.node srcId
  let st3 : BuildSt :=
    { st2 with node := updFn st2.node srcId { srcN with outputEdges := srcN.outputEdges ++ [eid] } }
  let dstN := st3.node dstId
  { st3 with node := updFn st3.node dstId { dstN with inputEdges := dstN.inputEdges ++ [eid] } }

/-- Fully connect two adjacent layers (destinations outer, sources inner). -/
def connectLayerPair (g deg : ℕ) (rand : ℕ → ℚ) (prev cur : List ℕ) (st : BuildSt) : BuildSt :=
  cur.foldl (fun st1 dst => prev.foldl (fun st2 src => mkEdge g deg rand src dst st2) st1) st

/-- The edge-creation loop over consecutive layer pairs. -/
def connectAll (g deg : ℕ) (rand : ℕ → ℚ) : List (List ℕ) → BuildSt → BuildSt
  | [], st => st
  | [_], st => st
  | l1 :: l2 :: rest, st => connectAll g deg rand (l2 :: rest) (connectLayerPair g deg rand l1 l2 st)

/-- `buildKANNetwork`: create all nodes layer by layer, then fully connect
consecutive layers.  The source performs no validation of
`inputIds.length` against `networkShape[0]`. -/
def buildKANNetwork (networkShape : List ℕ) (inputIds : List String) (gridSize degree : ℕ)
    (useBias : Bool) (rand : ℕ → ℚ) : Net :=
  let st0 : BuildSt :=
    { node := fun _ => emptyNode
      edge := fun _ => emptyEdge
      nextNode := 0
      nextEdge := 0
      nameCtr := 1
      randCtr := 0 }
  let res := mkAllLayers useBias rand networkShape true inputIds st0
  let st2 := connectAll gridSize degree rand res.1 res.2
  { layers := res.1, node := st2.node, edge := st2.edge }

theorem mkLayerNodes_length (useBias isInput : Bool) (rand : ℕ → ℚ) :
    ∀ (k : ℕ) (ids : List String) (st : BuildSt),
      (mkLayerNodes useBias isInput rand k ids st).1.length = k := by
  intro k
  induction k with
  | zero =>
    intro ids st
    rfl
  | succ k ih =>
    intro ids st
    simp only [mkLayerNodes, List.length_cons]
    rw [ih]

theorem mkAllLayers_shape (useBias : Bool) (rand : ℕ → ℚ) :
    ∀ (shape : List ℕ) (isInput : Bool) (ids : List String) (st : BuildSt),
      (mkAllLayers useBias rand shape isInput ids st).1.map List.length = shape := by
  intro shape
  induction shape with
  | nil =>
    intro isInput ids st
    rfl
  | cons numNodes shape ih =>
    intro isInput ids st
    simp only [mkAllLayers, List.map_cons]
    rw [mkLayerNodes_length, ih]

theorem map_length_getD (l : List (List ℕ)) (shape : List ℕ)
    (h : l.map List.length = shape) (L : ℕ) : (l.getD L []).length = shape.getD L 0 := by
  subst h
  rcases Nat.lt_or_ge L l.length with hL | hL
  · rw [List.getD_eq_getElem _ _ hL, List.getD_eq_getElem _ _ (by simpa using hL),
        List.getElem_map]
  · rw [List.getD_eq_default _ _ hL, List.getD_eq_default _ _ (by simpa using hL)]
    rfl

/-- Claim C6 (amended): `buildKANNetwork` performs no `inputIds` arity check.
Whatever `inputIds` is given -- matching, too short, or too long -- it returns
a complete network whose layer sizes equal `networkShape`, and forward
propagation on that network succeeds for every well-sized input vector; no
error is raised and the network is fully usable (input nodes past the end of
`inputIds` simply carry the undefined id). -/
theorem C6_build_performs_no_arity_check (shape : List ℕ) (inputIds : List String)
    (g d : ℕ) (ub : Bool) (rand : ℕ → ℚ) :
    ((buildKANNetwork shape inputIds g d ub rand).layers.map List.length = shape)
    ∧ (∀ inputs : List ℚ, inputs.length = shape.getD 0 0 →
        ∃ p r, kanForwardProp (buildKANNetwork shape inputIds g d ub rand) inputs
          = Except.ok (p, r)) := by
  have hshape : (buildKANNetwork shape inputIds g d ub rand).layers.map List.length = shape := by
    show (mkAllLayers ub rand shape true inputIds _).1.map List.length = shape
    exact mkAllLayers_shape ub rand shape true inputIds _
  refine ⟨hshape, ?_⟩
  intro inputs hlen
  have hl0 : (layerOf (buildKANNetwork shape inputIds g d ub rand) 0).length
      = shape.getD 0 0 := map_length_getD _ shape hshape 0
  unfold kanForwardProp
  rw [if_neg (by omega)]
  exact ⟨_, _, rfl⟩

/-- Counterexample to C6 as stated: building with `inputIds = []` against
`shape = [1, 1]` does not fail; it produces a network of the requested shape
whose input node has the undefined id, and forward propagation on it
succeeds -- a usable network. -/
theorem C6_counterexample :
    (buildKANNetwork [1, 1] [] 1 3 false (fun _ => 1/2)).layers.map List.length = [1, 1]
    ∧ (∃ p r, kanForwardProp (buildKANNetwork [1, 1] [] 1 3 false (fun _ => 1/2)) [7]
        = Except.ok (p, r))
    ∧ ((buildKANNetwork [1, 1] [] 1 3 false (fun _ => 1/2)).node
        ((layerOf (buildKANNetwork [1, 1] [] 1 3 false (fun _ => 1/2)) 0).getD 0 0)).id
        = none := by
  refine ⟨by decide, ?_, by decide⟩
  unfold kanForwardProp
  rw [if_neg (by decide)]
  exact ⟨_, _, rfl⟩

/-- Witness for the amended C6 at a concrete build. -/
theorem C6_witness :
    ((buildKANNetwork [2, 1] ["a"] 1 3 false (fun _ => 1/2)).layers.map List.length = [2, 1])
    ∧ (([3, 4] : List ℚ).length = [2, 1].getD 0 0)
    ∧ (∃ p r, kanForwardProp (buildKANNetwork [2, 1] ["a"] 1 3 false (fun _ => 1/2)) [3, 4]
        = Except.ok (p, r)) :=
  ⟨(C6_build_performs_no_arity_check [2, 1] ["a"] 1 3 false (fun _ => 1/2)).1,
    by decide,
    (C6_build_performs_no_arity_check [2, 1] ["a"] 1 3 false (fun _ => 1/2)).2 [3, 4] (by decide)⟩

/-!
## Well-formedness of a layered network, and the forward-pass frame
-/

/-- Well-formedness: at least two layers, duplicate-free and pairwise
disjoint layers, a single output node, every non-input node's input edges
pointing back to it from the previous layer, and each node's `outputEdges`
listing exactly (up to order) the edges into the next layer that leave it.
All clauses hold for networks produced by `buildKANNetwork`. -/
def WF (net : Net) : Prop :=
  2 ≤ net.layers.length
  ∧ (∀ L, L ∈ List.range net.layers.length → (layerOf net L).Nodup)
  ∧ (∀ L1, L1 ∈ List.range net.layers.length → ∀ L2, L2 ∈ List.range net.layers.length →
      L1 ≠ L2 → ∀ nid, nid ∈ layerOf net L1 → nid ∉ layerOf net L2)
  ∧ (layerOf net (net.layers.length - 1)).length = 1
  ∧ (∀ L, L ∈ ascList 1 (net.layers.length - 1) → ∀ nid, nid ∈ layerOf net L →
      ∀ eid, eid ∈ (net.node nid).inputEdges →
        (net.edge eid).dst = nid ∧ (net.edge eid).src ∈ layerOf net (L - 1))
  ∧ (∀ L, L ∈ ascList 1 (net.layers.length - 1) → ∀ nid, nid ∈ layerOf net L →
      List.Perm
        ((layerOf net (L + 1)).flatMap
          (fun m => (net.node m).inputEdges.filter (fun eid => (net.edge eid).src == nid)))
        (net.node nid).outputEdges)

/-- The forward-pass equation of one node: its output is its bias plus, over
its input edges in order, the learnable function applied to the source
output. -/
def OutEq (t : Net) (nid : ℕ) : Prop :=
  (t.node nid).output = (t.node nid).bias
    + ((t.node nid).inputEdges.map
        (fun eid => (t.edge eid).lf.evaluate ((t.node ((t.edge eid).src)).output))).sum

/-- Forward operations only write node outputs and edge `lastInput`s; this
relation says `s` agrees with `t` on everything else. -/
def FwdFrame (s t : Net) : Prop :=
  s.layers = t.layers
  ∧ (∀ n, (s.node n).id = (t.node n).id
      ∧ (s.node n).inputEdges = (t.node n).inputEdges
      ∧ (s.node n).outputEdges = (t.node n).outputEdges
      ∧ (s.node n).outputDer = (t.node n).outputDer
      ∧ (s.node n).bias = (t.node n).bias)
  ∧ (∀ e, (s.edge e).src = (t.edge e).src
      ∧ (s.edge e).dst = (t.edge e).dst
      ∧ (s.edge e).lf = (t.edge e).lf
      ∧ (s.edge e).accGradients = (t.edge e).accGradients
      ∧ (s.edge e).numAcc = (t.edge e).numAcc)

theorem fwdFrame_refl (s : Net) : FwdFrame s s :=
  ⟨rfl, fun _ => ⟨rfl, rfl, rfl, rfl, rfl⟩, fun _ => ⟨rfl, rfl, rfl, rfl, rfl⟩⟩

theorem fwdFrame_trans {s t u : Net} (h1 : FwdFrame s t) (h2 : FwdFrame t u) : FwdFrame s u := by
  obtain ⟨hl1, hn1, he1⟩ := h1
  obtain ⟨hl2, hn2, he2⟩ := h2
  refine ⟨hl1.trans hl2, ?_, ?_⟩
  · intro n
    obtain ⟨a1, b1, c1, d1, e1⟩ := hn1 n
    obtain ⟨a2, b2, c2, d2, e2⟩ := hn2 n
    exact ⟨a1.trans a2, b1.trans b2, c1.trans c2, d1.trans d2, e1.trans e2⟩
  · intro e
    obtain ⟨a1, b1, c1, d1, e1⟩ := he1 e
    obtain ⟨a2, b2, c2, d2, e2⟩ := he2 e
    exact ⟨a1.trans a2, b1.trans b2, c1.trans c2, d1.trans d2, e1.trans e2⟩

theorem setNode_node_self (s : Net) (i : ℕ) (v : NodeSt) : (setNode s i v).node i = v := by
  show updFn s.node i v i = v
  rw [updFn_same]

theorem setNode_node_other (s : Net) (i m : ℕ) (v : NodeSt) (h : m ≠ i) :
    (setNode s i v).node m = s.node m := by
  show updFn s.node i v m = s.node m
  rw [updFn_other _ _ _ _ h]

theorem setEdge_edge_self (s : Net) (i : ℕ) (v : EdgeSt) : (setEdge s i v).edge i = v := by
  show updFn s.edge i v i = v
  rw [updFn_same]

theorem setEdge_edge_other (s : Net) (i m : ℕ) (v : EdgeSt) (h : m ≠ i) :
    (setEdge s i v).edge m = s.edge m := by
  show updFn s.edge i v m = s.edge m
  rw [updFn_other _ _ _ _ h]

theorem fwdFrame_setOutput (s : Net) (nid : ℕ) (v : ℚ) : FwdFrame (setOutput s nid v) s := by
  refine ⟨rfl, ?_, fun _ => ⟨rfl, rfl, rfl, rfl, rfl⟩⟩
  intro n
  by_cases h : n = nid
  · subst h
    rw [show (setOutput s n v).node n = { s.node n with output := v } from
      setNode_node_self s n _]
    exact ⟨rfl, rfl, rfl, rfl, rfl⟩
  · rw [show (setOutput s nid v).node n = s.node n from setNode_node_other s nid n _ h]
    exact ⟨rfl, rfl, rfl, rfl, rfl⟩

theorem fwdFrame_edgeForwardStep (s : Net) (nid eid : ℕ) :
    FwdFrame (edgeForwardStep s nid eid) s := by
  have h1 : FwdFrame (setEdge s eid
      { s.edge eid with lastInput := (s.node (s.edge eid).src).output }) s := by
    refine ⟨rfl, fun _ => ⟨rfl, rfl, rfl, rfl, rfl⟩, ?_⟩
    intro e
    by_cases h : e = eid
    · subst h
      rw [setEdge_edge_self]
      exact ⟨rfl, rfl, rfl, rfl, rfl⟩
    · rw [setEdge_edge_other _ _ _ _ h]
      exact ⟨rfl, rfl, rfl, rfl, rfl⟩
  exact fwdFrame_trans (fwdFrame_setOutput _ nid _) h1

theorem fwdFrame_nodeForward (s : Net) (nid : ℕ) : FwdFrame (nodeForward s nid) s := by
  unfold nodeForward
  apply foldl_inv (fun u => FwdFrame u s)
  · intro u a _ hu
    exact fwdFrame_trans (fwdFrame_edgeForwardStep u nid a) hu
  · exact fwdFrame_setOutput s nid _

theorem setOutput_output_other (s : Net) (nid m : ℕ) (v : ℚ) (h : m ≠ nid) :
    ((setOutput s nid v).node m).output = (s.node m).output := by
  rw [show (setOutput s nid v).node m = s.node m from setNode_node_other s nid m _ h]

theorem setOutput_output_self (s : Net) (nid : ℕ) (v : ℚ) :
    ((setOutput s nid v).node nid).output = v := by
  rw [show (setOutput s nid v).node nid = { s.node nid with output := v } from
    setNode_node_self s nid _]

theorem edgeForwardStep_output_other (s : Net) (nid eid m : ℕ) (h : m ≠ nid) :
    ((edgeForwardStep s nid eid).node m).output = (s.node m).output := by
  unfold edgeForwardStep
  rw [setOutput_output_other _ _ _ _ h]
  rfl

theorem edgeForwardStep_output_self (s : Net) (nid eid : ℕ) :
    ((edgeForwardStep s nid eid).node nid).output
      = (s.node nid).output + (s.edge eid).lf.evaluate ((s.node ((s.edge eid).src)).output) := by
  unfold edgeForwardStep
  rw [setOutput_output_self]
  rfl

theorem nodeForward_output_other (s : Net) (nid m : ℕ) (h : m ≠ nid) :
    ((nodeForward s nid).node m).output = (s.node m).output := by
  unfold nodeForward
  apply foldl_inv (fun u : Net => (u.node m).output = (s.node m).output)
  · intro u a _ hu
    rw [edgeForwardStep_output_other u nid a m h]
    exact hu
  · exact setOutput_output_other s nid m _ h

theorem map_evaluate_congr (s t : Net) (es : List ℕ) (hf : FwdFrame s t)
    (hout : ∀ eid ∈ es, (s.node ((t.edge eid).src)).output = (t.node ((t.edge eid).src)).output) :
    es.map (fun eid => (s.edge eid).lf.evaluate ((s.node ((s.edge eid).src)).output))
      = es.map (fun eid => (t.edge eid).lf.evaluate ((t.node ((t.edge eid).src)).output)) := by
  apply List.map_congr_left
  intro eid he
  obtain ⟨hsrc, _, hlf, _, _⟩ := hf.2.2 eid
  rw [hlf, hsrc, hout eid he]

theorem fwd_fold_output (nid : ℕ) :
    ∀ (es : List ℕ) (u : Net), (∀ eid ∈ es, (u.edge eid).src ≠ nid) →
      ((es.foldl (fun a e => edgeForwardStep a nid e) u).node nid).output
        = (u.node nid).output
          + (es.map (fun eid => (u.edge eid).lf.evaluate ((u.node ((u.edge eid).src)).output))).sum := by
  intro es
  induction es with
  | nil =>
    intro u _
    simp
  | cons e0 es ih =>
    intro u hsrc
    have hf := fwdFrame_edgeForwardStep u nid e0
    have hsrc2 : ∀ eid ∈ es, ((edgeForwardStep u nid e0).edge eid).src ≠ nid := by
      intro eid he
      rw [(hf.2.2 eid).1]
      exact hsrc eid (List.mem_cons_of_mem _ he)
    have hcongr : es.map (fun eid => ((edgeForwardStep u nid e0).edge eid).lf.evaluate
          (((edgeForwardStep u nid e0).node (((edgeForwardStep u nid e0).edge eid).src)).output))
        = es.map (fun eid => (u.edge eid).lf.evaluate ((u.node ((u.edge eid).src)).output)) := by
      apply map_evaluate_congr _ u es hf
      intro eid he
      exact edgeForwardStep_output_other u nid e0 _ (hsrc eid (List.mem_cons_of_mem _ he))
    simp only [List.foldl_cons, List.map_cons, List.sum_cons]
    rw [ih (edgeForwardStep u nid e0) hsrc2, hcongr,
        edgeForwardStep_output_self u nid e0]
    ring

theorem nodeForward_output_eq (s : Net) (nid : ℕ)
    (hsrc : ∀ eid ∈ (s.node nid).inputEdges, (s.edge eid).src ≠ nid) :
    ((nodeForward s nid).node nid).output
      = (s.node nid).bias
        + ((s.node nid).inputEdges.map
            (fun eid => (s.edge eid).lf.evaluate ((s.node ((s.edge eid).src)).output))).sum := by
  unfold nodeForward
  have hf0 := fwdFrame_setOutput s nid (s.node nid).bias
  have hsrc0 : ∀ eid ∈ (s.node nid).inputEdges,
      ((setOutput s nid (s.node nid).bias).edge eid).src ≠ nid := by
    intro eid he
    rw [(hf0.2.2 eid).1]
    exact hsrc eid he
  rw [fwd_fold_output nid _ _ hsrc0, setOutput_output_self]
  have hcongr : (s.node nid).inputEdges.map
        (fun eid => ((setOutput s nid (s.node nid).bias).edge eid).lf.evaluate
          (((setOutput s nid (s.node nid).bias).node
            (((setOutput s nid (s.node nid).bias).edge eid).src)).output))
      = (s.node nid).inputEdges.map
        (fun eid => (s.edge eid).lf.evaluate ((s.node ((s.edge eid).src)).output)) := by
    apply map_evaluate_congr _ s _ hf0
    intro eid he
    exact setOutput_output_other s nid _ _ (hsrc eid he)
  rw [hcongr]

theorem nodeForward_OutEq (s : Net) (nid : ℕ)
    (hsrc : ∀ eid ∈ (s.node nid).inputEdges, (s.edge eid).src ≠ nid) :
    OutEq (nodeForward s nid) nid := by
  unfold OutEq
  have hf := fwdFrame_nodeForward s nid
  obtain ⟨_, hbias⟩ := (hf.2.1 nid).2.2.2
  rw [hbias, (hf.2.1 nid).2.1]
  rw [nodeForward_output_eq s nid hsrc]
  congr 1
  exact (congrArg List.sum (map_evaluate_congr _ s _ hf
    (fun eid he => nodeForward_output_other s nid _ (hsrc eid he)))).symm

theorem fwdFrame_symm {s t : Net} (h : FwdFrame s t) : FwdFrame t s := by
  obtain ⟨hl, hn, he⟩ := h
  refine ⟨hl.symm, ?_, ?_⟩
  · intro n
    obtain ⟨a, b, c, d, e⟩ := hn n
    exact ⟨a.symm, b.symm, c.symm, d.symm, e.symm⟩
  · intro e
    obtain ⟨a, b, c, d, e2⟩ := he e
    exact ⟨a.symm, b.symm, c.symm, d.symm, e2.symm⟩

theorem layerOf_congr {s t : Net} (h : s.layers = t.layers) (L : ℕ) :
    layerOf s L = layerOf t L := by
  unfold layerOf
  rw [h]

theorem OutEq_transport (t u : Net) (nid : ℕ) (hf : FwdFrame u t)
    (hself : (u.node nid).output = (t.node nid).output)
    (hsrcs : ∀ eid ∈ (t.node nid).inputEdges,
      (u.node ((t.edge eid).src)).output = (t.node ((t.edge eid).src)).output)
    (heq : OutEq t nid) : OutEq u nid := by
  unfold OutEq at heq ⊢
  rw [hself, (hf.2.1 nid).2.2.2.2, (hf.2.1 nid).2.1, heq]
  congr 1
  exact (congrArg List.sum (map_evaluate_congr u t _ hf hsrcs)).symm

theorem layer_fold_spec : ∀ (lids : List ℕ) (s : Net), lids.Nodup →
    (∀ nid ∈ lids, ∀ eid ∈ (s.node nid).inputEdges, (s.edge eid).src ∉ lids) →
    (∀ nid ∈ lids, OutEq (lids.foldl (fun a n => nodeForward a n) s) nid)
    ∧ FwdFrame (lids.foldl (fun a n => nodeForward a n) s) s
    ∧ (∀ m, m ∉ lids →
        ((lids.foldl (fun a n => nodeForward a n) s).node m).output = (s.node m).output) := by
  intro lids
  induction lids with
  | nil =>
    intro s _ _
    refine ⟨?_, fwdFrame_refl s, ?_⟩
    · intro nid h
      exact absurd h (List.not_mem_nil nid)
    · intro m _
      rfl
  | cons nid0 rest ih =>
    intro s hnd hsrc
    have hnid0 : nid0 ∉ rest := (List.nodup_cons.mp hnd).1
    have hsrc0 : ∀ eid ∈ (s.node nid0).inputEdges, (s.edge eid).src ≠ nid0 := by
      intro eid he hc
      have := hsrc nid0 (List.mem_cons_self _ _) eid he
      rw [hc] at this
      exact this (List.mem_cons_self _ _)
    have hf1 := fwdFrame_nodeForward s nid0
    have houteq1 : OutEq (nodeForward s nid0) nid0 := nodeForward_OutEq s nid0 hsrc0
    have hsrc1 : ∀ nid ∈ rest, ∀ eid ∈ ((nodeForward s nid0).node nid).inputEdges,
        ((nodeForward s nid0).edge eid).src ∉ rest := by
      intro nid hn eid he
      rw [(hf1.2.1 nid).2.1] at he
      rw [(hf1.2.2 eid).1]
      intro hc
      exact hsrc nid (List.mem_cons_of_mem _ hn) eid he (List.mem_cons_of_mem _ hc)
    obtain ⟨ih1, ih2, ih3⟩ := ih (nodeForward s nid0) (List.nodup_cons.mp hnd).2 hsrc1
    have hffinal : FwdFrame (rest.foldl (fun a n => nodeForward a n) (nodeForward s nid0)) s :=
      fwdFrame_trans ih2 hf1
    refine ⟨?_, by simpa using hffinal, ?_⟩
    · intro nid hn
      rcases List.mem_cons.mp hn with rfl | hn2
      · simp only [List.foldl_cons]
        apply OutEq_transport (nodeForward s nid) _ nid ih2
        · exact ih3 nid hnid0
        · intro eid he
          apply ih3
          rw [(hf1.2.1 nid).2.1] at he
          rw [(hf1.2.2 eid).1]
          intro hc
          exact hsrc nid (List.mem_cons_self _ _) eid he (List.mem_cons_of_mem _ hc)
        · exact houteq1
      · simpa using ih1 nid hn2
    · intro m hm
      simp only [List.foldl_cons]
      rw [ih3 m (fun hc => hm (List.mem_cons_of_mem _ hc))]
      exact nodeForward_output_other s nid0 m (fun hc => hm (hc ▸ List.mem_cons_self _ _))

theorem layers_fold_spec (net0 : Net)
    (Hnodup : ∀ L, L ∈ List.range net0.layers.length → (layerOf net0 L).Nodup)
    (Hdisj : ∀ L1, L1 ∈ List.range net0.layers.length →
      ∀ L2, L2 ∈ List.range net0.layers.length → L1 ≠ L2 →
      ∀ nid, nid ∈ layerOf net0 L1 → nid ∉ layerOf net0 L2)
    (Hsrc : ∀ L, L ∈ ascList 1 (net0.layers.length - 1) → ∀ nid, nid ∈ layerOf net0 L →
      ∀ eid, eid ∈ (net0.node nid).inputEdges →
        (net0.edge eid).src ∈ layerOf net0 (L - 1)) :
    ∀ (k c : ℕ) (s : Net), FwdFrame s net0 → 1 ≤ c → c + k ≤ net0.layers.length →
      (∀ L, c ≤ L → L < c + k → ∀ nid, nid ∈ layerOf net0 L →
        OutEq ((ascList c k).foldl
          (fun a L2 => (layerOf a L2).foldl (fun b n => nodeForward b n) a) s) nid)
      ∧ FwdFrame ((ascList c k).foldl
          (fun a L2 => (layerOf a L2).foldl (fun b n => nodeForward b n) a) s) net0
      ∧ (∀ m, (∀ L, c ≤ L → L < c + k → m ∉ layerOf net0 L) →
          (((ascList c k).foldl
            (fun a L2 => (layerOf a L2).foldl (fun b n => nodeForward b n) a) s).node m).output
            = (s.node m).output) := by
  intro k
  induction k with
  | zero =>
    intro c s hfs hc hck
    refine ⟨?_, by simpa [ascList] using hfs, ?_⟩
    · intro L h1 h2
      omega
    · intro m _
      rfl
  | succ k ih =>
    intro c s hfs hc hck
    have hcN : c < net0.layers.length := by omega
    have hcmem : c ∈ ascList 1 (net0.layers.length - 1) := by
      rw [mem_ascList]
      omega
    have hlayer : layerOf s c = layerOf net0 c := layerOf_congr hfs.1 c
    have hstep := layer_fold_spec (layerOf net0 c) s
      (Hnodup c (List.mem_range.mpr hcN))
      (by
        intro nid hn eid he
        rw [(hfs.2.1 nid).2.1] at he
        rw [(hfs.2.2 eid).1]
        have hsrcmem := Hsrc c hcmem nid hn eid he
        exact Hdisj (c - 1) (List.mem_range.mpr (by omega)) c (List.mem_range.mpr hcN)
          (by omega) _ hsrcmem)
    obtain ⟨hst1, hst2, hst3⟩ := hstep
    have hfold1 : (ascList c (k + 1)).foldl
        (fun a L2 => (layerOf a L2).foldl (fun b n => nodeForward b n) a) s
        = (ascList (c + 1) k).foldl
          (fun a L2 => (layerOf a L2).foldl (fun b n => nodeForward b n) a)
          ((layerOf net0 c).foldl (fun b n => nodeForward b n) s) := by
      rw [ascList_cons]
      simp only [List.foldl_cons]
      rw [hlayer]
    have hfs1 : FwdFrame ((layerOf net0 c).foldl (fun b n => nodeForward b n) s) net0 :=
      fwdFrame_trans hst2 hfs
    obtain ⟨ih1, ih2, ih3⟩ := ih (c + 1)
      ((layerOf net0 c).foldl (fun b n => nodeForward b n) s) hfs1 (by omega) (by omega)
    rw [hfold1]
    refine ⟨?_, ih2, ?_⟩
    · intro L h1 h2 nid hn
      rcases Nat.eq_or_lt_of_le h1 with heq | hlt
      · -- the layer processed in this step; transport its equation forward
        subst heq
        have hftrans : FwdFrame ((ascList (c + 1) k).foldl
            (fun a L2 => (layerOf a L2).foldl (fun b n => nodeForward b n) a)
            ((layerOf net0 c).foldl (fun b n => nodeForward b n) s))
            ((layerOf net0 c).foldl (fun b n => nodeForward b n) s) :=
          fwdFrame_trans ih2 (fwdFrame_symm hfs1)
        apply OutEq_transport ((layerOf net0 c).foldl (fun b n => nodeForward b n) s) _ nid
          hftrans
        · apply ih3
          intro L2 hL2a hL2b
          exact Hdisj c (List.mem_range.mpr hcN) L2 (List.mem_range.mpr (by omega))
            (by omega) nid hn
        · intro eid he
          have hsrcmem : (net0.edge eid).src ∈ layerOf net0 (c - 1) := by
            apply Hsrc c hcmem nid hn eid
            have hie1 := (hst2.2.1 nid).2.1
            have hie2 := (hfs.2.1 nid).2.1
            rw [hie1, hie2] at he
            exact he
          have hsrceq : (((layerOf net0 c).foldl (fun b n => nodeForward b n) s).edge eid).src
              = (net0.edge eid).src := by
            rw [(hst2.2.2 eid).1, (hfs.2.2 eid).1]
          rw [hsrceq]
          apply ih3
          intro L2 hL2a hL2b
          exact Hdisj (c - 1) (List.mem_range.mpr (by omega)) L2
            (List.mem_range.mpr (by omega)) (by omega) _ hsrcmem
        · exact hst1 nid hn
      · exact ih1 L hlt (by omega) nid hn
    · intro m hm
      rw [ih3 m (fun L2 ha hb => hm L2 (by omega) (by omega))]
      exact hst3 m (hm c (le_refl _) (by omega))

theorem input_fold_spec (net0 : Net) (inputs : List ℚ) (l0 : List ℕ)
    (hinj : ∀ i j, i < l0.length → j < l0.length → i ≠ j → l0.getD i 0 ≠ l0.getD j 0) :
    ∀ (k c : ℕ) (s : Net), FwdFrame s net0 → c + k ≤ l0.length →
      FwdFrame ((ascList c k).foldl
        (fun acc i => setOutput acc (l0.getD i 0) (inputs.getD i 0)) s) net0
      ∧ (∀ i, c ≤ i → i < c + k →
          (((ascList c k).foldl
            (fun acc i => setOutput acc (l0.getD i 0) (inputs.getD i 0)) s).node
              (l0.getD i 0)).output = inputs.getD i 0)
      ∧ (∀ m, (∀ i, c ≤ i → i < c + k → m ≠ l0.getD i 0) →
          (((ascList c k).foldl
            (fun acc i => setOutput acc (l0.getD i 0) (inputs.getD i 0)) s).node m).output
            = (s.node m).output) := by
  intro k
  induction k with
  | zero =>
    intro c s hfs _
    refine ⟨by simpa [ascList] using hfs, ?_, ?_⟩
    · intro i h1 h2
      omega
    · intro m _
      rfl
  | succ k ih =>
    intro c s hfs hck
    have hfold : (ascList c (k + 1)).foldl
        (fun acc i => setOutput acc (l0.getD i 0) (inputs.getD i 0)) s
        = (ascList (c + 1) k).foldl
          (fun acc i => setOutput acc (l0.getD i 0) (inputs.getD i 0))
          (setOutput s (l0.getD c 0) (inputs.getD c 0)) := by
      rw [ascList_cons]
      simp
    have hfs1 : FwdFrame (setOutput s (l0.getD c 0) (inputs.getD c 0)) net0 :=
      fwdFrame_trans (fwdFrame_setOutput s _ _) hfs
    obtain ⟨ih1, ih2, ih3⟩ := ih (c + 1) (setOutput s (l0.getD c 0) (inputs.getD c 0))
      hfs1 (by omega)
    rw [hfold]
    refine ⟨ih1, ?_, ?_⟩
    · intro i h1 h2
      rcases Nat.eq_or_lt_of_le h1 with heq | hlt
      · subst heq
        rw [ih3 (l0.getD c 0) (fun j hj1 hj2 => hinj c j (by omega) (by omega) (by omega))]
        exact setOutput_output_self s _ _
      · exact ih2 i hlt (by omega)
    · intro m hm
      rw [ih3 m (fun j hj1 hj2 => hm j (by omega) (by omega))]
      exact setOutput_output_other s _ _ _ (hm c (le_refl _) (by omega))

/-- Claim C2: after a successful forward pass, every non-input node's output
equals its bias plus the sum, over its input edges in order, of the edge's
learnable function at the edge's source output (`OutEq`); `kanForwardProp`
first writes the inputs onto the input layer (their outputs survive the pass
unchanged) and returns the single output-layer node's output. -/
theorem C2_forward_pass_invariant (net : Net) (inputs : List ℚ) (hwf : WF net)
    (hlen : inputs.length = (layerOf net 0).length) :
    ∃ p, kanForwardProp net inputs
        = Except.ok (p, (p.node ((layerOf p (p.layers.length - 1)).getD 0 0)).output)
      ∧ (∀ i, i < (layerOf net 0).length →
          (p.node ((layerOf net 0).getD i 0)).output = inputs.getD i 0)
      ∧ (∀ L, 1 ≤ L → L < net.layers.length → ∀ nid, nid ∈ layerOf net L → OutEq p nid) := by
  obtain ⟨hlayers2, Hnodup, Hdisj, hout1, Hedges, Hperm⟩ := hwf
  have hinj : ∀ i j, i < (layerOf net 0).length → j < (layerOf net 0).length → i ≠ j →
      (layerOf net 0).getD i 0 ≠ (layerOf net 0).getD j 0 := by
    intro i j hi hj hij
    rw [List.getD_eq_getElem _ _ hi, List.getD_eq_getElem _ _ hj]
    intro he
    exact hij ((List.Nodup.getElem_inj_iff
      (Hnodup 0 (List.mem_range.mpr (by omega)))).mp he)
  obtain ⟨hin0, hin1, hin2⟩ := input_fold_spec net inputs (layerOf net 0) hinj
    (layerOf net 0).length 0 net (fwdFrame_refl net) (by omega)
  have Hsrc : ∀ L, L ∈ ascList 1 (net.layers.length - 1) → ∀ nid, nid ∈ layerOf net L →
      ∀ eid, eid ∈ (net.node nid).inputEdges →
        (net.edge eid).src ∈ layerOf net (L - 1) := by
    intro L hL nid hn eid he
    exact (Hedges L hL nid hn eid he).2
  obtain ⟨hall, hf2, hunch2⟩ := layers_fold_spec net Hnodup Hdisj Hsrc
    (net.layers.length - 1) 1
    ((ascList 0 (layerOf net 0).length).foldl
      (fun acc i => setOutput acc ((layerOf net 0).getD i 0) (inputs.getD i 0)) net)
    hin0 (le_refl _) (by omega)
  have hrun : kanForwardProp net inputs
      = Except.ok
        ((ascList 1 (net.layers.length - 1)).foldl
          (fun acc L => (layerOf acc L).foldl (fun a nid => nodeForward a nid) acc)
          ((ascList 0 (layerOf net 0).length).foldl
            (fun acc i => setOutput acc ((layerOf net 0).getD i 0) (inputs.getD i 0)) net),
        (((ascList 1 (net.layers.length - 1)).foldl
          (fun acc L => (layerOf acc L).foldl (fun a nid => nodeForward a nid) acc)
          ((ascList 0 (layerOf net 0).length).foldl
            (fun acc i => setOutput acc ((layerOf net 0).getD i 0) (inputs.getD i 0)) net)).node
          ((layerOf ((ascList 1 (net.layers.length - 1)).foldl
            (fun acc L => (layerOf acc L).foldl (fun a nid => nodeForward a nid) acc)
            ((ascList 0 (layerOf net 0).length).foldl
              (fun acc i => setOutput acc ((layerOf net 0).getD i 0) (inputs.getD i 0)) net))
            (((ascList 1 (net.layers.length - 1)).foldl
              (fun acc L => (layerOf acc L).foldl (fun a nid => nodeForward a nid) acc)
              ((ascList 0 (layerOf net 0).length).foldl
                (fun acc i => setOutput acc ((layerOf net 0).getD i 0) (inputs.getD i 0))
                net)).layers.length - 1)).getD 0 0)).output) := by
    unfold kanForwardProp
    rw [if_neg (by omega)]
  refine ⟨_, hrun, ?_, ?_⟩
  · intro i hi
    have hmem : (layerOf net 0).getD i 0 ∈ layerOf net 0 := by
      rw [List.getD_eq_getElem _ _ hi]
      exact List.getElem_mem _
    rw [hunch2 _ (by
      intro L h1 h2
      exact Hdisj 0 (List.mem_range.mpr (by omega)) L (List.mem_range.mpr (by omega))
        (by omega) _ hmem)]
    exact hin1 i (by omega) (by omega)
  · intro L h1 h2 nid hn
    exact hall L h1 (by omega) nid hn

instance instDecidableWF (net : Net) : Decidable (WF net) := by
  unfold WF
  exact inferInstance

/-- Witness for C2 on a concrete two-layer network. -/
theorem C2_witness :
    WF wNet ∧ (([1] : List ℚ).length = (layerOf wNet 0).length)
    ∧ (∃ p, kanForwardProp wNet [1]
        = Except.ok (p, (p.node ((layerOf p (p.layers.length - 1)).getD 0 0)).output)
      ∧ (∀ i, i < (layerOf wNet 0).length →
          (p.node ((layerOf wNet 0).getD i 0)).output = ([1] : List ℚ).getD i 0)
      ∧ (∀ L, 1 ≤ L → L < wNet.layers.length → ∀ nid, nid ∈ layerOf wNet L → OutEq p nid)) :=
  ⟨by decide, by decide, C2_forward_pass_invariant wNet [1] (by decide) (by decide)⟩

/-!
## The backward-pass frame and per-operation effects
-/

/-- Backward operations only write node `outputDer`s and edge accumulators;
this relation says `s` agrees with `t` on everything else (and preserves
accumulator lengths). -/
def BackFrame (s t : Net) : Prop :=
  s.layers = t.layers
  ∧ (∀ n, (s.node n).id = (t.node n).id
      ∧ (s.node n).inputEdges = (t.node n).inputEdges
      ∧ (s.node n).outputEdges = (t.node n).outputEdges
      ∧ (s.node n).output = (t.node n).output
      ∧ (s.node n).bias = (t.node n).bias)
  ∧ (∀ e, (s.edge e).src = (t.edge e).src
      ∧ (s.edge e).dst = (t.edge e).dst
      ∧ (s.edge e).lf = (t.edge e).lf
      ∧ (s.edge e).lastInput = (t.edge e).lastInput
      ∧ (s.edge e).accGradients.length = (t.edge e).accGradients.length)

theorem backFrame_refl (s : Net) : BackFrame s s :=
  ⟨rfl, fun _ => ⟨rfl, rfl, rfl, rfl, rfl⟩, fun _ => ⟨rfl, rfl, rfl, rfl, rfl⟩⟩

theorem backFrame_trans {s t u : Net} (h1 : BackFrame s t) (h2 : BackFrame t u) :
    BackFrame s u := by
  obtain ⟨hl1, hn1, he1⟩ := h1
  obtain ⟨hl2, hn2, he2⟩ := h2
  refine ⟨hl1.trans hl2, ?_, ?_⟩
  · intro n
    obtain ⟨a1, b1, c1, d1, e1⟩ := hn1 n
    obtain ⟨a2, b2, c2, d2, e2⟩ := hn2 n
    exact ⟨a1.trans a2, b1.trans b2, c1.trans c2, d1.trans d2, e1.trans e2⟩
  · intro e
    obtain ⟨a1, b1, c1, d1, e1⟩ := he1 e
    obtain ⟨a2, b2, c2, d2, e2⟩ := he2 e
    exact ⟨a1.trans a2, b1.trans b2, c1.trans c2, d1.trans d2, e1.trans e2⟩

theorem backFrame_symm {s t : Net} (h : BackFrame s t) : BackFrame t s := by
  obtain ⟨hl, hn, he⟩ := h
  refine ⟨hl.symm, ?_, ?_⟩
  · intro n
    obtain ⟨a, b, c, d, e⟩ := hn n
    exact ⟨a.symm, b.symm, c.symm, d.symm, e.symm⟩
  · intro e
    obtain ⟨a, b, c, d, e2⟩ := he e
    exact ⟨a.symm, b.symm, c.symm, d.symm, e2.symm⟩

theorem backFrame_setOutputDer (s : Net) (nid : ℕ) (v : ℚ) :
    BackFrame (setOutputDer s nid v) s := by
  refine ⟨rfl, ?_, fun _ => ⟨rfl, rfl, rfl, rfl, rfl⟩⟩
  intro n
  by_cases h : n = nid
  · subst h
    rw [show (setOutputDer s n v).node n = { s.node n with outputDer := v } from
      setNode_node_self s n _]
    exact ⟨rfl, rfl, rfl, rfl, rfl⟩
  · rw [show (setOutputDer s nid v).node n = s.node n from setNode_node_other s nid n _ h]
    exact ⟨rfl, rfl, rfl, rfl, rfl⟩

theorem backFrame_addOutputDer (s : Net) (nid : ℕ) (v : ℚ) :
    BackFrame (addOutputDer s nid v) s :=
  backFrame_setOutputDer s nid _

theorem backFrame_edgeAccumulate (s : Net) (eid : ℕ) (g : ℚ) :
    BackFrame (edgeAccumulate s eid g) s := by
  refine ⟨rfl, fun _ => ⟨rfl, rfl, rfl, rfl, rfl⟩, ?_⟩
  intro e
  by_cases h : e = eid
  · subst h
    rw [show (edgeAccumulate s e g).edge e = accumulateGradients (s.edge e) g from
      setEdge_edge_self s e _]
    refine ⟨rfl, rfl, rfl, rfl, ?_⟩
    exact accumList_length g _ _
  · rw [show (edgeAccumulate s eid g).edge e = s.edge e from setEdge_edge_other s eid e _ h]
    exact ⟨rfl, rfl, rfl, rfl, rfl⟩

theorem backFrame_edgeBackwardStep (s : Net) (nid eid : ℕ) :
    BackFrame (edgeBackwardStep s nid eid) s := by
  unfold edgeBackwardStep
  exact backFrame_trans (backFrame_addOutputDer _ _ _) (backFrame_edgeAccumulate s eid _)

theorem backFrame_nodeBackward (s : Net) (nid : ℕ) : BackFrame (nodeBackward s nid) s := by
  unfold nodeBackward
  apply foldl_inv (fun u => BackFrame u s)
  · intro u a _ hu
    exact backFrame_trans (backFrame_edgeBackwardStep u nid a) hu
  · exact backFrame_refl s

theorem backFrame_resetLayer (s : Net) (ids : List ℕ) : BackFrame (resetLayer s ids) s := by
  unfold resetLayer
  apply foldl_inv (fun u => BackFrame u s)
  · intro u a _ hu
    exact backFrame_trans (backFrame_setOutputDer u a 0) hu
  · exact backFrame_refl s

theorem backFrame_backOneLayer (s : Net) (M : ℕ) : BackFrame (backOneLayer s M) s := by
  unfold backOneLayer
  have h1 : BackFrame (if 1 < M then resetLayer s (layerOf s (M - 1)) else s) s := by
    by_cases h : 1 < M
    · rw [if_pos h]
      exact backFrame_resetLayer s _
    · rw [if_neg h]
      exact backFrame_refl s
  apply foldl_inv (fun u => BackFrame u s)
  · intro u a _ hu
    exact backFrame_trans (backFrame_nodeBackward u a) hu
  · exact h1

theorem backFrame_backLayers (s : Net) : ∀ L, BackFrame (backLayers s L) s := by
  intro L
  induction L generalizing s with
  | zero => exact backFrame_refl s
  | succ L ih =>
    show BackFrame (backLayers (backOneLayer s (L + 1)) L) s
    exact backFrame_trans (ih (backOneLayer s (L + 1))) (backFrame_backOneLayer s (L + 1))

theorem backFrame_kanBackProp (s : Net) (t : ℚ) (derF : ℚ → ℚ → ℚ) :
    BackFrame (kanBackProp s t derF) s := by
  unfold kanBackProp
  exact backFrame_trans (backFrame_backLayers _ _) (backFrame_setOutputDer s _ _)

theorem layerOf_backFrame {s t : Net} (h : BackFrame s t) (L : ℕ) :
    layerOf s L = layerOf t L := by
  unfold layerOf
  rw [h.1]

theorem setOutputDer_der (s : Net) (nid : ℕ) (v : ℚ) (m : ℕ) :
    ((setOutputDer s nid v).node m).outputDer = if m = nid then v else (s.node m).outputDer := by
  by_cases h : m = nid
  · subst h
    rw [show (setOutputDer s m v).node m = { s.node m with outputDer := v } from
      setNode_node_self s m _, if_pos rfl]
  · rw [show (setOutputDer s nid v).node m = s.node m from setNode_node_other s nid m _ h,
      if_neg h]

theorem addOutputDer_der (s : Net) (nid : ℕ) (v : ℚ) (m : ℕ) :
    ((addOutputDer s nid v).node m).outputDer
      = (s.node m).outputDer + (if nid = m then v else 0) := by
  by_cases h : m = nid
  · subst h
    rw [show (addOutputDer s m v).node m
        = { s.node m with outputDer := (s.node m).outputDer + v } from
      setNode_node_self s m _, if_pos rfl]
  · rw [show (addOutputDer s nid v).node m = s.node m from setNode_node_other s nid m _ h,
      if_neg (fun hh => h hh.symm), add_zero]

theorem edgeAccumulate_node (s : Net) (eid : ℕ) (g : ℚ) :
    (edgeAccumulate s eid g).node = s.node := rfl

theorem addOutputDer_edge (s : Net) (nid : ℕ) (v : ℚ) :
    (addOutputDer s nid v).edge = s.edge := rfl

theorem edgeBackwardStep_der (s : Net) (nid eid m : ℕ) :
    ((edgeBackwardStep s nid eid).node m).outputDer
      = (s.node m).outputDer
        + (if (s.edge eid).src = m
           then (s.node nid).outputDer * (s.edge eid).lf.derivative (s.edge eid).lastInput
           else 0) := by
  simp only [edgeBackwardStep]
  have hsrc : ((edgeAccumulate s eid ((s.node nid).outputDer)).edge eid).src
      = (s.edge eid).src := by
    rw [show (edgeAccumulate s eid ((s.node nid).outputDer)).edge eid
        = accumulateGradients (s.edge eid) ((s.node nid).outputDer) from
      setEdge_edge_self s eid _]
    rfl
  rw [hsrc, addOutputDer_der]
  rw [show (edgeAccumulate s eid ((s.node nid).outputDer)).node m = s.node m from rfl]

theorem edgeBackwardStep_edge (s : Net) (nid eid e2 : ℕ) :
    (edgeBackwardStep s nid eid).edge e2
      = if e2 = eid then accumulateGradients (s.edge eid) ((s.node nid).outputDer)
        else s.edge e2 := by
  simp only [edgeBackwardStep]
  rw [addOutputDer_edge]
  by_cases h : e2 = eid
  · subst h
    rw [if_pos rfl]
    exact setEdge_edge_self s e2 _
  · rw [if_neg h]
    exact setEdge_edge_other s eid e2 _ h

/-- Folding `edgeBackwardStep` over a list of edges none of whose sources is
the processing node adds, to every node `m`, the sum of
`outputDer * derivative(lastInput)` over the edges with source `m`. -/
theorem back_fold_der (nid : ℕ) :
    ∀ (es : List ℕ) (u : Net), (∀ eid ∈ es, (u.edge eid).src ≠ nid) →
      ∀ m, ((es.foldl (fun a e => edgeBackwardStep a nid e) u).node m).outputDer
        = (u.node m).outputDer
          + ((es.filter (fun eid => (u.edge eid).src == m)).map
              (fun eid => (u.node nid).outputDer
                * (u.edge eid).lf.derivative (u.edge eid).lastInput)).sum := by
  intro es
  induction es with
  | nil =>
    intro u _ m
    simp
  | cons e0 es ih =>
    intro u hsrc m
    rw [List.foldl_cons]
    set u' := edgeBackwardStep u nid e0 with hu'
    have hfr : BackFrame u' u := backFrame_edgeBackwardStep u nid e0
    have hesrc : ∀ e, (u'.edge e).src = (u.edge e).src := fun e => (hfr.2.2 e).1
    have helf : ∀ e, (u'.edge e).lf = (u.edge e).lf := fun e => (hfr.2.2 e).2.2.1
    have heli : ∀ e, (u'.edge e).lastInput = (u.edge e).lastInput :=
      fun e => (hfr.2.2 e).2.2.2.1
    have hnid : (u'.node nid).outputDer = (u.node nid).outputDer := by
      rw [hu', edgeBackwardStep_der, if_neg (hsrc e0 (List.mem_cons_self _ _)), add_zero]
    have hm : (u'.node m).outputDer
        = (u.node m).outputDer
          + (if (u.edge e0).src = m
             then (u.node nid).outputDer * (u.edge e0).lf.derivative (u.edge e0).lastInput
             else 0) := by
      rw [hu', edgeBackwardStep_der]
    have ih' := ih u' (fun e he => by rw [hesrc]; exact hsrc e (List.mem_cons_of_mem _ he)) m
    have hfilter : es.filter (fun eid => (u'.edge eid).src == m)
        = es.filter (fun eid => (u.edge eid).src == m) :=
      List.filter_congr (fun e _ => by rw [hesrc])
    have hmapeq : ((es.filter (fun eid => (u.edge eid).src == m)).map
          (fun eid => (u'.node nid).outputDer
            * (u'.edge eid).lf.derivative (u'.edge eid).lastInput))
        = ((es.filter (fun eid => (u.edge eid).src == m)).map
          (fun eid => (u.node nid).outputDer
            * (u.edge eid).lf.derivative (u.edge eid).lastInput)) :=
      List.map_congr_left (fun e _ => by rw [hnid, helf, heli])
    rw [ih', hfilter, hmapeq, hm]
    by_cases h0 : (u.edge e0).src = m
    · have hc : (e0 :: es).filter (fun eid => (u.edge eid).src == m)
          = e0 :: es.filter (fun eid => (u.edge eid).src == m) := by
        rw [List.filter_cons, if_pos (beq_iff_eq.mpr h0)]
      rw [hc, if_pos h0, List.map_cons, List.sum_cons]
      ring
    · have hc : (e0 :: es).filter (fun eid => (u.edge eid).src == m)
          = es.filter (fun eid => (u.edge eid).src == m) := by
        rw [List.filter_cons, if_neg (by simp [h0])]
      rw [hc, if_neg h0, add_zero]

/-- `KANNode.backward` adds, to every node `m`, the sum over the processed
node's input edges with source `m` of `outputDer * derivative(lastInput)`,
provided no input edge loops back to the processed node itself. -/
theorem nodeBackward_der (s : Net) (nid : ℕ)
    (hm : ∀ eid ∈ (s.node nid).inputEdges, (s.edge eid).src ≠ nid) (m : ℕ) :
    ((nodeBackward s nid).node m).outputDer
      = (s.node m).outputDer
        + (((s.node nid).inputEdges.filter (fun eid => (s.edge eid).src == m)).map
            (fun eid => (s.node nid).outputDer
              * (s.edge eid).lf.derivative (s.edge eid).lastInput)).sum := by
  unfold nodeBackward
  exact back_fold_der nid (s.node nid).inputEdges s hm m

theorem resetLayer_der (s : Net) (ids : List ℕ) (m : ℕ) :
    ((resetLayer s ids).node m).outputDer = if m ∈ ids then 0 else (s.node m).outputDer := by
  induction ids generalizing s with
  | nil => simp [resetLayer]
  | cons i is ih =>
    show ((resetLayer (setOutputDer s i 0) is).node m).outputDer = _
    rw [ih (setOutputDer s i 0), setOutputDer_der]
    by_cases h1 : m ∈ is
    · rw [if_pos h1, if_pos (List.mem_cons_of_mem _ h1)]
    · rw [if_neg h1]
      by_cases h2 : m = i
      · rw [if_pos h2, if_pos (by rw [h2]; exact List.mem_cons_self _ _)]
      · rw [if_neg h2, if_neg (by simp [h1, h2])]

theorem resetLayer_edge (s : Net) (ids : List ℕ) : (resetLayer s ids).edge = s.edge := by
  unfold resetLayer
  induction ids generalizing s with
  | nil => rfl
  | cons i is ih => exact ih (setOutputDer s i 0)

/-- Running `backward()` over a list of nodes none of whose input-edge
sources lies in the list itself adds, to every node `q`, the double sum of
contributions over the processed nodes' input edges with source `q`. -/
theorem layer_back_der :
    ∀ (ms : List ℕ) (u : Net),
      (∀ m2 ∈ ms, ∀ eid ∈ (u.node m2).inputEdges, (u.edge eid).src ∉ ms) →
      ∀ q, ((ms.foldl (fun a n => nodeBackward a n) u).node q).outputDer
        = (u.node q).outputDer
          + (ms.map (fun m2 => (((u.node m2).inputEdges.filter
              (fun eid => (u.edge eid).src == q)).map
              (fun eid => (u.node m2).outputDer * (u.edge eid).lf.derivative
                (u.edge eid).lastInput)).sum)).sum := by
  intro ms
  induction ms with
  | nil =>
    intro u _ q
    simp
  | cons m0 ms ih =>
    intro u hsrc q
    have hm0 : ∀ eid ∈ (u.node m0).inputEdges, (u.edge eid).src ≠ m0 := by
      intro eid he hc
      exact hsrc m0 (List.mem_cons_self _ _) eid he (by rw [hc]; exact List.mem_cons_self _ _)
    rw [List.foldl_cons]
    set u' := nodeBackward u m0 with hu'
    have hfr : BackFrame u' u := backFrame_nodeBackward u m0
    have hinp : ∀ n, (u'.node n).inputEdges = (u.node n).inputEdges :=
      fun n => (hfr.2.1 n).2.1
    have hesrc : ∀ e, (u'.edge e).src = (u.edge e).src := fun e => (hfr.2.2 e).1
    have helf : ∀ e, (u'.edge e).lf = (u.edge e).lf := fun e => (hfr.2.2 e).2.2.1
    have heli : ∀ e, (u'.edge e).lastInput = (u.edge e).lastInput :=
      fun e => (hfr.2.2 e).2.2.2.1
    have hstable : ∀ m2 ∈ ms, (u'.node m2).outputDer = (u.node m2).outputDer := by
      intro m2 hm2
      rw [hu', nodeBackward_der u m0 hm0 m2]
      have hnil : (u.node m0).inputEdges.filter (fun eid => (u.edge eid).src == m2)
          = [] := by
        rw [List.filter_eq_nil_iff]
        intro eid he hc
        exact hsrc m0 (List.mem_cons_self _ _) eid he
          (by rw [beq_iff_eq.mp hc]; exact List.mem_cons_of_mem _ hm2)
      rw [hnil]
      simp
    have hsrc' : ∀ m2 ∈ ms, ∀ eid ∈ (u'.node m2).inputEdges, (u'.edge eid).src ∉ ms := by
      intro m2 hm2 eid he hc
      rw [hinp] at he
      rw [hesrc] at hc
      exact hsrc m2 (List.mem_cons_of_mem _ hm2) eid he (List.mem_cons_of_mem _ hc)
    have ih' := ih u' hsrc' q
    have hmapeq : ms.map (fun m2 => (((u'.node m2).inputEdges.filter
          (fun eid => (u'.edge eid).src == q)).map
          (fun eid => (u'.node m2).outputDer * (u'.edge eid).lf.derivative
            (u'.edge eid).lastInput)).sum)
        = ms.map (fun m2 => (((u.node m2).inputEdges.filter
          (fun eid => (u.edge eid).src == q)).map
          (fun eid => (u.node m2).outputDer * (u.edge eid).lf.derivative
            (u.edge eid).lastInput)).sum) := by
      apply List.map_congr_left
      intro m2 hm2
      rw [hinp]
      have hfil : (u.node m2).inputEdges.filter (fun eid => (u'.edge eid).src == q)
          = (u.node m2).inputEdges.filter (fun eid => (u.edge eid).src == q) :=
        List.filter_congr (fun e _ => by rw [hesrc])
      rw [hfil]
      congr 1
      apply List.map_congr_left
      intro e _
      rw [hstable m2 hm2, helf, heli]
    have hq : (u'.node q).outputDer
        = (u.node q).outputDer
          + (((u.node m0).inputEdges.filter (fun eid => (u.edge eid).src == q)).map
              (fun eid => (u.node m0).outputDer * (u.edge eid).lf.derivative
                (u.edge eid).lastInput)).sum := by
      rw [hu', nodeBackward_der u m0 hm0 q]
    rw [ih', hmapeq, hq, List.map_cons, List.sum_cons]
    ring

/-- The backward-pass equation of one hidden node: its `outputDer` is the
sum, over its output edges, of the destination node's `outputDer` times the
learnable function's derivative at the cached `lastInput`. -/
def DerEq (t : Net) (nid : ℕ) : Prop :=
  (t.node nid).outputDer
    = ((t.node nid).outputEdges.map
        (fun eid => (t.node ((t.edge eid).dst)).outputDer
          * (t.edge eid).lf.derivative ((t.edge eid).lastInput))).sum

theorem sum_map_flatMap {α β : Type} (l : List α) (f : α → List β) (g : β → ℚ) :
    ((l.flatMap f).map g).sum = (l.map (fun a => ((f a).map g).sum)).sum := by
  induction l with
  | nil => simp
  | cons a l ih => simp [List.flatMap_cons, ih]

theorem DerEq_iff (net t : Net) (ht : BackFrame t net) (nid : ℕ) :
    DerEq t nid ↔ (t.node nid).outputDer
      = ((net.node nid).outputEdges.map
          (fun eid => (t.node ((net.edge eid).dst)).outputDer
            * (net.edge eid).lf.derivative ((net.edge eid).lastInput))).sum := by
  unfold DerEq
  rw [(ht.2.1 nid).2.2.1]
  have hmap : (net.node nid).outputEdges.map
        (fun eid => (t.node ((t.edge eid).dst)).outputDer
          * (t.edge eid).lf.derivative ((t.edge eid).lastInput))
      = (net.node nid).outputEdges.map
        (fun eid => (t.node ((net.edge eid).dst)).outputDer
          * (net.edge eid).lf.derivative ((net.edge eid).lastInput)) :=
    List.map_congr_left (fun e _ => by
      rw [(ht.2.2 e).2.1, (ht.2.2 e).2.2.1, (ht.2.2 e).2.2.2.1])
  rw [hmap]

theorem DerEq_transport (net u t : Net) (hu : BackFrame u net) (ht : BackFrame t net)
    (nid : ℕ)
    (hder : (u.node nid).outputDer = (t.node nid).outputDer)
    (hdst : ∀ eid ∈ (net.node nid).outputEdges,
      (u.node ((net.edge eid).dst)).outputDer = (t.node ((net.edge eid).dst)).outputDer)
    (h : DerEq t nid) : DerEq u nid := by
  rw [DerEq_iff net u hu]
  rw [DerEq_iff net t ht] at h
  rw [hder, h]
  exact congrArg List.sum (List.map_congr_left (fun e he => by rw [hdst e he]))

/-- `backOneLayer` only writes `outputDer`s of nodes in the previous layer
(the reset targets and the sources of the processed layer's input edges). -/
theorem backOneLayer_der_other (net s : Net) (hwf : WF net) (hfs : BackFrame s net)
    (M : ℕ) (hM1 : 1 ≤ M) (hM2 : M < net.layers.length) (q : ℕ)
    (hq : q ∉ layerOf net (M - 1)) :
    ((backOneLayer s M).node q).outputDer = (s.node q).outputDer := by
  have hls := layerOf_backFrame hfs
  have hMmem : M ∈ ascList 1 (net.layers.length - 1) := by
    rw [mem_ascList]
    omega
  rw [show backOneLayer s M = (layerOf net M).foldl (fun acc n => nodeBackward acc n)
      (if 1 < M then resetLayer s (layerOf net (M - 1)) else s) from by
    simp only [backOneLayer]
    rw [hls M, hls (M - 1)]]
  set s0 := if 1 < M then resetLayer s (layerOf net (M - 1)) else s with hs0
  have hfr0 : BackFrame s0 s := by
    rw [hs0]
    by_cases h : 1 < M
    · rw [if_pos h]
      exact backFrame_resetLayer s _
    · rw [if_neg h]
      exact backFrame_refl s
  have hfr0n : BackFrame s0 net := backFrame_trans hfr0 hfs
  have hder0 : (s0.node q).outputDer = (s.node q).outputDer := by
    rw [hs0]
    by_cases h : 1 < M
    · rw [if_pos h, resetLayer_der, if_neg hq]
    · rw [if_neg h]
  have hsrcfold : ∀ m2 ∈ layerOf net M, ∀ eid ∈ (s0.node m2).inputEdges,
      (s0.edge eid).src ∉ layerOf net M := by
    intro m2 hm2 eid he hc
    rw [(hfr0n.2.1 m2).2.1] at he
    rw [(hfr0n.2.2 eid).1] at hc
    have hEd := hwf.2.2.2.2.1 M hMmem m2 hm2 eid he
    exact hwf.2.2.1 (M - 1) (by rw [List.mem_range]; omega) M (by rw [List.mem_range]; omega)
      (by omega) _ hEd.2 hc
  rw [layer_back_der (layerOf net M) s0 hsrcfold q, hder0]
  have hzero : ∀ x ∈ (layerOf net M).map (fun m2 => (((s0.node m2).inputEdges.filter
      (fun eid => (s0.edge eid).src == q)).map
      (fun eid => (s0.node m2).outputDer * (s0.edge eid).lf.derivative
        (s0.edge eid).lastInput)).sum), x = 0 := by
    intro x hx
    rw [List.mem_map] at hx
    obtain ⟨m2, hm2, rfl⟩ := hx
    have hnil : (s0.node m2).inputEdges.filter (fun eid => (s0.edge eid).src == q)
        = [] := by
      rw [List.filter_eq_nil_iff]
      intro eid he hc
      rw [(hfr0n.2.1 m2).2.1] at he
      have hEd := hwf.2.2.2.2.1 M hMmem m2 hm2 eid he
      have hqe : (s0.edge eid).src = q := beq_iff_eq.mp hc
      rw [(hfr0n.2.2 eid).1] at hqe
      exact hq (hqe ▸ hEd.2)
    rw [hnil]
    simp
  rw [List.sum_eq_zero hzero, add_zero]

/-- Processing layer `M ≥ 2` establishes the backward equation on every node
of layer `M - 1`: its `outputDer` was reset to `0` and then received exactly
the sum over its output edges. -/
theorem backOneLayer_establishes (net s : Net) (hwf : WF net) (hfs : BackFrame s net)
    (M : ℕ) (hM1 : 2 ≤ M) (hM2 : M < net.layers.length)
    (nid : ℕ) (hnid : nid ∈ layerOf net (M - 1)) :
    DerEq (backOneLayer s M) nid := by
  have hls := layerOf_backFrame hfs
  have h1M : 1 < M := hM1
  have hMmem : M ∈ ascList 1 (net.layers.length - 1) := by
    rw [mem_ascList]
    omega
  have hM1mem : M - 1 ∈ ascList 1 (net.layers.length - 1) := by
    rw [mem_ascList]
    omega
  rw [show backOneLayer s M = (layerOf net M).foldl (fun acc n => nodeBackward acc n)
      (resetLayer s (layerOf net (M - 1))) from by
    simp only [backOneLayer]
    rw [if_pos h1M, hls M, hls (M - 1)]]
  set s0 := resetLayer s (layerOf net (M - 1)) with hs0
  have hfr0n : BackFrame s0 net := backFrame_trans (backFrame_resetLayer s _) hfs
  have hfrtn : BackFrame ((layerOf net M).foldl (fun acc n => nodeBackward acc n) s0) net := by
    apply backFrame_trans _ hfr0n
    apply foldl_inv (fun u => BackFrame u s0)
    · intro u a _ hu
      exact backFrame_trans (backFrame_nodeBackward u a) hu
    · exact backFrame_refl s0
  have hsrcfold : ∀ m2 ∈ layerOf net M, ∀ eid ∈ (s0.node m2).inputEdges,
      (s0.edge eid).src ∉ layerOf net M := by
    intro m2 hm2 eid he hc
    rw [(hfr0n.2.1 m2).2.1] at he
    rw [(hfr0n.2.2 eid).1] at hc
    have hEd := hwf.2.2.2.2.1 M hMmem m2 hm2 eid he
    exact hwf.2.2.1 (M - 1) (by rw [List.mem_range]; omega) M (by rw [List.mem_range]; omega)
      (by omega) _ hEd.2 hc
  have hmain := layer_back_der (layerOf net M) s0 hsrcfold
  have hnid0 : (s0.node nid).outputDer = 0 := by
    rw [hs0, resetLayer_der, if_pos hnid]
  have hstableM : ∀ m ∈ layerOf net M,
      (((layerOf net M).foldl (fun acc n => nodeBackward acc n) s0).node m).outputDer
        = (s0.node m).outputDer := by
    intro m hm
    rw [hmain m]
    have hzero : ∀ x ∈ (layerOf net M).map (fun m2 => (((s0.node m2).inputEdges.filter
        (fun eid => (s0.edge eid).src == m)).map
        (fun eid => (s0.node m2).outputDer * (s0.edge eid).lf.derivative
          (s0.edge eid).lastInput)).sum), x = 0 := by
      intro x hx
      rw [List.mem_map] at hx
      obtain ⟨m2, hm2, rfl⟩ := hx
      have hnil : (s0.node m2).inputEdges.filter (fun eid => (s0.edge eid).src == m)
          = [] := by
        rw [List.filter_eq_nil_iff]
        intro eid he hc
        rw [(hfr0n.2.1 m2).2.1] at he
        have hEd := hwf.2.2.2.2.1 M hMmem m2 hm2 eid he
        have hqe : (s0.edge eid).src = m := beq_iff_eq.mp hc
        rw [(hfr0n.2.2 eid).1] at hqe
        have hmem1 : m ∈ layerOf net (M - 1) := hqe ▸ hEd.2
        exact hwf.2.2.1 (M - 1) (by rw [List.mem_range]; omega) M
          (by rw [List.mem_range]; omega) (by omega) m hmem1 hm
      rw [hnil]
      simp
    rw [List.sum_eq_zero hzero, add_zero]
  have hMeq : M - 1 + 1 = M := by omega
  have hperm := hwf.2.2.2.2.2 (M - 1) hM1mem nid hnid
  rw [hMeq] at hperm
  have hdstM : ∀ e ∈ (net.node nid).outputEdges, (net.edge e).dst ∈ layerOf net M := by
    intro e he
    have he2 := hperm.mem_iff.mpr he
    rw [List.mem_flatMap] at he2
    obtain ⟨m, hm, he3⟩ := he2
    rw [List.mem_filter] at he3
    have hEd := hwf.2.2.2.2.1 M hMmem m hm e he3.1
    rw [hEd.1]
    exact hm
  rw [DerEq_iff net ((layerOf net M).foldl (fun acc n => nodeBackward acc n) s0) hfrtn nid]
  rw [hmain nid, hnid0, zero_add]
  have hRHS : (net.node nid).outputEdges.map
        (fun eid => ((((layerOf net M).foldl (fun acc n => nodeBackward acc n) s0).node
            ((net.edge eid).dst)).outputDer)
          * (net.edge eid).lf.derivative ((net.edge eid).lastInput))
      = (net.node nid).outputEdges.map
        (fun eid => ((s0.node ((net.edge eid).dst)).outputDer)
          * (net.edge eid).lf.derivative ((net.edge eid).lastInput)) :=
    List.map_congr_left (fun e he => by rw [hstableM _ (hdstM e he)])
  rw [hRHS]
  have hLHS : (layerOf net M).map (fun m2 => (((s0.node m2).inputEdges.filter
        (fun eid => (s0.edge eid).src == nid)).map
        (fun eid => (s0.node m2).outputDer * (s0.edge eid).lf.derivative
          (s0.edge eid).lastInput)).sum)
      = (layerOf net M).map (fun m2 => (((net.node m2).inputEdges.filter
        (fun eid => (net.edge eid).src == nid)).map
        (fun eid => ((s0.node ((net.edge eid).dst)).outputDer)
          * (net.edge eid).lf.derivative ((net.edge eid).lastInput))).sum) := by
    apply List.map_congr_left
    intro m2 hm2
    rw [(hfr0n.2.1 m2).2.1]
    have hfil : (net.node m2).inputEdges.filter (fun eid => (s0.edge eid).src == nid)
        = (net.node m2).inputEdges.filter (fun eid => (net.edge eid).src == nid) :=
      List.filter_congr (fun e _ => by rw [(hfr0n.2.2 e).1])
    rw [hfil]
    congr 1
    apply List.map_congr_left
    intro e he
    rw [List.mem_filter] at he
    have hEd := hwf.2.2.2.2.1 M hMmem m2 hm2 e he.1
    rw [hEd.1, (hfr0n.2.2 e).2.2.1, (hfr0n.2.2 e).2.2.2.1]
  rw [hLHS, ← sum_map_flatMap]
  exact (hperm.map _).sum_eq

/-- Destinations of a hidden node's output edges lie in the next layer. -/
theorem outputEdges_dst_mem (net : Net) (hwf : WF net) (L : ℕ)
    (hL1 : 1 ≤ L) (hL2 : L + 1 < net.layers.length)
    (nid : ℕ) (hnid : nid ∈ layerOf net L) :
    ∀ e ∈ (net.node nid).outputEdges, (net.edge e).dst ∈ layerOf net (L + 1) := by
  have hLmem : L ∈ ascList 1 (net.layers.length - 1) := by
    rw [mem_ascList]
    omega
  have hL1mem : L + 1 ∈ ascList 1 (net.layers.length - 1) := by
    rw [mem_ascList]
    omega
  have hperm := hwf.2.2.2.2.2 L hLmem nid hnid
  intro e he
  have he2 := hperm.mem_iff.mpr he
  rw [List.mem_flatMap] at he2
  obtain ⟨m, hm, he3⟩ := he2
  rw [List.mem_filter] at he3
  have hEd := hwf.2.2.2.2.1 (L + 1) hL1mem m hm e he3.1
  rw [hEd.1]
  exact hm

/-- The descending layer loop: entering with counter `L` and the backward
equations already holding on layers `≥ max(L,1)`, it finishes with the
equations on every hidden layer and does not touch the output node. -/
theorem backLayers_spec (net : Net) (hwf : WF net)
    (outId : ℕ) (houtmem : outId ∈ layerOf net (net.layers.length - 1)) :
    ∀ (L : ℕ), L < net.layers.length → ∀ (s : Net), BackFrame s net →
      (∀ L2, L ≤ L2 → 1 ≤ L2 → L2 + 1 < net.layers.length →
        ∀ nid ∈ layerOf net L2, DerEq s nid) →
      (∀ L2, 1 ≤ L2 → L2 + 1 < net.layers.length →
        ∀ nid ∈ layerOf net L2, DerEq (backLayers s L) nid)
      ∧ ((backLayers s L).node outId).outputDer = (s.node outId).outputDer := by
  intro L
  induction L with
  | zero =>
    intro _ s hfs hin
    exact ⟨fun L2 h1 h2 nid hnid => hin L2 (Nat.zero_le _) h1 h2 nid hnid, rfl⟩
  | succ L ih =>
    intro hLN s hfs hin
    have hfs' : BackFrame (backOneLayer s (L + 1)) net :=
      backFrame_trans (backFrame_backOneLayer s (L + 1)) hfs
    have hstep : ∀ L2, L ≤ L2 → 1 ≤ L2 → L2 + 1 < net.layers.length →
        ∀ nid ∈ layerOf net L2, DerEq (backOneLayer s (L + 1)) nid := by
      intro L2 hLL2 h1 h2 nid hnid
      by_cases hcase : L2 = L
      · rw [hcase] at hnid h2
        exact backOneLayer_establishes net s hwf hfs (L + 1) (by omega) h2 nid hnid
      · have hnidder : ((backOneLayer s (L + 1)).node nid).outputDer
            = (s.node nid).outputDer := by
          apply backOneLayer_der_other net s hwf hfs (L + 1) (by omega) (by omega) nid
          show nid ∉ layerOf net L
          exact hwf.2.2.1 L2 (by rw [List.mem_range]; omega) L (by rw [List.mem_range]; omega)
            (by omega) nid hnid
        have hdsts : ∀ e ∈ (net.node nid).outputEdges,
            ((backOneLayer s (L + 1)).node ((net.edge e).dst)).outputDer
              = (s.node ((net.edge e).dst)).outputDer := by
          intro e he
          have hdstmem := outputEdges_dst_mem net hwf L2 h1 h2 nid hnid e he
          apply backOneLayer_der_other net s hwf hfs (L + 1) (by omega) (by omega)
          show (net.edge e).dst ∉ layerOf net L
          exact hwf.2.2.1 (L2 + 1) (by rw [List.mem_range]; omega) L
            (by rw [List.mem_range]; omega) (by omega) _ hdstmem
        exact DerEq_transport net (backOneLayer s (L + 1)) s hfs' hfs nid hnidder hdsts
          (hin L2 (by omega) h1 h2 nid hnid)
    have hout' : ((backOneLayer s (L + 1)).node outId).outputDer
        = (s.node outId).outputDer := by
      apply backOneLayer_der_other net s hwf hfs (L + 1) (by omega) (by omega)
      show outId ∉ layerOf net L
      exact hwf.2.2.1 (net.layers.length - 1) (by rw [List.mem_range]; omega) L
        (by rw [List.mem_range]; omega) (by omega) outId houtmem
    obtain ⟨hA, hB⟩ := ih (by omega) (backOneLayer s (L + 1)) hfs' hstep
    refine ⟨?_, ?_⟩
    · intro L2 h1 h2 nid hnid
      show DerEq (backLayers (backOneLayer s (L + 1)) L) nid
      exact hA L2 h1 h2 nid hnid
    · show ((backLayers (backOneLayer s (L + 1)) L).node outId).outputDer
        = (s.node outId).outputDer
      exact hB.trans hout'

theorem getD_mem_of_pos {l : List ℕ} (h : 0 < l.length) : l.getD 0 0 ∈ l := by
  rw [List.getD_eq_getElem l 0 h]
  exact List.getElem_mem h

theorem mem_singleton_getD {l : List ℕ} (h : l.length = 1) {a : ℕ} (ha : a ∈ l) :
    a = l.getD 0 0 := by
  cases l with
  | nil => simp at h
  | cons x xs =>
    have hxs : xs = [] := by
      cases xs with
      | nil => rfl
      | cons y ys => simp at h
    subst hxs
    rw [List.mem_singleton] at ha
    rw [ha]
    rfl

/-- One full `kanBackProp` call from any state `s` that agrees with `net` on
the forward data: the output node is seeded from the error derivative and
kept, and every hidden node ends up satisfying the backward equation. -/
theorem backprop_spec (net : Net) (hwf : WF net) (s : Net) (hfs : BackFrame s net)
    (t : ℚ) (derF : ℚ → ℚ → ℚ) :
    BackFrame (kanBackProp s t derF) net
    ∧ ((kanBackProp s t derF).node
        ((layerOf net (net.layers.length - 1)).getD 0 0)).outputDer
      = derF ((net.node ((layerOf net (net.layers.length - 1)).getD 0 0)).output) t
    ∧ (∀ L2, 1 ≤ L2 → L2 + 1 < net.layers.length →
        ∀ nid ∈ layerOf net L2, DerEq (kanBackProp s t derF) nid) := by
  have hN2 : 2 ≤ net.layers.length := hwf.1
  have hNs : s.layers.length = net.layers.length := congrArg List.length hfs.1
  have houtmem : (layerOf net (net.layers.length - 1)).getD 0 0
      ∈ layerOf net (net.layers.length - 1) := by
    apply getD_mem_of_pos
    rw [hwf.2.2.2.1]
    exact Nat.one_pos
  have hred : kanBackProp s t derF
      = backLayers (setOutputDer s ((layerOf net (net.layers.length - 1)).getD 0 0)
          (derF ((net.node ((layerOf net (net.layers.length - 1)).getD 0 0)).output) t))
          (net.layers.length - 1) := by
    show backLayers (setOutputDer s ((layerOf s (s.layers.length - 1)).getD 0 0)
        (derF ((s.node ((layerOf s (s.layers.length - 1)).getD 0 0)).output) t))
        (s.layers.length - 1) = _
    rw [layerOf_backFrame hfs, hNs,
      (hfs.2.1 ((layerOf net (net.layers.length - 1)).getD 0 0)).2.2.2.1]
  set v := derF ((net.node ((layerOf net (net.layers.length - 1)).getD 0 0)).output) t
    with hv
  set s1 := setOutputDer s ((layerOf net (net.layers.length - 1)).getD 0 0) v with hs1
  have hfs1 : BackFrame s1 net := backFrame_trans (backFrame_setOutputDer s _ v) hfs
  have hvac : ∀ L2, net.layers.length - 1 ≤ L2 → 1 ≤ L2 →
      L2 + 1 < net.layers.length → ∀ nid ∈ layerOf net L2, DerEq s1 nid := by
    intro L2 ha hb hc
    exact absurd hc (by omega)
  obtain ⟨hEq, hPres⟩ := backLayers_spec net hwf _ houtmem (net.layers.length - 1)
    (by omega) s1 hfs1 hvac
  refine ⟨?_, ?_, ?_⟩
  · rw [hred]
    exact backFrame_trans (backFrame_backLayers s1 _) hfs1
  · rw [hred, hPres, hs1, setOutputDer_der, if_pos rfl]
  · intro L2 h1 h2 nid hnid
    rw [hred]
    exact hEq L2 h1 h2 nid hnid

/-- No carry-over: two starting states that agree on the forward data (but
may hold arbitrary leftover `outputDer`s and accumulators) produce the same
`outputDer` on every non-input node. -/
theorem backprop_unique (net : Net) (hwf : WF net) (s1 s2 : Net)
    (hb1 : BackFrame s1 net) (hb2 : BackFrame s2 net) (t : ℚ) (derF : ℚ → ℚ → ℚ) :
    ∀ L, 1 ≤ L → L < net.layers.length → ∀ nid ∈ layerOf net L,
      ((kanBackProp s1 t derF).node nid).outputDer
        = ((kanBackProp s2 t derF).node nid).outputDer := by
  obtain ⟨hf1, hseed1, heq1⟩ := backprop_spec net hwf s1 hb1 t derF
  obtain ⟨hf2, hseed2, heq2⟩ := backprop_spec net hwf s2 hb2 t derF
  have key : ∀ d L, 1 ≤ L → L < net.layers.length → net.layers.length - 1 - L = d →
      ∀ nid ∈ layerOf net L,
        ((kanBackProp s1 t derF).node nid).outputDer
          = ((kanBackProp s2 t derF).node nid).outputDer := by
    intro d
    induction d using Nat.strong_induction_on with
    | _ d ihd =>
      intro L h1L hLN hd nid hnid
      by_cases hL : L = net.layers.length - 1
      · rw [hL] at hnid
        have hnid' := mem_singleton_getD hwf.2.2.2.1 hnid
        rw [hnid', hseed1, hseed2]
      · have hL1 : L + 1 < net.layers.length := by omega
        have e1 := heq1 L h1L hL1 nid hnid
        have e2 := heq2 L h1L hL1 nid hnid
        rw [DerEq_iff net _ hf1 nid] at e1
        rw [DerEq_iff net _ hf2 nid] at e2
        rw [e1, e2]
        apply congrArg List.sum
        apply List.map_congr_left
        intro e he
        have hdst := outputEdges_dst_mem net hwf L h1L hL1 nid hnid e he
        rw [ihd (net.layers.length - 1 - (L + 1)) (by omega) (L + 1) (by omega) (by omega)
          rfl _ hdst]
  intro L h1L hLN nid hnid
  exact key (net.layers.length - 1 - L) L h1L hLN rfl nid hnid

/-- **C3**: `kanBackProp` seeds the output node's `outputDer` with
`errorDerivative(output, target)`, then processes layers from `N-1` down to
`1`, resetting layer `L-1` (never the input layer) before writing into it;
afterwards the output node still holds the seed, every hidden node's
`outputDer` equals exactly the sum over its output edges of the destination
node's `outputDer` times `derivative(lastInput)` (`DerEq`), and there is no
carry-over: running the pass from any state that agrees on the forward data
but carries arbitrary leftover `outputDer`s and accumulators from a previous
backward pass (`BackFrame s net`) yields identical `outputDer`s on every
non-input node. -/
theorem C3_backprop_reset_and_sum (net : Net) (target : ℚ) (derF : ℚ → ℚ → ℚ)
    (hwf : WF net) :
    ((kanBackProp net target derF).node
        ((layerOf net (net.layers.length - 1)).getD 0 0)).outputDer
      = derF ((net.node ((layerOf net (net.layers.length - 1)).getD 0 0)).output) target
    ∧ (∀ L, 1 ≤ L → L + 1 < net.layers.length →
        ∀ nid ∈ layerOf net L, DerEq (kanBackProp net target derF) nid)
    ∧ (∀ s, BackFrame s net → ∀ L, 1 ≤ L → L < net.layers.length →
        ∀ nid ∈ layerOf net L,
          ((kanBackProp s target derF).node nid).outputDer
            = ((kanBackProp net target derF).node nid).outputDer) := by
  obtain ⟨hf, hseed, heq⟩ := backprop_spec net hwf net (backFrame_refl net) target derF
  refine ⟨hseed, heq, ?_⟩
  intro s hs L h1 h2 nid hnid
  exact backprop_unique net hwf s net hs (backFrame_refl net) target derF L h1 h2 nid hnid

def wNodeH : NodeSt :=
  { id := some "h", inputEdges := [0], outputEdges := [1], output := 0, outputDer := 0,
    bias := 0 }

def wNodeO : NodeSt :=
  { id := some "o", inputEdges := [1], outputEdges := [], output := 0, outputDer := 0,
    bias := 0 }

def wEdge1 : EdgeSt :=
  { src := 1, dst := 2, lf := wLF, lastInput := 0, accGradients := [0, 0], numAcc := 0 }

/-- A three-layer network: input node `0`, hidden node `1`, output node `2`,
edge `0 : 0 → 1` and edge `1 : 1 → 2`. -/
def wNet3 : Net :=
  { layers := [[0], [1], [2]]
    node := fun i => if i = 0 then wNode0 else if i = 1 then wNodeH else wNodeO
    edge := fun e => if e = 0 then wEdge0 else wEdge1 }

/-- Witness for C3 on a concrete three-layer network. -/
theorem C3_witness :
    WF wNet3
    ∧ (((kanBackProp wNet3 0 (fun o t => o - t)).node
          ((layerOf wNet3 (wNet3.layers.length - 1)).getD 0 0)).outputDer
        = (fun o t => o - t)
            ((wNet3.node ((layerOf wNet3 (wNet3.layers.length - 1)).getD 0 0)).output) 0
      ∧ (∀ L, 1 ≤ L → L + 1 < wNet3.layers.length →
          ∀ nid ∈ layerOf wNet3 L, DerEq (kanBackProp wNet3 0 (fun o t => o - t)) nid)
      ∧ (∀ s, BackFrame s wNet3 → ∀ L, 1 ≤ L → L < wNet3.layers.length →
          ∀ nid ∈ layerOf wNet3 L,
            ((kanBackProp s 0 (fun o t => o - t)).node nid).outputDer
              = ((kanBackProp wNet3 0 (fun o t => o - t)).node nid).outputDer)) :=
  ⟨by decide, C3_backprop_reset_and_sum wNet3 0 (fun o t => o - t) (by decide)⟩

theorem mem_of_count_eq_one {l : List ℕ} {a : ℕ} (h : l.count a = 1) : a ∈ l := by
  by_contra hc
  rw [List.count_eq_zero_of_not_mem hc] at h
  exact absurd h (by decide)

theorem fold_edgeBackward_edge_not_mem (nid2 : ℕ) :
    ∀ (es : List ℕ) (u : Net) (eid : ℕ), eid ∉ es →
      ((es.foldl (fun a e => edgeBackwardStep a nid2 e) u).edge eid) = u.edge eid := by
  intro es
  induction es with
  | nil =>
    intro u eid _
    rfl
  | cons e0 es ih =>
    intro u eid hmem
    rw [List.foldl_cons, ih _ _ (fun h => hmem (List.mem_cons_of_mem _ h)),
      edgeBackwardStep_edge, if_neg (fun h => hmem (by rw [h]; exact List.mem_cons_self _ _))]

theorem nodeBackward_edge_not_mem (s : Net) (nid2 eid : ℕ)
    (h : eid ∉ (s.node nid2).inputEdges) :
    (nodeBackward s nid2).edge eid = s.edge eid := by
  unfold nodeBackward
  exact fold_edgeBackward_edge_not_mem nid2 _ s eid h

/-- Processing a node containing edge `eid` exactly once in its input list
applies exactly one `accumulateGradients` to that edge, with the node's
current `outputDer` as factor. -/
theorem nodeBackward_edge_once (s : Net) (nid eid : ℕ)
    (hm : ∀ e ∈ (s.node nid).inputEdges, (s.edge e).src ≠ nid)
    (hcount : (s.node nid).inputEdges.count eid = 1) :
    (nodeBackward s nid).edge eid
      = accumulateGradients (s.edge eid) ((s.node nid).outputDer) := by
  have hmem : eid ∈ (s.node nid).inputEdges := mem_of_count_eq_one hcount
  obtain ⟨E1, E2, hsplit⟩ := List.append_of_mem hmem
  have hc := hcount
  rw [hsplit, List.count_append, List.count_cons_self] at hc
  have hE1 : eid ∉ E1 := by
    intro hx
    have := List.count_pos_iff_mem.mpr hx
    omega
  have hE2 : eid ∉ E2 := by
    intro hx
    have := List.count_pos_iff_mem.mpr hx
    omega
  have hsub1 : ∀ e ∈ E1, e ∈ (s.node nid).inputEdges := by
    intro e he
    rw [hsplit]
    exact List.mem_append_left _ he
  unfold nodeBackward
  rw [hsplit, List.foldl_append, List.foldl_cons]
  have hu1edge : ((E1.foldl (fun a e => edgeBackwardStep a nid e) s).edge eid)
      = s.edge eid := fold_edgeBackward_edge_not_mem nid E1 s eid hE1
  have hu1der : (((E1.foldl (fun a e => edgeBackwardStep a nid e) s)).node nid).outputDer
      = (s.node nid).outputDer := by
    rw [back_fold_der nid E1 s (fun e he => hm e (hsub1 e he)) nid]
    have hnil : E1.filter (fun e => (s.edge e).src == nid) = [] := by
      rw [List.filter_eq_nil_iff]
      intro e he hc2
      exact hm e (hsub1 e he) (beq_iff_eq.mp hc2)
    rw [hnil]
    simp
  rw [fold_edgeBackward_edge_not_mem nid E2 _ eid hE2, edgeBackwardStep_edge,
    if_pos rfl, hu1edge, hu1der]

theorem fold_nodeBackward_edge_not (ms : List ℕ) (u : Net) (eid : ℕ)
    (h : ∀ m ∈ ms, eid ∉ (u.node m).inputEdges) :
    ((ms.foldl (fun a n => nodeBackward a n) u).edge eid) = u.edge eid := by
  induction ms generalizing u with
  | nil => rfl
  | cons m0 ms ih =>
    rw [List.foldl_cons]
    have hfr := backFrame_nodeBackward u m0
    rw [ih (nodeBackward u m0) (fun m hm => by
      rw [(hfr.2.1 m).2.1]
      exact h m (List.mem_cons_of_mem _ hm))]
    exact nodeBackward_edge_not_mem u m0 eid (h m0 (List.mem_cons_self _ _))

theorem fold_nodeBackward_der_not (ms : List ℕ) (u : Net) (q : ℕ)
    (hsrc : ∀ m2 ∈ ms, ∀ e ∈ (u.node m2).inputEdges, (u.edge e).src ∉ ms)
    (hq : ∀ m2 ∈ ms, ∀ e ∈ (u.node m2).inputEdges, (u.edge e).src ≠ q) :
    ((ms.foldl (fun a n => nodeBackward a n) u).node q).outputDer
      = (u.node q).outputDer := by
  rw [layer_back_der ms u hsrc q]
  have hzero : ∀ x ∈ ms.map (fun m2 => (((u.node m2).inputEdges.filter
      (fun e => (u.edge e).src == q)).map
      (fun e => (u.node m2).outputDer * (u.edge e).lf.derivative
        (u.edge e).lastInput)).sum), x = 0 := by
    intro x hx
    rw [List.mem_map] at hx
    obtain ⟨m2, hm2, rfl⟩ := hx
    have hnil : (u.node m2).inputEdges.filter (fun e => (u.edge e).src == q) = [] := by
      rw [List.filter_eq_nil_iff]
      intro e he hc
      exact hq m2 hm2 e he (beq_iff_eq.mp hc)
    rw [hnil]
    simp
  rw [List.sum_eq_zero hzero, add_zero]

/-- Running `backward()` over a node list containing `nid` exactly once,
where only `nid`'s inputs contain edge `eid` (once), applies exactly one
accumulation to `eid` with `nid`'s entering `outputDer`. -/
theorem layer_back_edge_once (ms : List ℕ) (u : Net) (nid eid : ℕ)
    (hmem : nid ∈ ms)
    (hother : ∀ m ∈ ms, m ≠ nid → eid ∉ (u.node m).inputEdges)
    (hsrc : ∀ m2 ∈ ms, ∀ e ∈ (u.node m2).inputEdges, (u.edge e).src ∉ ms)
    (hcount : (u.node nid).inputEdges.count eid = 1)
    (hnd : ms.count nid = 1) :
    ((ms.foldl (fun a n => nodeBackward a n) u).edge eid)
      = accumulateGradients (u.edge eid) ((u.node nid).outputDer) := by
  obtain ⟨M1, M2, hsplit⟩ := List.append_of_mem hmem
  have hc := hnd
  rw [hsplit, List.count_append, List.count_cons_self] at hc
  have hM1 : nid ∉ M1 := by
    intro hx
    have := List.count_pos_iff_mem.mpr hx
    omega
  have hM2 : nid ∉ M2 := by
    intro hx
    have := List.count_pos_iff_mem.mpr hx
    omega
  have hsubs : ∀ m, m ∈ M1 ∨ m ∈ M2 → m ∈ ms := by
    intro m hm
    rw [hsplit]
    rcases hm with h | h
    · exact List.mem_append_left _ h
    · exact List.mem_append_right _ (List.mem_cons_of_mem _ h)
  rw [hsplit, List.foldl_append, List.foldl_cons]
  set u1 := M1.foldl (fun a n => nodeBackward a n) u with hu1
  have hfru1 : BackFrame u1 u := by
    rw [hu1]
    apply foldl_inv (fun w => BackFrame w u)
    · intro w a _ hw
      exact backFrame_trans (backFrame_nodeBackward w a) hw
    · exact backFrame_refl u
  have hu1edge : u1.edge eid = u.edge eid := by
    rw [hu1]
    apply fold_nodeBackward_edge_not
    intro m hm
    apply hother m (hsubs m (Or.inl hm))
    intro he
    rw [he] at hm
    exact hM1 hm
  have hu1der : (u1.node nid).outputDer = (u.node nid).outputDer := by
    rw [hu1]
    apply fold_nodeBackward_der_not
    · intro m2 hm2 e he hin
      exact hsrc m2 (hsubs m2 (Or.inl hm2)) e he (hsubs _ (Or.inl hin))
    · intro m2 hm2 e he hqe
      exact hsrc m2 (hsubs m2 (Or.inl hm2)) e he (by rw [hqe]; exact hmem)
  have hstep : (nodeBackward u1 nid).edge eid
      = accumulateGradients (u.edge eid) ((u.node nid).outputDer) := by
    rw [nodeBackward_edge_once u1 nid eid (fun e he hqe => by
        rw [(hfru1.2.1 nid).2.1] at he
        rw [(hfru1.2.2 e).1] at hqe
        exact hsrc nid hmem e he (by rw [hqe]; exact hmem))
      (by rw [(hfru1.2.1 nid).2.1]; exact hcount), hu1edge, hu1der]
  have hfru2 : BackFrame (nodeBackward u1 nid) u :=
    backFrame_trans (backFrame_nodeBackward u1 nid) hfru1
  rw [fold_nodeBackward_edge_not M2 (nodeBackward u1 nid) eid (fun m hm => by
    rw [(hfru2.2.1 m).2.1]
    apply hother m (hsubs m (Or.inr hm))
    intro he
    rw [he] at hm
    exact hM2 hm), hstep]

theorem backOneLayer_edge_not (net s : Net) (hfs : BackFrame s net)
    (M2 : ℕ) (eid : ℕ)
    (h : ∀ m ∈ layerOf net M2, eid ∉ (net.node m).inputEdges) :
    (backOneLayer s M2).edge eid = s.edge eid := by
  rw [show backOneLayer s M2 = (layerOf net M2).foldl (fun acc n => nodeBackward acc n)
      (if 1 < M2 then resetLayer s (layerOf net (M2 - 1)) else s) from by
    simp only [backOneLayer]
    rw [layerOf_backFrame hfs M2, layerOf_backFrame hfs (M2 - 1)]]
  set s0 := if 1 < M2 then resetLayer s (layerOf net (M2 - 1)) else s with hs0
  have hfr0 : BackFrame s0 s := by
    rw [hs0]
    by_cases h1 : 1 < M2
    · rw [if_pos h1]
      exact backFrame_resetLayer s _
    · rw [if_neg h1]
      exact backFrame_refl s
  have hs0e : s0.edge eid = s.edge eid := by
    rw [hs0]
    by_cases h1 : 1 < M2
    · rw [if_pos h1, resetLayer_edge]
    · rw [if_neg h1]
  rw [fold_nodeBackward_edge_not (layerOf net M2) s0 eid (fun m hm => by
    rw [((backFrame_trans hfr0 hfs).2.1 m).2.1]
    exact h m hm), hs0e]

/-- Processing the (unique) layer containing `eid`'s destination applies the
single accumulation to edge `eid`. -/
theorem backOneLayer_edge_once_layer (net s : Net) (hwf : WF net) (hfs : BackFrame s net)
    (M : ℕ) (hM1 : 1 ≤ M) (hM2 : M < net.layers.length)
    (nid eid : ℕ) (hnid : nid ∈ layerOf net M)
    (hcount : (net.node nid).inputEdges.count eid = 1)
    (honceM : ∀ m ∈ layerOf net M, eid ∈ (net.node m).inputEdges → m = nid) :
    (backOneLayer s M).edge eid
      = accumulateGradients (s.edge eid) ((s.node nid).outputDer) := by
  have hMmem : M ∈ ascList 1 (net.layers.length - 1) := by
    rw [mem_ascList]
    omega
  rw [show backOneLayer s M = (layerOf net M).foldl (fun acc n => nodeBackward acc n)
      (if 1 < M then resetLayer s (layerOf net (M - 1)) else s) from by
    simp only [backOneLayer]
    rw [layerOf_backFrame hfs M, layerOf_backFrame hfs (M - 1)]]
  set s0 := if 1 < M then resetLayer s (layerOf net (M - 1)) else s with hs0
  have hfr0 : BackFrame s0 s := by
    rw [hs0]
    by_cases h1 : 1 < M
    · rw [if_pos h1]
      exact backFrame_resetLayer s _
    · rw [if_neg h1]
      exact backFrame_refl s
  have hfr0n : BackFrame s0 net := backFrame_trans hfr0 hfs
  have hs0e : s0.edge eid = s.edge eid := by
    rw [hs0]
    by_cases h1 : 1 < M
    · rw [if_pos h1, resetLayer_edge]
    · rw [if_neg h1]
  have hs0der : (s0.node nid).outputDer = (s.node nid).outputDer := by
    rw [hs0]
    by_cases h1 : 1 < M
    · rw [if_pos h1, resetLayer_der, if_neg (hwf.2.2.1 M (by rw [List.mem_range]; omega)
        (M - 1) (by rw [List.mem_range]; omega) (by omega) nid hnid)]
    · rw [if_neg h1]
  have hndcount : (layerOf net M).count nid = 1 := by
    have h1le := List.count_pos_iff_mem.mpr hnid
    have hle1 := List.nodup_iff_count_le_one.mp
      (hwf.2.1 M (by rw [List.mem_range]; omega)) nid
    omega
  rw [layer_back_edge_once (layerOf net M) s0 nid eid hnid
    (fun m hm hne hin => hne (honceM m hm (by rw [← (hfr0n.2.1 m).2.1]; exact hin)))
    (fun m2 hm2 e he hin => by
      rw [(hfr0n.2.1 m2).2.1] at he
      rw [(hfr0n.2.2 e).1] at hin
      have hEd := hwf.2.2.2.2.1 M hMmem m2 hm2 e he
      exact hwf.2.2.1 (M - 1) (by rw [List.mem_range]; omega) M (by rw [List.mem_range]; omega)
        (by omega) _ hEd.2 hin)
    (by rw [(hfr0n.2.1 nid).2.1]; exact hcount) hndcount, hs0e, hs0der]

/-- Below the destination's layer the edge and its destination's `outputDer`
are no longer touched. -/
theorem backLayers_edge_keep (net : Net) (hwf : WF net)
    (M nid eid : ℕ) (hM1 : 1 ≤ M) (hM2 : M < net.layers.length)
    (hnid : nid ∈ layerOf net M)
    (honce : ∀ L ∈ ascList 1 (net.layers.length - 1), ∀ m ∈ layerOf net L,
      eid ∈ (net.node m).inputEdges → m = nid) :
    ∀ (L : ℕ) (s : Net), BackFrame s net → L < M →
      (backLayers s L).edge eid = s.edge eid
      ∧ ((backLayers s L).node nid).outputDer = (s.node nid).outputDer := by
  intro L
  induction L with
  | zero =>
    intro s _ _
    exact ⟨rfl, rfl⟩
  | succ L ih =>
    intro s hfs hLM
    have hfs' : BackFrame (backOneLayer s (L + 1)) net :=
      backFrame_trans (backFrame_backOneLayer s (L + 1)) hfs
    have hnotin : ∀ m ∈ layerOf net (L + 1), eid ∉ (net.node m).inputEdges := by
      intro m hm hin
      have heq := honce (L + 1) (by rw [mem_ascList]; omega) m hm hin
      rw [heq] at hm
      exact hwf.2.2.1 M (by rw [List.mem_range]; omega) (L + 1)
        (by rw [List.mem_range]; omega) (by omega) nid hnid hm
    have hedge : (backOneLayer s (L + 1)).edge eid = s.edge eid :=
      backOneLayer_edge_not net s hfs (L + 1) eid hnotin
    have hder : ((backOneLayer s (L + 1)).node nid).outputDer = (s.node nid).outputDer := by
      apply backOneLayer_der_other net s hwf hfs (L + 1) (by omega) (by omega) nid
      show nid ∉ layerOf net L
      exact hwf.2.2.1 M (by rw [List.mem_range]; omega) L (by rw [List.mem_range]; omega)
        (by omega) nid hnid
    obtain ⟨hA, hB⟩ := ih (backOneLayer s (L + 1)) hfs' (by omega)
    constructor
    · show (backLayers (backOneLayer s (L + 1)) L).edge eid = s.edge eid
      rw [hA, hedge]
    · show ((backLayers (backOneLayer s (L + 1)) L).node nid).outputDer
        = (s.node nid).outputDer
      rw [hB, hder]

/-- Over the whole descending loop an edge occurring exactly once receives
exactly one accumulation, whose factor is its destination's final
`outputDer`. -/
theorem backLayers_edge_acc (net : Net) (hwf : WF net)
    (M nid eid : ℕ) (hM1 : 1 ≤ M) (hM2 : M < net.layers.length)
    (hnid : nid ∈ layerOf net M)
    (hcount : (net.node nid).inputEdges.count eid = 1)
    (honce : ∀ L ∈ ascList 1 (net.layers.length - 1), ∀ m ∈ layerOf net L,
      eid ∈ (net.node m).inputEdges → m = nid) :
    ∀ (L : ℕ) (s : Net), BackFrame s net → M ≤ L → L < net.layers.length →
      (backLayers s L).edge eid
        = accumulateGradients (s.edge eid) (((backLayers s L).node nid).outputDer) := by
  intro L
  induction L with
  | zero =>
    intro s _ hML _
    exact absurd hML (by omega)
  | succ L ih =>
    intro s hfs hML hLN
    have hfs' : BackFrame (backOneLayer s (L + 1)) net :=
      backFrame_trans (backFrame_backOneLayer s (L + 1)) hfs
    by_cases hcase : M = L + 1
    · have honceM : ∀ m ∈ layerOf net M, eid ∈ (net.node m).inputEdges → m = nid :=
        fun m hm hin => honce M (by rw [mem_ascList]; omega) m hm hin
      have hstep : (backOneLayer s (L + 1)).edge eid
          = accumulateGradients (s.edge eid) ((s.node nid).outputDer) := by
        rw [← hcase]
        exact backOneLayer_edge_once_layer net s hwf hfs M hM1 hM2 nid eid hnid hcount honceM
      have hsder : ((backOneLayer s (L + 1)).node nid).outputDer
          = (s.node nid).outputDer := by
        apply backOneLayer_der_other net s hwf hfs (L + 1) (by omega) (by omega) nid
        show nid ∉ layerOf net L
        exact hwf.2.2.1 M (by rw [List.mem_range]; omega) L (by rw [List.mem_range]; omega)
          (by omega) nid hnid
      obtain ⟨hkeepE, hkeepD⟩ := backLayers_edge_keep net hwf M nid eid hM1 hM2 hnid honce
        L (backOneLayer s (L + 1)) hfs' (by omega)
      show (backLayers (backOneLayer s (L + 1)) L).edge eid
        = accumulateGradients (s.edge eid)
            (((backLayers (backOneLayer s (L + 1)) L).node nid).outputDer)
      rw [hkeepE, hstep, hkeepD, hsder]
    · have hnotin : ∀ m ∈ layerOf net (L + 1), eid ∉ (net.node m).inputEdges := by
        intro m hm hin
        have heq := honce (L + 1) (by rw [mem_ascList]; omega) m hm hin
        rw [heq] at hm
        exact hwf.2.2.1 M (by rw [List.mem_range]; omega) (L + 1)
          (by rw [List.mem_range]; omega) (by omega) nid hnid hm
      have hedge : (backOneLayer s (L + 1)).edge eid = s.edge eid :=
        backOneLayer_edge_not net s hfs (L + 1) eid hnotin
      show (backLayers (backOneLayer s (L + 1)) L).edge eid
        = accumulateGradients (s.edge eid)
            (((backLayers (backOneLayer s (L + 1)) L).node nid).outputDer)
      rw [← hedge]
      exact ih (backOneLayer s (L + 1)) hfs' (by omega) (by omega)

theorem fold_edgeUpdateParams_node (lr : ℚ) :
    ∀ (es : List ℕ) (u : Net),
      ((es.foldl (fun acc eid => edgeUpdateParams acc eid lr) u)).node = u.node := by
  intro es
  induction es with
  | nil =>
    intro u
    rfl
  | cons e0 es ih =>
    intro u
    rw [List.foldl_cons]
    exact ih (edgeUpdateParams u e0 lr)

theorem updateNodeWeights_node_self_bias (s : Net) (lr : ℚ) (nid : ℕ) :
    ((updateNodeWeights s lr nid).node nid).bias
      = if (s.node nid).bias ≠ 0 then (s.node nid).bias - lr * (s.node nid).outputDer
        else (s.node nid).bias := by
  simp only [updateNodeWeights]
  rw [fold_edgeUpdateParams_node]
  by_cases h : (s.node nid).bias ≠ 0
  · rw [if_pos h, if_pos h]
    rw [show (setNode s nid { s.node nid with
        bias := (s.node nid).bias - lr * (s.node nid).outputDer }).node nid
      = { s.node nid with bias := (s.node nid).bias - lr * (s.node nid).outputDer } from
      setNode_node_self s nid _]
  · rw [if_neg h, if_neg h]

theorem updateNodeWeights_node_other (s : Net) (lr : ℚ) (nid q : ℕ) (hq : q ≠ nid) :
    (updateNodeWeights s lr nid).node q = s.node q := by
  simp only [updateNodeWeights]
  rw [show ((s.node nid).inputEdges.foldl (fun acc eid => edgeUpdateParams acc eid lr)
      (if (s.node nid).bias ≠ 0 then setNode s nid { s.node nid with
        bias := (s.node nid).bias - lr * (s.node nid).outputDer } else s)).node
    = (if (s.node nid).bias ≠ 0 then setNode s nid { s.node nid with
        bias := (s.node nid).bias - lr * (s.node nid).outputDer } else s).node from
    fold_edgeUpdateParams_node lr _ _]
  by_cases h : (s.node nid).bias ≠ 0
  · rw [if_pos h]
    exact setNode_node_other s nid q _ hq
  · rw [if_neg h]

theorem updateNodeWeights_layers (s : Net) (lr : ℚ) (n : ℕ) :
    (updateNodeWeights s lr n).layers = s.layers := by
  simp only [updateNodeWeights]
  have hfold : ∀ (es : List ℕ) (u : Net),
      ((es.foldl (fun acc eid => edgeUpdateParams acc eid lr) u)).layers = u.layers := by
    intro es
    induction es with
    | nil =>
      intro u
      rfl
    | cons e0 es ih =>
      intro u
      rw [List.foldl_cons]
      exact ih (edgeUpdateParams u e0 lr)
  rw [hfold]
  by_cases h : (s.node n).bias ≠ 0
  · rw [if_pos h]
    rfl
  · rw [if_neg h]

theorem fold_updateNode_layers (lr : ℚ) : ∀ (ns : List ℕ) (u : Net),
    ((ns.foldl (fun a n => updateNodeWeights a lr n) u)).layers = u.layers := by
  intro ns
  induction ns with
  | nil =>
    intro u
    rfl
  | cons n0 ns ih =>
    intro u
    rw [List.foldl_cons, ih, updateNodeWeights_layers]

theorem fold_updateNode_node_not (lr : ℚ) : ∀ (ns : List ℕ) (u : Net) (nid : ℕ),
    nid ∉ ns →
      ((ns.foldl (fun a n => updateNodeWeights a lr n) u).node nid) = u.node nid := by
  intro ns
  induction ns with
  | nil =>
    intro u nid _
    rfl
  | cons n0 ns ih =>
    intro u nid hmem
    rw [List.foldl_cons, ih _ nid (fun h => hmem (List.mem_cons_of_mem _ h)),
      updateNodeWeights_node_other u lr n0 nid
        (fun h => hmem (by rw [h]; exact List.mem_cons_self _ _))]

theorem fold_updateNode_bias_once (lr : ℚ) (ns : List ℕ) (u : Net) (nid : ℕ)
    (hcount : ns.count nid = 1) :
    ((ns.foldl (fun a n => updateNodeWeights a lr n) u).node nid).bias
      = if (u.node nid).bias ≠ 0 then (u.node nid).bias - lr * (u.node nid).outputDer
        else (u.node nid).bias := by
  obtain ⟨A, B, hsplit⟩ := List.append_of_mem (mem_of_count_eq_one hcount)
  have hc := hcount
  rw [hsplit, List.count_append, List.count_cons_self] at hc
  have hA : nid ∉ A := by
    intro hx
    have := List.count_pos_iff_mem.mpr hx
    omega
  have hB : nid ∉ B := by
    intro hx
    have := List.count_pos_iff_mem.mpr hx
    omega
  rw [hsplit, List.foldl_append, List.foldl_cons,
    fold_updateNode_node_not lr B _ nid hB, updateNodeWeights_node_self_bias,
    fold_updateNode_node_not lr A u nid hA]

theorem ascList_nodup : ∀ (n st : ℕ), (ascList st n).Nodup := by
  intro n
  induction n with
  | zero =>
    intro st
    exact List.nodup_nil
  | succ n ih =>
    intro st
    show (st :: ascList (st + 1) n).Nodup
    rw [List.nodup_cons]
    refine ⟨?_, ih (st + 1)⟩
    rw [mem_ascList]
    omega

theorem fold_layers_updateNode_node_not (lr : ℚ) (net : Net) (nid : ℕ) :
    ∀ (Ls : List ℕ) (u : Net), u.layers = net.layers →
      (∀ L ∈ Ls, nid ∉ layerOf net L) →
      ((Ls.foldl (fun acc L => (layerOf acc L).foldl
          (fun a n => updateNodeWeights a lr n) acc) u)).node nid = u.node nid
      ∧ ((Ls.foldl (fun acc L => (layerOf acc L).foldl
          (fun a n => updateNodeWeights a lr n) acc) u)).layers = net.layers := by
  intro Ls
  induction Ls with
  | nil =>
    intro u hu _
    exact ⟨rfl, hu⟩
  | cons L0 Ls ih =>
    intro u hu hnot
    rw [List.foldl_cons]
    have hlay : layerOf u L0 = layerOf net L0 := by
      unfold layerOf
      rw [hu]
    have hstep1 : ((layerOf u L0).foldl (fun a n => updateNodeWeights a lr n) u).layers
        = net.layers := by
      rw [fold_updateNode_layers, hu]
    have hstep2 : ((layerOf u L0).foldl (fun a n => updateNodeWeights a lr n) u).node nid
        = u.node nid := by
      rw [hlay]
      exact fold_updateNode_node_not lr _ u nid (hnot L0 (List.mem_cons_self _ _))
    obtain ⟨hn, hl⟩ := ih _ hstep1 (fun L hL => hnot L (List.mem_cons_of_mem _ hL))
    exact ⟨hn.trans hstep2, hl⟩

/-- In `updateKANWeights`, the bias of a node of layer `M ∈ [1, N)` is
stepped exactly once: by `lr * outputDer` if nonzero, otherwise untouched. -/
theorem updateKANWeights_bias (net s : Net) (hwf : WF net) (hsl : s.layers = net.layers)
    (lr : ℚ) (M nid : ℕ) (hM1 : 1 ≤ M) (hM2 : M < net.layers.length)
    (hnid : nid ∈ layerOf net M) :
    ((updateKANWeights s lr).node nid).bias
      = if (s.node nid).bias ≠ 0 then (s.node nid).bias - lr * (s.node nid).outputDer
        else (s.node nid).bias := by
  have hN : s.layers.length = net.layers.length := by rw [hsl]
  unfold updateKANWeights
  rw [hN]
  have hMmem : M ∈ ascList 1 (net.layers.length - 1) := by
    rw [mem_ascList]
    omega
  have hcountM : (ascList 1 (net.layers.length - 1)).count M = 1 := by
    have h1 := List.count_pos_iff_mem.mpr hMmem
    have h2 := List.nodup_iff_count_le_one.mp
      (ascList_nodup (net.layers.length - 1) 1) M
    omega
  obtain ⟨A, B, hsplit⟩ := List.append_of_mem hMmem
  have hc := hcountM
  rw [hsplit, List.count_append, List.count_cons_self] at hc
  have hMA : M ∉ A := by
    intro hx
    have := List.count_pos_iff_mem.mpr hx
    omega
  have hMB : M ∉ B := by
    intro hx
    have := List.count_pos_iff_mem.mpr hx
    omega
  have hnotA : ∀ L ∈ A, nid ∉ layerOf net L := by
    intro L hL
    have hLmem : L ∈ ascList 1 (net.layers.length - 1) := by
      rw [hsplit]
      exact List.mem_append_left _ hL
    rw [mem_ascList] at hLmem
    have hLM : L ≠ M := by
      intro h
      rw [h] at hL
      exact hMA hL
    exact hwf.2.2.1 M (by rw [List.mem_range]; omega) L (by rw [List.mem_range]; omega)
      (fun h => hLM h.symm) nid hnid
  have hnotB : ∀ L ∈ B, nid ∉ layerOf net L := by
    intro L hL
    have hLmem : L ∈ ascList 1 (net.layers.length - 1) := by
      rw [hsplit]
      exact List.mem_append_right _ (List.mem_cons_of_mem _ hL)
    rw [mem_ascList] at hLmem
    have hLM : L ≠ M := by
      intro h
      rw [h] at hL
      exact hMB hL
    exact hwf.2.2.1 M (by rw [List.mem_range]; omega) L (by rw [List.mem_range]; omega)
      (fun h => hLM h.symm) nid hnid
  rw [hsplit, List.foldl_append, List.foldl_cons]
  obtain ⟨hA1, hA2⟩ := fold_layers_updateNode_node_not lr net nid A s hsl hnotA
  set u1 := A.foldl (fun acc L => (layerOf acc L).foldl
    (fun a n => updateNodeWeights a lr n) acc) s with hu1
  have hlayM : layerOf u1 M = layerOf net M := by
    unfold layerOf
    rw [hA2]
  have hcountnid : (layerOf u1 M).count nid = 1 := by
    rw [hlayM]
    have h1 := List.count_pos_iff_mem.mpr hnid
    have h2 := List.nodup_iff_count_le_one.mp
      (hwf.2.1 M (by rw [List.mem_range]; omega)) nid
    omega
  have hlayM2 : ((layerOf u1 M).foldl (fun a n => updateNodeWeights a lr n) u1).layers
      = net.layers := by
    rw [fold_updateNode_layers, hA2]
  obtain ⟨hB1, hB2⟩ := fold_layers_updateNode_node_not lr net nid B
    ((layerOf u1 M).foldl (fun a n => updateNodeWeights a lr n) u1) hlayM2 hnotB
  rw [show (B.foldl (fun acc L => (layerOf acc L).foldl
      (fun a n => updateNodeWeights a lr n) acc)
      ((layerOf u1 M).foldl (fun a n => updateNodeWeights a lr n) u1)).node nid
    = ((layerOf u1 M).foldl (fun a n => updateNodeWeights a lr n) u1).node nid from hB1]
  rw [fold_updateNode_bias_once lr _ u1 nid hcountnid, hA1]

theorem kanBackProp_eq (net s : Net) (hfs : BackFrame s net) (t : ℚ)
    (derF : ℚ → ℚ → ℚ) :
    kanBackProp s t derF
      = backLayers (setOutputDer s ((layerOf net (net.layers.length - 1)).getD 0 0)
          (derF ((net.node ((layerOf net (net.layers.length - 1)).getD 0 0)).output) t))
          (net.layers.length - 1) := by
  have hNs : s.layers.length = net.layers.length := congrArg List.length hfs.1
  show backLayers (setOutputDer s ((layerOf s (s.layers.length - 1)).getD 0 0)
      (derF ((s.node ((layerOf s (s.layers.length - 1)).getD 0 0)).output) t))
      (s.layers.length - 1) = _
  rw [layerOf_backFrame hfs, hNs,
    (hfs.2.1 ((layerOf net (net.layers.length - 1)).getD 0 0)).2.2.2.1]

/-- One full backward pass applies exactly one accumulation to an edge whose
destination contains it exactly once, with the destination's final
`outputDer` as factor. -/
theorem backprop_edge_acc (net : Net) (hwf : WF net) (s : Net) (hfs : BackFrame s net)
    (t : ℚ) (derF : ℚ → ℚ → ℚ)
    (M nid eid : ℕ) (hM1 : 1 ≤ M) (hM2 : M < net.layers.length)
    (hnid : nid ∈ layerOf net M)
    (hcount : (net.node nid).inputEdges.count eid = 1)
    (honce : ∀ L ∈ ascList 1 (net.layers.length - 1), ∀ m ∈ layerOf net L,
      eid ∈ (net.node m).inputEdges → m = nid) :
    (kanBackProp s t derF).edge eid
      = accumulateGradients (s.edge eid)
          (((kanBackProp s t derF).node nid).outputDer) := by
  rw [kanBackProp_eq net s hfs t derF]
  set s1 := setOutputDer s ((layerOf net (net.layers.length - 1)).getD 0 0)
    (derF ((net.node ((layerOf net (net.layers.length - 1)).getD 0 0)).output) t) with hs1
  have hfs1 : BackFrame s1 net := backFrame_trans (backFrame_setOutputDer s _ _) hfs
  rw [backLayers_edge_acc net hwf M nid eid hM1 hM2 hnid hcount honce
    (net.layers.length - 1) s1 hfs1 (by omega) (by omega)]
  rfl

theorem accumList_accumList (g1 g2 : ℚ) :
    ∀ (a d : List ℚ), accumList g2 (accumList g1 a d) d = accumList (g1 + g2) a d := by
  intro a
  induction a with
  | nil =>
    intro d
    cases d <;> rfl
  | cons a0 as ih =>
    intro d
    cases d with
    | nil => rfl
    | cons d0 ds =>
      show (a0 + g1 * d0 + g2 * d0) :: accumList g2 (accumList g1 as ds) ds
        = (a0 + (g1 + g2) * d0) :: accumList (g1 + g2) as ds
      rw [ih ds]
      congr 1
      ring

theorem accumulateGradients_twice (e : EdgeSt) (g1 g2 : ℚ) :
    accumulateGradients (accumulateGradients e g1) g2
      = { e with
          accGradients := accumList (g1 + g2) e.accGradients
            (e.lf.getControlPointGradients e.lastInput)
          numAcc := e.numAcc + 2 } := by
  show ({ e with
      accGradients := accumList g2 (accumList g1 e.accGradients
        (e.lf.getControlPointGradients e.lastInput))
        (e.lf.getControlPointGradients e.lastInput)
      numAcc := e.numAcc + 1 + 1 } : EdgeSt) = _
  rw [accumList_accumList]

theorem count_flatMap {α : Type} (l : List α) (f : α → List ℕ) (b : ℕ) :
    (l.flatMap f).count b = (l.map (fun a => (f a).count b)).sum := by
  induction l with
  | nil => rfl
  | cons a l ih =>
    rw [List.flatMap_cons, List.count_append, List.map_cons, List.sum_cons, ih]

theorem flatMap_nodup_once {α : Type} (l : List α) (f : α → List ℕ)
    (hn : (l.flatMap f).Nodup) (a0 : α) (h0 : a0 ∈ l) (b : ℕ) (hb : b ∈ f a0) :
    (f a0).count b = 1 ∧ ∀ a ∈ l, b ∈ f a → a = a0 := by
  have hc1 : (l.flatMap f).count b ≤ 1 := List.nodup_iff_count_le_one.mp hn b
  obtain ⟨l1, l2, hsplit⟩ := List.append_of_mem h0
  have htot := hc1
  rw [hsplit, List.flatMap_append, List.count_append, List.flatMap_cons,
    List.count_append] at htot
  have hpos : 0 < (f a0).count b := List.count_pos_iff_mem.mpr hb
  refine ⟨by omega, ?_⟩
  intro a ha hba
  by_contra hne
  rw [hsplit] at ha
  rcases List.mem_append.mp ha with h1 | h2
  · have : 0 < (l1.flatMap f).count b :=
      List.count_pos_iff_mem.mpr (List.mem_flatMap.mpr ⟨a, h1, hba⟩)
    omega
  · rcases List.mem_cons.mp h2 with heq | h3
    · exact hne heq
    · have : 0 < (l2.flatMap f).count b :=
        List.count_pos_iff_mem.mpr (List.mem_flatMap.mpr ⟨a, h3, hba⟩)
      omega

/-- **C8**: in `updateKANWeights` a node's bias is stepped (by
`lr * outputDer`) only when it is nonzero, and the step uses the `outputDer`
left by the most recent `backwardProp`: after two backward passes without an
intervening update, every non-input node's `outputDer` — and hence the bias
step — equals what a single second pass alone would give (overwrite
semantics), while each input edge accumulated both passes' gradient
contributions (`accGradients` grew by `g1 + g2` times the control-point
gradients and `numAcc` by `2`), which the next update then averages. -/
theorem C8_bias_overwrite_edges_accumulate (net : Net) (lr t1 t2 : ℚ)
    (derF : ℚ → ℚ → ℚ) (hwf : WF net) (hnodup : (allInputEdges net).Nodup) :
    (∀ L, 1 ≤ L → L < net.layers.length → ∀ nid ∈ layerOf net L,
      ((kanBackProp (kanBackProp net t1 derF) t2 derF).node nid).outputDer
        = ((kanBackProp net t2 derF).node nid).outputDer)
    ∧ (∀ L, 1 ≤ L → L < net.layers.length → ∀ nid ∈ layerOf net L,
      ((updateKANWeights (kanBackProp (kanBackProp net t1 derF) t2 derF) lr).node
          nid).bias
        = if (net.node nid).bias ≠ 0 then
            (net.node nid).bias - lr * ((kanBackProp net t2 derF).node nid).outputDer
          else (net.node nid).bias)
    ∧ (∀ eid ∈ allInputEdges net,
      ((kanBackProp (kanBackProp net t1 derF) t2 derF).edge eid).numAcc
          = (net.edge eid).numAcc + 2
      ∧ ((kanBackProp (kanBackProp net t1 derF) t2 derF).edge eid).accGradients
          = accumList (((kanBackProp net t1 derF).node ((net.edge eid).dst)).outputDer
              + ((kanBackProp net t2 derF).node ((net.edge eid).dst)).outputDer)
            (net.edge eid).accGradients
            ((net.edge eid).lf.getControlPointGradients (net.edge eid).lastInput)) := by
  have hN2 : 2 ≤ net.layers.length := hwf.1
  have hf1 : BackFrame (kanBackProp net t1 derF) net :=
    (backprop_spec net hwf net (backFrame_refl net) t1 derF).1
  have hf12 : BackFrame (kanBackProp (kanBackProp net t1 derF) t2 derF) net :=
    (backprop_spec net hwf (kanBackProp net t1 derF) hf1 t2 derF).1
  have hovw : ∀ L, 1 ≤ L → L < net.layers.length → ∀ nid ∈ layerOf net L,
      ((kanBackProp (kanBackProp net t1 derF) t2 derF).node nid).outputDer
        = ((kanBackProp net t2 derF).node nid).outputDer :=
    backprop_unique net hwf (kanBackProp net t1 derF) net hf1 (backFrame_refl net) t2 derF
  refine ⟨hovw, ?_, ?_⟩
  · intro L h1 h2 nid hnid
    rw [updateKANWeights_bias net (kanBackProp (kanBackProp net t1 derF) t2 derF) hwf
      hf12.1 lr L nid h1 h2 hnid, (hf12.2.1 nid).2.2.2.2, hovw L h1 h2 nid hnid]
  · intro eid helem
    have helem' := helem
    unfold allInputEdges at helem'
    rw [List.mem_flatMap] at helem'
    obtain ⟨nid, hnid, heid⟩ := helem'
    have hnd := hnodup
    unfold allInputEdges at hnd
    obtain ⟨hcount, honce'⟩ := flatMap_nodup_once _ _ hnd nid hnid eid heid
    have hnid2 := hnid
    rw [List.mem_flatMap] at hnid2
    obtain ⟨M, hM, hnid3⟩ := hnid2
    rw [mem_ascList] at hM
    have hM2 : M < net.layers.length := by omega
    have honce : ∀ L ∈ ascList 1 (net.layers.length - 1), ∀ m ∈ layerOf net L,
        eid ∈ (net.node m).inputEdges → m = nid := by
      intro L hL m hm hin
      exact honce' m (List.mem_flatMap.mpr ⟨L, hL, hm⟩) hin
    have hMasc : M ∈ ascList 1 (net.layers.length - 1) := by
      rw [mem_ascList]
      omega
    have hdst : (net.edge eid).dst = nid :=
      (hwf.2.2.2.2.1 M hMasc nid hnid3 eid heid).1
    have hp1 := backprop_edge_acc net hwf net (backFrame_refl net) t1 derF M nid eid
      hM.1 hM2 hnid3 hcount honce
    have hp12 := backprop_edge_acc net hwf (kanBackProp net t1 derF) hf1 t2 derF M nid eid
      hM.1 hM2 hnid3 hcount honce
    rw [hp1, accumulateGradients_twice] at hp12
    rw [hovw M hM.1 hM2 nid hnid3] at hp12
    rw [hdst]
    constructor
    · rw [hp12]
    · rw [hp12]

/-- Witness for C8 on a concrete three-layer network. -/
theorem C8_witness :
    (WF wNet3 ∧ (allInputEdges wNet3).Nodup)
    ∧ ((∀ L, 1 ≤ L → L < wNet3.layers.length → ∀ nid ∈ layerOf wNet3 L,
        ((kanBackProp (kanBackProp wNet3 1 (fun o t => o - t)) 2
            (fun o t => o - t)).node nid).outputDer
          = ((kanBackProp wNet3 2 (fun o t => o - t)).node nid).outputDer)
      ∧ (∀ L, 1 ≤ L → L < wNet3.layers.length → ∀ nid ∈ layerOf wNet3 L,
        ((updateKANWeights (kanBackProp (kanBackProp wNet3 1 (fun o t => o - t)) 2
            (fun o t => o - t)) 1).node nid).bias
          = if (wNet3.node nid).bias ≠ 0 then
              (wNet3.node nid).bias
                - 1 * ((kanBackProp wNet3 2 (fun o t => o - t)).node nid).outputDer
            else (wNet3.node nid).bias)
      ∧ (∀ eid ∈ allInputEdges wNet3,
        ((kanBackProp (kanBackProp wNet3 1 (fun o t => o - t)) 2
            (fun o t => o - t)).edge eid).numAcc
            = (wNet3.edge eid).numAcc + 2
        ∧ ((kanBackProp (kanBackProp wNet3 1 (fun o t => o - t)) 2
            (fun o t => o - t)).edge eid).accGradients
            = accumList
              (((kanBackProp wNet3 1 (fun o t => o - t)).node
                  ((wNet3.edge eid).dst)).outputDer
                + ((kanBackProp wNet3 2 (fun o t => o - t)).node
                  ((wNet3.edge eid).dst)).outputDer)
              (wNet3.edge eid).accGradients
              ((wNet3.edge eid).lf.getControlPointGradients
                (wNet3.edge eid).lastInput))) :=
  ⟨⟨by decide, by decide⟩,
    C8_bias_overwrite_edges_accumulate wNet3 1 1 2 (fun o t => o - t) (by decide)
      (by decide)⟩
